import Mathlib

/-!
Virtual 8259A PIC pair (`hypervisor/arch/x86/guest/vpic.c`).

A shallow embedding of the emulation core of the virtual PIC and the
properties of its specification.

Modelling conventions.

* `uint8_t` registers (`request`, `service`, `mask`, `smm`, `elc`) are `Nat`;
  a store of a value that need not fit in 8 bits is truncated with `u8`
  (`% 256`).  Properties of single register bits are stated for the bits
  0..7 (`Nat.testBit`).
* C `int` values are `Int`.  `x & 0x7` on an `int` is `and7 x`
  (`x mod 8`, the two's complement value of the low three bits) and
  `x & ~0x7` is `x - x mod 8`.  The assertion counters `acnt[]` are
  unbounded integers: signed overflow is undefined in C and would need
  2^31 unbalanced assertions.
* `struct pic *pic` arguments are a `Chip` selecting `pic[0]` or `pic[1]`.
* Calls that leave the file (ExtINT injection, LAPIC, I/O APIC, passthrough
  remap and ack) are recorded in the `trace` of the controller.
* The spin lock is not modelled: every operation is one atomic step.
* `vpic_notify_intr` and `vpic_set_pinstate` call each other; they are defined
  with a bound on the call depth (`vpic_notify_intr_fuel`,
  `vpic_set_pinstate_fuel`) and the bound used is shown never to be exhausted
  (`vpic_notify_intr_fuel_eq`, `vpic_set_pinstate_fuel_eq`).
-/

namespace Acrn

/-! ## Machine arithmetic -/

/-- Truncation performed by a store into a `uint8_t` object. -/
def u8 (x : Nat) : Nat := x % 256

/-- The C expression `1 << pin`. -/
def bit (pin : Nat) : Nat := 1 <<< pin

/-- The C expression `~x` on the 32-bit pattern of an `int`. -/
def not32 (x : Nat) : Nat := 0xFFFFFFFF ^^^ x

/-- The C expression `x & 0x7` on an `int`. -/
def and7 (x : Int) : Nat := (x % 8).toNat

/-! ## Constants of the headers -/

/-- Modelled from the spec: `ICU_IMR_OFFSET`, the data port is the odd offset
(dispatch on `port & 1`). -/
def ICU_IMR_OFFSET : Nat := 1
/-- Modelled from the spec: ICW1 bit 1 (SNGL). -/
def ICW1_SNGL : Nat := 0x02
/-- Modelled from the spec: ICW1 bit 0 (IC4). -/
def ICW1_IC4 : Nat := 0x01
/-- Modelled from the spec: ICW4 bit 0 (8086 mode). -/
def ICW4_8086 : Nat := 0x01
/-- Modelled from the spec: ICW4 bit 1 (AEOI). -/
def ICW4_AEOI : Nat := 0x02
/-- Modelled from the spec: ICW4 bit 4 (SFNM). -/
def ICW4_SFNM : Nat := 0x10
/-- Modelled from the spec: OCW2 bit 7 (R). -/
def OCW2_R : Nat := 0x80
/-- Modelled from the spec: OCW2 bit 6 (SL). -/
def OCW2_SL : Nat := 0x40
/-- Modelled from the spec: OCW2 bit 5 (EOI). -/
def OCW2_EOI : Nat := 0x20
/-- Modelled from the spec: OCW3 bit 6 (ESMM). -/
def OCW3_ESMM : Nat := 0x40
/-- Modelled from the spec: OCW3 bit 5 (SMM). -/
def OCW3_SMM : Nat := 0x20
/-- Modelled from the spec: OCW3 bit 1 (RR). -/
def OCW3_RR : Nat := 0x02
/-- Modelled from the spec: OCW3 bit 0 (RIS). -/
def OCW3_RIS : Nat := 0x01
/-- Modelled from the spec: OCW3 bit 2 (P). -/
def OCW3_P : Nat := 0x04
/-- Modelled from the spec: `IO_ELCR1`, the master ELCR port `0x4D0`. -/
def IO_ELCR1 : Nat := 0x4d0
/-- Modelled from the spec: `EINVAL`, the invalid-argument error code; only
its being positive is used. -/
def EINVAL : Int := 22

/-! ## Data model -/

/-- Type `enum irqstate`. -/
inductive irqstate where
  | IRQSTATE_ASSERT
  | IRQSTATE_DEASSERT
  | IRQSTATE_PULSE
  deriving DecidableEq, Repr

/-- Modelled from the spec: `enum vpic_trigger` (edge or level). -/
inductive vpic_trigger where
  | EDGE_TRIGGER
  | LEVEL_TRIGGER
  deriving DecidableEq, Repr

/-- Modelled from the spec: the wire mode of the VM, INTR or anything else
(LAPIC LINT0 together with the I/O APIC). -/
inductive vpic_wire_mode where
  | VPIC_WIRE_INTR
  | VPIC_WIRE_OTHER
  deriving DecidableEq, Repr

/-- Calls into the collaborating layers, in the order they are made. -/
inductive Event where
  /-- Call `vcpu_inject_extint(vcpu0)`. -/
  | inject_extint
  /-- Call `vlapic_set_local_intr(vm, -1, APIC_LVT_LINT0)`. -/
  | lapic_lint0
  /-- Call `vioapic_pulse_irq(vm, irq)`. -/
  | ioapic_pulse (irq : Nat)
  /-- Call `ptdev_intx_pin_remap` with `intx.virt_pin`. -/
  | ptdev_remap (virt_pin : Nat)
  /-- Call `ptdev_intx_ack(vm, virt_pin, PTDEV_VPIN_PIC)`. -/
  | ptdev_ack (virt_pin : Int)
  deriving DecidableEq, Repr

/-- Type `struct pic`. -/
structure Pic where
  ready : Bool
  icw_num : Int
  rd_cmd_reg : Int
  aeoi : Bool
  poll : Bool
  rotate : Bool
  sfn : Bool
  irq_base : Int
  request : Nat
  service : Nat
  mask : Nat
  smm : Nat
  acnt : Fin 8 → Int
  lowprio : Int
  intr_raised : Bool
  elc : Nat

/-- Index into `vpic->pic[2]`; a `struct pic *` is one of the two. -/
inductive Chip where
  | master
  | slave
  deriving DecidableEq, Repr

/-- Type `struct vpic`, with the wire mode of its VM and the trace of the calls
made on the VM. -/
structure Vpic where
  wire_mode : vpic_wire_mode
  trace : List Event
  pic0 : Pic
  pic1 : Pic

/-- Read `vpic->pic[c]`. -/
def Vpic.pic (v : Vpic) : Chip → Pic
  | .master => v.pic0
  | .slave => v.pic1

/-- Write `vpic->pic[c]`. -/
def Vpic.setPic (v : Vpic) (c : Chip) (p : Pic) : Vpic :=
  match c with
  | .master => { v with pic0 := p }
  | .slave => { v with pic1 := p }

/-- Record a call on the VM. -/
def Vpic.emit (v : Vpic) (e : Event) : Vpic :=
  { v with trace := v.trace ++ [e] }

/-- The chip `&vpic->pic[i]` for `i = pin >> 3` with `pin` in `0..15`. -/
def pic_index (i : Nat) : Chip := if i = 0 then .master else .slave

/-- The array slot `acnt[pin & 0x7]`. -/
def slot (pin : Nat) : Fin 8 := ⟨pin % 8, Nat.mod_lt _ (by decide)⟩

/-- Function `master_pic`. -/
def master_pic (c : Chip) : Bool :=
  match c with
  | .master => true
  | .slave => false

/-! ## Priority engine -/

/-- The body of `PIC_PIN_FOREACH` in `vpic_get_highest_isrpin`, with `n`
iterations left and the loop variable at `pin`. -/
def isr_loop (pic : Pic) : Nat → Nat → Int
  | 0, _ => -1
  | n + 1, pin =>
    if (pic.service &&& bit pin) ≠ 0 then
      if pic.smm ≠ 0 ∧ (pic.mask &&& bit pin) ≠ 0 then
        isr_loop pic n ((pin + 1) % 8)
      else
        (pin : Int)
    else
      isr_loop pic n ((pin + 1) % 8)

/-- Function `vpic_get_highest_isrpin`. -/
def vpic_get_highest_isrpin (pic : Pic) : Int :=
  isr_loop pic 8 (and7 (pic.lowprio + 1))

/-- The body of `PIC_PIN_FOREACH` in `vpic_get_highest_irrpin`. -/
def irr_loop (pic : Pic) (serviced : Nat) : Nat → Nat → Int
  | 0, _ => -1
  | n + 1, pin =>
    if (serviced &&& bit pin) ≠ 0 then
      -1
    else if (pic.request &&& bit pin) ≠ 0 ∧ (pic.mask &&& bit pin) = 0 then
      (pin : Int)
    else
      irr_loop pic serviced n ((pin + 1) % 8)

/-- The local `serviced` of `vpic_get_highest_irrpin` when the loop starts. -/
def irr_serviced (pic : Pic) : Nat :=
  let serviced := pic.service
  let serviced := if pic.sfn then serviced &&& not32 (bit 2) else serviced
  if pic.smm ≠ 0 then 0 else serviced

/-- Function `vpic_get_highest_irrpin`. -/
def vpic_get_highest_irrpin (pic : Pic) : Int :=
  irr_loop pic (irr_serviced pic) 8 (and7 (pic.lowprio + 1))

/-! ## Pin driver and notification -/

/-- The part of `vpic_set_pinstate` before its call of `vpic_notify_intr`:
the counter and IRR update of the addressed pin. -/
def pinstate_update (v : Vpic) (pin : Nat) (newstate : Bool) : Vpic :=
  let c := pic_index (pin >>> 3)
  let pic := v.pic c
  let oldcnt := pic.acnt (slot pin)
  let newcnt := if newstate then oldcnt + 1 else oldcnt - 1
  let pic := { pic with acnt := Function.update pic.acnt (slot pin) newcnt }
  let level : Bool := decide ((pic.elc &&& bit (pin % 8)) ≠ 0)
  if (oldcnt = 0 ∧ newcnt = 1) ∨ (newcnt > 0 ∧ level = true) then
    v.setPic c { pic with request := u8 (pic.request ||| bit (pin % 8)) }
  else if oldcnt = 1 ∧ newcnt = 0 then
    if level then
      v.setPic c { pic with request := u8 (pic.request &&& not32 (bit (pin % 8))) }
    else
      v.setPic c pic
  else
    v.setPic c pic

/-- The second half of `vpic_notify_intr` ("Then check the master"). -/
def notify_master (v : Vpic) : Vpic :=
  let pic := v.pic0
  let pin := vpic_get_highest_irrpin pic
  if pic.intr_raised = false ∧ pin ≠ -1 then
    let v := { v with pic0 := { pic with intr_raised := true } }
    match v.wire_mode with
    | .VPIC_WIRE_INTR => v.emit .inject_extint
    | .VPIC_WIRE_OTHER => (v.emit .lapic_lint0).emit (.ioapic_pulse 0)
  else
    v

mutual
/-- Function `vpic_notify_intr`, with a bound on the depth of its recursion
through `vpic_set_pinstate`; `none` when the bound is exhausted. -/
def vpic_notify_intr_fuel : Nat → Vpic → Option Vpic
  | 0, _ => none
  | fuel + 1, v =>
    let pic := v.pic1
    let pin := vpic_get_highest_irrpin pic
    if pic.intr_raised = false ∧ pin ≠ -1 then
      let v := { v with pic1 := { pic with intr_raised := true } }
      match vpic_set_pinstate_fuel fuel v 2 true with
      | none => none
      | some v =>
        match vpic_set_pinstate_fuel fuel v 2 false with
        | none => none
        | some v => some (notify_master v)
    else
      some (notify_master v)
/-- Function `vpic_set_pinstate`, with the same bound. -/
def vpic_set_pinstate_fuel : Nat → Vpic → Nat → Bool → Option Vpic
  | 0, _, _, _ => none
  | fuel + 1, v, pin, newstate =>
    vpic_notify_intr_fuel fuel (pinstate_update v pin newstate)
end

/-- Function `vpic_notify_intr`: depth 3 is never exhausted
(`vpic_notify_intr_fuel_eq`). -/
def vpic_notify_intr (v : Vpic) : Vpic :=
  (vpic_notify_intr_fuel 3 v).getD v

/-- Function `vpic_set_pinstate`: depth 4 is never exhausted
(`vpic_set_pinstate_fuel_eq`). -/
def vpic_set_pinstate (v : Vpic) (pin : Nat) (newstate : Bool) : Vpic :=
  (vpic_set_pinstate_fuel 4 v pin newstate).getD v

/-! ## Command decoder -/

/-- Function `vpic_icw1`; returns the chip and the error code. -/
def vpic_icw1 (pic : Pic) (val : Nat) : Pic × Int :=
  let pic := { pic with
    ready := false, icw_num := 1, request := 0, mask := 0, lowprio := 7,
    rd_cmd_reg := 0, poll := false, smm := 0 }
  if (val &&& ICW1_SNGL) ≠ 0 then
    (pic, -1)
  else if (val &&& ICW1_IC4) = 0 then
    (pic, -1)
  else
    ({ pic with icw_num := pic.icw_num + 1 }, 0)

/-- Function `vpic_icw2`. -/
def vpic_icw2 (pic : Pic) (val : Nat) : Pic × Int :=
  ({ pic with irq_base := ((val &&& 0xf8 : Nat) : Int), icw_num := pic.icw_num + 1 }, 0)

/-- Function `vpic_icw3`. -/
def vpic_icw3 (pic : Pic) (_val : Nat) : Pic × Int :=
  ({ pic with icw_num := pic.icw_num + 1 }, 0)

/-- Function `vpic_icw4`. -/
def vpic_icw4 (c : Chip) (pic : Pic) (val : Nat) : Pic × Int :=
  if (val &&& ICW4_8086) = 0 then
    (pic, -1)
  else
    let pic := if (val &&& ICW4_AEOI) ≠ 0 then { pic with aeoi := true } else pic
    let pic :=
      if (val &&& ICW4_SFNM) ≠ 0 then
        if master_pic c then { pic with sfn := true } else pic
      else pic
    ({ pic with icw_num := 0, ready := true }, 0)

/-- Function `vpic_is_pin_mask`. -/
def vpic_is_pin_mask (v : Vpic) (virt_pin : Nat) : Bool :=
  if virt_pin < 8 then
    decide ((v.pic0.mask &&& bit virt_pin) ≠ 0)
  else if virt_pin < 16 then
    decide ((v.pic1.mask &&& bit (virt_pin - 8)) ≠ 0)
  else
    true

/-- The body of `PIC_PIN_FOREACH` in `vpic_ocw1`: the remap calls for the pins
that went from masked to unmasked. -/
def ocw1_loop (c : Chip) (mask old : Nat) : Nat → Nat → List Event
  | 0, _ => []
  | n + 1, pin =>
    if (mask &&& bit pin) = 0 ∧ (old &&& bit pin) ≠ 0 then
      if pin = 2 ∧ master_pic c = true then
        ocw1_loop c mask old n ((pin + 1) % 8)
      else
        .ptdev_remap (if master_pic c then pin else pin + 8)
          :: ocw1_loop c mask old n ((pin + 1) % 8)
    else
      ocw1_loop c mask old n ((pin + 1) % 8)

/-- Function `vpic_ocw1`. -/
def vpic_ocw1 (v : Vpic) (c : Chip) (val : Nat) : Vpic × Int :=
  let pic := v.pic c
  let old := pic.mask
  let pic := { pic with mask := val &&& 0xff }
  let v := v.setPic c pic
  ({ v with trace := v.trace ++ ocw1_loop c pic.mask old 8 (and7 (pic.lowprio + 1)) }, 0)

/-- Function `vpic_ocw2`. -/
def vpic_ocw2 (v : Vpic) (c : Chip) (val : Nat) : Vpic × Int :=
  let pic := v.pic c
  let pic := { pic with rotate := decide ((val &&& OCW2_R) ≠ 0) }
  if (val &&& OCW2_EOI) ≠ 0 then
    let isr_bit : Int :=
      if (val &&& OCW2_SL) ≠ 0 then ((val &&& 0x7 : Nat) : Int)
      else vpic_get_highest_isrpin pic
    let pic :=
      if isr_bit ≠ -1 then
        let pic := { pic with service := u8 (pic.service &&& not32 (bit isr_bit.toNat)) }
        if pic.rotate then { pic with lowprio := isr_bit } else pic
      else pic
    let v := v.setPic c pic
    if (pic.elc &&& bit (and7 isr_bit)) ≠ 0 then
      (v.emit (.ptdev_ack (if master_pic c then isr_bit else isr_bit + 8)), 0)
    else
      (v, 0)
  else if (val &&& OCW2_SL) ≠ 0 ∧ pic.rotate = true then
    (v.setPic c { pic with lowprio := ((val &&& 0x7 : Nat) : Int) }, 0)
  else
    (v.setPic c pic, 0)

/-- Function `vpic_ocw3`. -/
def vpic_ocw3 (pic : Pic) (val : Nat) : Pic × Int :=
  let pic :=
    if (val &&& OCW3_ESMM) ≠ 0 then
      { pic with smm := if (val &&& OCW3_SMM) ≠ 0 then 1 else 0 }
    else pic
  let pic :=
    if (val &&& OCW3_RR) ≠ 0 then
      { pic with rd_cmd_reg := ((val &&& OCW3_RIS : Nat) : Int),
                 poll := decide ((val &&& OCW3_P) ≠ 0) }
    else pic
  (pic, 0)

/-! ## Entry points -/

/-- Function `vpic_set_irqstate`. -/
def vpic_set_irqstate (v : Vpic) (irq : Int) (st : irqstate) : Vpic × Int :=
  if irq < 0 ∨ irq > 15 then
    (v, -EINVAL)
  else
    let pin := irq.toNat
    if (v.pic (pic_index (pin >>> 3))).ready = false then
      (v, 0)
    else
      match st with
      | .IRQSTATE_ASSERT => (vpic_set_pinstate v pin true, 0)
      | .IRQSTATE_DEASSERT => (vpic_set_pinstate v pin false, 0)
      | .IRQSTATE_PULSE =>
        (vpic_set_pinstate (vpic_set_pinstate v pin true) pin false, 0)

/-- Function `vpic_assert_irq`. -/
def vpic_assert_irq (v : Vpic) (irq : Int) : Vpic × Int :=
  vpic_set_irqstate v irq .IRQSTATE_ASSERT

/-- Function `vpic_deassert_irq`. -/
def vpic_deassert_irq (v : Vpic) (irq : Int) : Vpic × Int :=
  vpic_set_irqstate v irq .IRQSTATE_DEASSERT

/-- Function `vpic_pulse_irq`. -/
def vpic_pulse_irq (v : Vpic) (irq : Int) : Vpic × Int :=
  vpic_set_irqstate v irq .IRQSTATE_PULSE

/-- Function `vpic_set_irq_trigger`. -/
def vpic_set_irq_trigger (v : Vpic) (irq : Int) (trigger : vpic_trigger) : Vpic × Int :=
  if irq < 0 ∨ irq > 15 then
    (v, -EINVAL)
  else if trigger = .LEVEL_TRIGGER ∧
      (irq = 0 ∨ irq = 1 ∨ irq = 2 ∨ irq = 8 ∨ irq = 13) then
    (v, -EINVAL)
  else
    let c := pic_index (irq.toNat >>> 3)
    let pic := v.pic c
    if trigger = .LEVEL_TRIGGER then
      (v.setPic c { pic with elc := u8 (pic.elc ||| bit (and7 irq)) }, 0)
    else
      (v.setPic c { pic with elc := u8 (pic.elc &&& not32 (bit (and7 irq))) }, 0)

/-- Function `vpic_get_irq_trigger`; the trigger is `none` on error. -/
def vpic_get_irq_trigger (v : Vpic) (irq : Int) : Int × Option vpic_trigger :=
  if irq < 0 ∨ irq > 15 then
    (-EINVAL, none)
  else if ((v.pic (pic_index (irq.toNat >>> 3))).elc &&& bit (and7 irq)) ≠ 0 then
    (0, some .LEVEL_TRIGGER)
  else
    (0, some .EDGE_TRIGGER)

/-- Function `vpic_pending_intr`; returns the controller and `*vecptr`. -/
def vpic_pending_intr (v : Vpic) : Vpic × Int :=
  let pic := v.pic0
  let pin := vpic_get_highest_irrpin pic
  let (pic, pin) :=
    if pin = 2 then (v.pic1, vpic_get_highest_irrpin v.pic1) else (pic, pin)
  if pin = -1 then
    (v, -1)
  else
    (v, pic.irq_base + pin)

/-- Function `vpic_pin_accepted`. -/
def vpic_pin_accepted (pic : Pic) (pin : Nat) : Pic :=
  let pic := { pic with intr_raised := false }
  let pic :=
    if (pic.elc &&& bit pin) = 0 then
      { pic with request := u8 (pic.request &&& not32 (bit pin)) }
    else pic
  if pic.aeoi = true then
    if pic.rotate = true then { pic with lowprio := (pin : Int) } else pic
  else
    { pic with service := u8 (pic.service ||| bit pin) }

/-- Function `vpic_intr_accepted`. -/
def vpic_intr_accepted (v : Vpic) (vector : Int) : Vpic :=
  let pin := and7 vector
  let v :=
    if vector - vector % 8 = v.pic1.irq_base then
      let v := { v with pic1 := vpic_pin_accepted v.pic1 pin }
      { v with pic0 := vpic_pin_accepted v.pic0 2 }
    else
      { v with pic0 := vpic_pin_accepted v.pic0 pin }
  vpic_notify_intr v

/-- Function `vpic_read`; returns the controller, the error code and `*eax`. -/
def vpic_read (v : Vpic) (c : Chip) (port : Nat) (_eax : Nat) : Vpic × Int × Nat :=
  let pic := v.pic c
  if pic.poll then
    let pic := { pic with poll := false }
    let pin := vpic_get_highest_irrpin pic
    if pin ≥ 0 then
      (v.setPic c (vpic_pin_accepted pic pin.toNat), 0, 0x80 ||| pin.toNat)
    else
      (v.setPic c pic, 0, 0)
  else if (port &&& ICU_IMR_OFFSET) ≠ 0 then
    (v, 0, pic.mask)
  else if pic.rd_cmd_reg = (OCW3_RIS : Int) then
    (v, 0, pic.service)
  else
    (v, 0, pic.request)

/-- The part of `vpic_write` before its call of `vpic_notify_intr`: the
dispatch on the port and on `icw_num`. -/
def vpic_write_dispatch (v : Vpic) (c : Chip) (port : Nat) (val : Nat) : Vpic × Int :=
  if (port &&& ICU_IMR_OFFSET) ≠ 0 then
    let pic := v.pic c
    if pic.icw_num = 2 then
      let r := vpic_icw2 pic val
      (v.setPic c r.1, r.2)
    else if pic.icw_num = 3 then
      let r := vpic_icw3 pic val
      (v.setPic c r.1, r.2)
    else if pic.icw_num = 4 then
      let r := vpic_icw4 c pic val
      (v.setPic c r.1, r.2)
    else
      vpic_ocw1 v c val
  else
    let r : Vpic × Int :=
      if (val &&& bit 4) ≠ 0 then
        let r := vpic_icw1 (v.pic c) val
        (v.setPic c r.1, r.2)
      else (v, 0)
    if (r.1.pic c).ready then
      if (val &&& bit 3) ≠ 0 then
        let r3 := vpic_ocw3 (r.1.pic c) val
        (r.1.setPic c r3.1, r3.2)
      else
        vpic_ocw2 r.1 c val
    else r

/-- Function `vpic_write`; returns the controller and the error code. -/
def vpic_write (v : Vpic) (c : Chip) (port : Nat) (eax : Nat) : Vpic × Int :=
  let r := vpic_write_dispatch v c port (u8 eax)
  if (r.1.pic c).ready then
    (vpic_notify_intr r.1, r.2)
  else
    r

/-- The common body of `vpic_master_handler` and `vpic_slave_handler`. -/
def vpic_handler (c : Chip) (v : Vpic) ( is_in : Bool) (port bytes eax : Nat) :
    Vpic × Int × Nat :=
  if bytes ≠ 1 then
    (v, -1, eax)
  else if is_in then
    vpic_read v c port eax
  else
    let r := vpic_write v c port eax
    (r.1, r.2, eax)

/-- Function `vpic_master_handler`. -/
def vpic_master_handler (v : Vpic) ( is_in : Bool) (port bytes eax : Nat) :
    Vpic × Int × Nat :=
  vpic_handler .master v is_in port bytes eax

/-- Function `vpic_slave_handler`. -/
def vpic_slave_handler (v : Vpic) ( is_in : Bool) (port bytes eax : Nat) :
    Vpic × Int × Nat :=
  vpic_handler .slave v is_in port bytes eax

/-- Function `vpic_elc_handler`. -/
def vpic_elc_handler (v : Vpic) ( is_in : Bool) (port bytes eax : Nat) :
    Vpic × Int × Nat :=
  let is_master : Bool := decide (port = IO_ELCR1)
  if bytes ≠ 1 then
    (v, -1, eax)
  else if is_in then
    if is_master then (v, 0, v.pic0.elc) else (v, 0, v.pic1.elc)
  else if is_master then
    ({ v with pic0 := { v.pic0 with elc := u8 (eax &&& 0xf8) } }, 0, eax)
  else
    ({ v with pic1 := { v.pic1 with elc := u8 (eax &&& 0xde) } }, 0, eax)

/-- A zeroed `struct pic` (from `calloc`). -/
def Pic.zero : Pic :=
  { ready := false, icw_num := 0, rd_cmd_reg := 0, aeoi := false, poll := false,
    rotate := false, sfn := false, irq_base := 0, request := 0, service := 0,
    mask := 0, smm := 0, acnt := fun _ => 0, lowprio := 0, intr_raised := false,
    elc := 0 }

/-- Function `vpic_init`, for a VM with the given wire mode. -/
def vpic_init (wm : vpic_wire_mode) : Vpic :=
  { wire_mode := wm, trace := [],
    pic0 := { Pic.zero with mask := 0xff },
    pic1 := { Pic.zero with mask := 0xff } }

/-! ## Public operations and reachable states -/

/-- The public operations that act on the controller.  The two pure queries
`vpic_get_irq_trigger` and `vpic_is_pin_mask` do not appear: they return no
controller. -/
inductive Op where
  | master_io ( is_in : Bool) (port bytes eax : Nat)
  | slave_io ( is_in : Bool) (port bytes eax : Nat)
  | elc_io ( is_in : Bool) (port bytes eax : Nat)
  | set_irq_trigger (irq : Int) (trigger : vpic_trigger)
  | assert_irq (irq : Int)
  | deassert_irq (irq : Int)
  | pulse_irq (irq : Int)
  | pending_intr
  | intr_accepted (vector : Int)

/-- The controller after one public operation. -/
def step (v : Vpic) : Op → Vpic
  | .master_io i port bytes eax => (vpic_master_handler v i port bytes eax).1
  | .slave_io i port bytes eax => (vpic_slave_handler v i port bytes eax).1
  | .elc_io i port bytes eax => (vpic_elc_handler v i port bytes eax).1
  | .set_irq_trigger irq t => (vpic_set_irq_trigger v irq t).1
  | .assert_irq irq => (vpic_assert_irq v irq).1
  | .deassert_irq irq => (vpic_deassert_irq v irq).1
  | .pulse_irq irq => (vpic_pulse_irq v irq).1
  | .pending_intr => (vpic_pending_intr v).1
  | .intr_accepted vector => vpic_intr_accepted v vector

/-- The controller after a sequence of public operations. -/
def run (v : Vpic) (ops : List Op) : Vpic := ops.foldl step v

/-- The controller states reachable from `vpic_init` through the public
operations. -/
inductive Reachable : Vpic → Prop where
  | init (wm : vpic_wire_mode) : Reachable (vpic_init wm)
  | step {v : Vpic} (op : Op) : Reachable v → Reachable (step v op)

/-- The command port of a chip (`master_range.base`, `slave_range.base`). -/
def cmd_port : Chip → Nat
  | .master => 0x20
  | .slave => 0xa0

/-- The data port of a chip (the second port of its range). -/
def data_port : Chip → Nat
  | .master => 0x21
  | .slave => 0xa1

/-! ## Normal forms of the pin driver and of the chip updates -/

/-- The IRR of the addressed chip after `vpic_set_pinstate` has updated the
counter of `pin`. -/
def pinstate_request (pic : Pic) (pin : Nat) (newstate : Bool) : Nat :=
  let oldcnt := pic.acnt (slot pin)
  let newcnt := if newstate then oldcnt + 1 else oldcnt - 1
  if (oldcnt = 0 ∧ newcnt = 1) ∨ (newcnt > 0 ∧ (pic.elc &&& bit (pin % 8)) ≠ 0) then
    u8 (pic.request ||| bit (pin % 8))
  else if (oldcnt = 1 ∧ newcnt = 0) ∧ (pic.elc &&& bit (pin % 8)) ≠ 0 then
    u8 (pic.request &&& not32 (bit (pin % 8)))
  else pic.request

/-- The cascade pulse of master pin 2 made by `vpic_notify_intr`, with the
notifications nested in it. -/
def cascade_pulse (v : Vpic) : Vpic :=
  notify_master (pinstate_update (notify_master (pinstate_update v 2 true)) 2 false)

/-- The master IRR after the cascade pulse. -/
def cascade_request (pic : Pic) : Nat :=
  pinstate_request
    { pic with
      acnt := Function.update pic.acnt (slot 2) (pic.acnt (slot 2) + 1),
      request := pinstate_request pic 2 true } 2 false

/-- The elementary updates that the code makes to one chip; every public
operation changes each chip by a sequence of them (`step_picstep`). -/
inductive PicStep (c : Chip) : Pic → Pic → Prop where
  | refl (p : Pic) : PicStep c p p
  | trans {p q r : Pic} : PicStep c p q → PicStep c q r → PicStep c p r
  | icw1 (p : Pic) (x : Nat) : PicStep c p (vpic_icw1 p x).1
  | icw2 (p : Pic) (x : Nat) : PicStep c p (vpic_icw2 p x).1
  | icw3 (p : Pic) (x : Nat) : PicStep c p (vpic_icw3 p x).1
  | icw4 (p : Pic) (x : Nat) : PicStep c p (vpic_icw4 c p x).1
  | ocw1 (v : Vpic) (x : Nat) : PicStep c (v.pic c) ((vpic_ocw1 v c x).1.pic c)
  | ocw2 (v : Vpic) (x : Nat) : PicStep c (v.pic c) ((vpic_ocw2 v c x).1.pic c)
  | ocw3 (p : Pic) (x : Nat) : PicStep c p (vpic_ocw3 p x).1
  | accepted (p : Pic) (pin : Nat) : pin < 8 → PicStep c p (vpic_pin_accepted p pin)
  | poll_clear (p : Pic) : PicStep c p { p with poll := false }
  | drive (p : Pic) (a : Fin 8 → Int) (r : Nat) (ir : Bool) :
      PicStep c p { p with acnt := a, request := r, intr_raised := ir }
  | elc (v : Vpic) ( is_in : Bool) (port bytes eax : Nat) :
      PicStep c (v.pic c) ((vpic_elc_handler v is_in port bytes eax).1.pic c)
  | trigger (v : Vpic) (irq : Int) (t : vpic_trigger) :
      PicStep c (v.pic c) ((vpic_set_irq_trigger v irq t).1.pic c)

/-- The elementary updates of one chip together with the conditions under which
the code makes them: an ICW1 only for a command byte with bit 4 set (and in
the set `P` of bytes), ICW2, ICW3 and ICW4 only at `icw_num` 2, 3 and 4, OCW1
only outside the ICW sequence, OCW2 and OCW3 only on a ready chip. -/
inductive ChipStep (c : Chip) (P : Nat → Prop) : Pic → Pic → Prop where
  | refl (p : Pic) : ChipStep c P p p
  | trans {p q r : Pic} : ChipStep c P p q → ChipStep c P q r → ChipStep c P p r
  | icw1 (p : Pic) (x : Nat) : (x &&& bit 4) ≠ 0 → P x → ChipStep c P p (vpic_icw1 p x).1
  | icw2 (p : Pic) (x : Nat) : p.icw_num = 2 → ChipStep c P p (vpic_icw2 p x).1
  | icw3 (p : Pic) (x : Nat) : p.icw_num = 3 → ChipStep c P p (vpic_icw3 p x).1
  | icw4 (p : Pic) (x : Nat) : p.icw_num = 4 → ChipStep c P p (vpic_icw4 c p x).1
  | ocw1 (v : Vpic) (x : Nat) :
      (v.pic c).icw_num ≠ 2 → (v.pic c).icw_num ≠ 3 → (v.pic c).icw_num ≠ 4 →
      ChipStep c P (v.pic c) ((vpic_ocw1 v c x).1.pic c)
  | ocw2 (v : Vpic) (x : Nat) :
      (v.pic c).ready = true → ChipStep c P (v.pic c) ((vpic_ocw2 v c x).1.pic c)
  | ocw3 (p : Pic) (x : Nat) : p.ready = true → ChipStep c P p (vpic_ocw3 p x).1
  | accepted (p : Pic) (pin : Nat) : pin < 8 → ChipStep c P p (vpic_pin_accepted p pin)
  | poll_clear (p : Pic) : ChipStep c P p { p with poll := false }
  | drive (p : Pic) (a : Fin 8 → Int) (r : Nat) (ir : Bool) :
      ChipStep c P p { p with acnt := a, request := r, intr_raised := ir }
  | elc (v : Vpic) ( is_in : Bool) (port bytes eax : Nat) :
      ChipStep c P (v.pic c) ((vpic_elc_handler v is_in port bytes eax).1.pic c)
  | trigger (v : Vpic) (irq : Int) (t : vpic_trigger) :
      ChipStep c P (v.pic c) ((vpic_set_irq_trigger v irq t).1.pic c)

/-! ## Port writes as public operations -/

/-- The public operation that writes the byte `x` to the command port of a
chip. -/
def cmd_write (c : Chip) (x : Nat) : Op :=
  match c with
  | .master => .master_io false 0x20 1 x
  | .slave => .slave_io false 0xa0 1 x

/-- The public operation that writes the byte `x` to the data port of a
chip. -/
def data_write (c : Chip) (x : Nat) : Op :=
  match c with
  | .master => .master_io false 0x21 1 x
  | .slave => .slave_io false 0xa1 1 x

/-- The bytes that a public operation hands to `vpic_icw1` of chip `c`, if
any: the value of a 1-byte write to an even port of that chip's window. -/
def icw1_byte (c : Chip) (op : Op) (x : Nat) : Prop :=
  match op with
  | .master_io i port bytes eax =>
    c = .master ∧ i = false ∧ bytes = 1 ∧ (port &&& ICU_IMR_OFFSET) = 0 ∧ x = u8 eax
  | .slave_io i port bytes eax =>
    c = .slave ∧ i = false ∧ bytes = 1 ∧ (port &&& ICU_IMR_OFFSET) = 0 ∧ x = u8 eax
  | _ => False

/-- A valid ICW1 byte: bit 4 set, IC4 (bit 0) set, SNGL (bit 1) clear. -/
def icw1_valid (x : Nat) : Prop :=
  x.testBit 4 = true ∧ x.testBit 0 = true ∧ x.testBit 1 = false

instance (x : Nat) : Decidable (icw1_valid x) := by
  unfold icw1_valid; infer_instance

/-- The public operations that make `vpic_write` call `vpic_icw1` on chip `c`:
a 1-byte write to an even port of the chip's window of a value with bit 4
set. -/
def icw1_op (c : Chip) (op : Op) : Prop :=
  match op with
  | .master_io i port bytes eax =>
    c = .master ∧ i = false ∧ bytes = 1 ∧ (port &&& ICU_IMR_OFFSET) = 0 ∧
      (u8 eax &&& bit 4) ≠ 0
  | .slave_io i port bytes eax =>
    c = .slave ∧ i = false ∧ bytes = 1 ∧ (port &&& ICU_IMR_OFFSET) = 0 ∧
      (u8 eax &&& bit 4) ≠ 0
  | _ => False

instance (c : Chip) (op : Op) : Decidable (icw1_op c op) := by
  unfold icw1_op; cases op <;> infer_instance

/-! ## Invariants -/

/-- The pins that can only be edge-triggered have a clear ELCR bit: bits 0, 1
and 2 on the master (IRQ 0, 1, 2), bits 0 and 5 on the slave (IRQ 8, 13). -/
def elc_edge_only (c : Chip) (e : Nat) : Prop :=
  match c with
  | .master => e.testBit 0 = false ∧ e.testBit 1 = false ∧ e.testBit 2 = false
  | .slave => e.testBit 0 = false ∧ e.testBit 5 = false

instance (c : Chip) (e : Nat) : Decidable (elc_edge_only c e) := by
  unfold elc_edge_only; cases c <;> infer_instance

/-- The ranges of the initialisation counter and of the priority base of a
chip, and the link between `ready` and the counter. -/
def chip_wf (p : Pic) : Prop :=
  (0 ≤ p.icw_num ∧ p.icw_num ≤ 4) ∧ (0 ≤ p.lowprio ∧ p.lowprio ≤ 7) ∧
    (p.ready = true → p.icw_num = 0)

/-- The controller states reached after an initialisation of chip `c` has
completed: an ICW4 with the 8086 bit was written to its data port at
`icw_num = 4` in a reachable state, and any public operations followed. -/
inductive InitDone (c : Chip) : Vpic → Prop where
  | done {v : Vpic} (x : Nat) : Reachable v → (v.pic c).icw_num = 4 → x.testBit 0 = true →
      InitDone c (step v (data_write c x))
  | step {v : Vpic} (op : Op) : InitDone c v → InitDone c (step v op)

/-- The level-triggered rule for bit `i` of a chip: the IRR bit is 1 exactly
when the assertion count of the pin is greater than 0. -/
def irr_tracks (p : Pic) (i : Nat) : Prop :=
  p.request.testBit i = true ↔ 0 < p.acnt (slot i)

instance (p : Pic) (i : Nat) : Decidable (irr_tracks p i) := by
  unfold irr_tracks; infer_instance

/-! ## The priority engine in the words of the specification -/

/-- The pin visited at step `k` of `PIC_PIN_FOREACH`, as the specification
writes it: `(lowprio + 1 + k) & 7`. -/
def prio_pin (pic : Pic) (k : Nat) : Nat := and7 (pic.lowprio + 1 + k)

/-- The specification's eligibility of a pin: IRR bit set and IMR bit clear. -/
def irr_eligible (pic : Pic) (i : Nat) : Prop :=
  pic.request.testBit i = true ∧ pic.mask.testBit i = false

instance (pic : Pic) (i : Nat) : Decidable (irr_eligible pic i) := by
  unfold irr_eligible; infer_instance

/-- The specification's effective-service bit of a pin: 0 under `smm`,
otherwise the ISR bit, with bit 2 cleared on the master under `sfn`. -/
def effective_service (c : Chip) (pic : Pic) (i : Nat) : Bool :=
  if pic.smm ≠ 0 then false
  else if c = .master ∧ pic.sfn = true ∧ i = 2 then false
  else pic.service.testBit i

/-- The specification's description of the pin found by the highest-IRR
query: the first eligible pin in priority order, with no effective-service bit
at or before it. -/
def is_highest_irr (c : Chip) (pic : Pic) (p : Nat) : Prop :=
  ∃ k, k < 8 ∧ p = prio_pin pic k ∧ irr_eligible pic p ∧
    (∀ j, j < k → ¬ irr_eligible pic (prio_pin pic j)) ∧
    (∀ j, j ≤ k → effective_service c pic (prio_pin pic j) = false)

instance (c : Chip) (pic : Pic) (p : Nat) : Decidable (is_highest_irr c pic p) := by
  unfold is_highest_irr; infer_instance

/-- The specification's condition for a pin to be the target of a
non-specific EOI: ISR bit set, and not masked when `smm` is set. -/
def isr_selectable (pic : Pic) (i : Nat) : Prop :=
  pic.service.testBit i = true ∧ ¬ (pic.smm ≠ 0 ∧ pic.mask.testBit i = true)

instance (pic : Pic) (i : Nat) : Decidable (isr_selectable pic i) := by
  unfold isr_selectable; infer_instance

/-- The specification's description of the highest in-service pin: the first
selectable pin in the order starting at `(lowprio+1)&7`. -/
def is_highest_isr (pic : Pic) (p : Nat) : Prop :=
  ∃ k, k < 8 ∧ p = prio_pin pic k ∧ isr_selectable pic p ∧
    (∀ j, j < k → ¬ isr_selectable pic (prio_pin pic j))

instance (pic : Pic) (p : Nat) : Decidable (is_highest_isr pic p) := by
  unfold is_highest_isr; infer_instance

/-! ## Example states -/

/-- Scenario 1 of the specification up to the assertion, with the ICW3 byte
that the code requires: the master is programmed with base `0x20`, IRQ0 is
unmasked and asserted. -/
def ex_basic_irq : Vpic :=
  run (vpic_init .VPIC_WIRE_INTR)
    [.master_io false 0x20 1 0x11, .master_io false 0x21 1 0x20, .master_io false 0x21 1 0x04,
     .master_io false 0x21 1 0x01, .master_io false 0x21 1 0xfe, .assert_irq 0]

/-- Scenario 1 of the specification after the acceptance of vector `0x20`: the
master has IRQ0 in service. -/
def ex_in_service : Vpic :=
  run ex_basic_irq [.intr_accepted 0x20]

/-- Both chips programmed (bases `0x20` and `0x28`) and IRQ9 asserted
(scenario 3 of the specification before the acceptance). -/
def ex_slave_cascade : Vpic :=
  run (vpic_init .VPIC_WIRE_INTR)
    [.master_io false 0x20 1 0x11, .master_io false 0x21 1 0x20, .master_io false 0x21 1 0x04,
     .master_io false 0x21 1 0x01,
     .slave_io false 0xa0 1 0x11, .slave_io false 0xa1 1 0x28, .slave_io false 0xa1 1 0x02,
     .slave_io false 0xa1 1 0x01,
     .assert_irq 9]

/-- Both chips programmed (bases `0x20` and `0x28`), IRQ9 asserted, then every
slave pin masked by an OCW1 of `0xFF`: the cascade request stays latched on
master pin 2 while the slave has nothing eligible. -/
def ex_masked_cascade : Vpic :=
  run (vpic_init .VPIC_WIRE_INTR)
    [.master_io false 0x20 1 0x11, .master_io false 0x21 1 0x20, .master_io false 0x21 1 0x04,
     .master_io false 0x21 1 0x01,
     .slave_io false 0xa0 1 0x11, .slave_io false 0xa1 1 0x28, .slave_io false 0xa1 1 0x02,
     .slave_io false 0xa1 1 0x01,
     .assert_irq 9, .slave_io false 0xa1 1 0xff]

/-- IRQ4 made level-triggered on a programmed master. -/
def ex_level_pin : Vpic :=
  run (vpic_init .VPIC_WIRE_INTR)
    [.master_io false 0x20 1 0x11, .master_io false 0x21 1 0x20, .master_io false 0x21 1 0x04,
     .master_io false 0x21 1 0x01, .set_irq_trigger 4 .LEVEL_TRIGGER]

/-- The master programmed, IRQ4 pulsed while edge-triggered, then switched to
level-triggered with `vpic_set_irq_trigger`. -/
def ex_level_switch : Vpic :=
  run (vpic_init .VPIC_WIRE_INTR)
    [.master_io false 0x20 1 0x11, .master_io false 0x21 1 0x20, .master_io false 0x21 1 0x04,
     .master_io false 0x21 1 0x01, .pulse_irq 4, .set_irq_trigger 4 .LEVEL_TRIGGER]

/-- The slave programmed in AEOI mode with IRQ9 and IRQ10 asserted, then IRQ9
taken by a poll read of the slave: IRQ10 is still requested and the slave's
`intr_raised` is clear. -/
def ex_slave_polled : Vpic :=
  run (vpic_init .VPIC_WIRE_INTR)
    [.slave_io false 0xa0 1 0x11, .slave_io false 0xa1 1 0x28, .slave_io false 0xa1 1 0x02,
     .slave_io false 0xa1 1 0x03,
     .assert_irq 9, .assert_irq 10, .slave_io false 0xa0 1 0x0e, .slave_io true 0xa0 1 0]

/-- The master programmed in AEOI mode (ICW4 `0x03`) and then re-initialised up
to ICW3: it waits for ICW4 with `aeoi` still set. -/
def ex_aeoi_reinit : Vpic :=
  run (vpic_init .VPIC_WIRE_INTR)
    [.master_io false 0x20 1 0x11, .master_io false 0x21 1 0x20, .master_io false 0x21 1 0x04,
     .master_io false 0x21 1 0x03,
     .master_io false 0x20 1 0x11, .master_io false 0x21 1 0x20, .master_io false 0x21 1 0x04]

/-- The master programmed, IRQ7 made level-triggered, nothing in service. -/
def ex_level7_idle : Vpic :=
  run (vpic_init .VPIC_WIRE_INTR)
    [.master_io false 0x20 1 0x11, .master_io false 0x21 1 0x20, .master_io false 0x21 1 0x04,
     .master_io false 0x21 1 0x01, .set_irq_trigger 7 .LEVEL_TRIGGER]

/-- The slave programmed, IRQ15 made level-triggered, nothing in service. -/
def ex_level15_idle : Vpic :=
  run (vpic_init .VPIC_WIRE_INTR)
    [.slave_io false 0xa0 1 0x11, .slave_io false 0xa1 1 0x28, .slave_io false 0xa1 1 0x02,
     .slave_io false 0xa1 1 0x01, .set_irq_trigger 15 .LEVEL_TRIGGER]

/-- IRQ4 level-triggered and asserted on a programmed master: assertion count
1, IRR bit 4 set, the interrupt raised. -/
def ex_level_asserted : Vpic :=
  run ex_level_pin [.assert_irq 4]

/-! ## The mutual recursion with a count of its calls

The two functions below are `vpic_notify_intr_fuel` and
`vpic_set_pinstate_fuel` again, with the same control flow, and return next to
the controller the number of times `vpic_notify_intr` was entered. -/

mutual
/-- Function `vpic_notify_intr` as in `vpic_notify_intr_fuel`, returning also
the number of calls of `vpic_notify_intr` made: this call and the nested
ones. -/
def vpic_notify_intr_calls : Nat → Vpic → Option (Vpic × Nat)
  | 0, _ => none
  | fuel + 1, v =>
    let pic := v.pic1
    let pin := vpic_get_highest_irrpin pic
    if pic.intr_raised = false ∧ pin ≠ -1 then
      let v := { v with pic1 := { pic with intr_raised := true } }
      match vpic_set_pinstate_calls fuel v 2 true with
      | none => none
      | some r1 =>
        match vpic_set_pinstate_calls fuel r1.1 2 false with
        | none => none
        | some r2 => some (notify_master r2.1, 1 + r1.2 + r2.2)
    else
      some (notify_master v, 1)
/-- Function `vpic_set_pinstate` as in `vpic_set_pinstate_fuel`, returning also
the number of calls of `vpic_notify_intr` made. -/
def vpic_set_pinstate_calls : Nat → Vpic → Nat → Bool → Option (Vpic × Nat)
  | 0, _, _, _ => none
  | fuel + 1, v, pin, newstate =>
    vpic_notify_intr_calls fuel (pinstate_update v pin newstate)
end

/-! # Properties -/

/-! ## Supporting lemmas -/

theorem bit_eq_two_pow (p : Nat) : bit p = 2 ^ p := by
  simp [bit, Nat.one_shiftLeft]

theorem testBit_bit (p i : Nat) : (bit p).testBit i = decide (p = i) := by
  rw [bit_eq_two_pow, Nat.testBit_two_pow]

theorem and_bit_ne_zero (x p : Nat) : (x &&& bit p) ≠ 0 ↔ x.testBit p = true := by
  constructor
  · intro h
    obtain ⟨i, hi⟩ := Nat.ne_zero_implies_bit_true h
    rw [Nat.testBit_and, testBit_bit] at hi
    simp only [Bool.and_eq_true, decide_eq_true_eq] at hi
    obtain ⟨h1, h2⟩ := hi
    subst h2
    exact h1
  · intro h h0
    have h1 : (x &&& bit p).testBit p = true := by
      rw [Nat.testBit_and, testBit_bit, h]; simp
    rw [h0] at h1
    simp at h1

theorem and_bit_eq_zero (x p : Nat) : (x &&& bit p) = 0 ↔ x.testBit p = false := by
  have h := and_bit_ne_zero x p
  constructor
  · intro h0
    cases hb : x.testBit p with
    | false => rfl
    | true => exact absurd h0 (h.mpr hb)
  · intro hb
    by_contra h0
    rw [h.mp h0] at hb
    cases hb

theorem testBit_u8 (x i : Nat) : (u8 x).testBit i = (decide (i < 8) && x.testBit i) := by
  have h : u8 x = x % 2 ^ 8 := rfl
  rw [h, Nat.testBit_mod_two_pow]

theorem testBit_not32 (x i : Nat) :
    (not32 x).testBit i = (decide (i < 32) != x.testBit i) := by
  have h : not32 x = (2 ^ 32 - 1) ^^^ x := rfl
  rw [h, Nat.testBit_xor, Nat.testBit_two_pow_sub_one]

theorem u8_lt (x : Nat) : u8 x < 256 := Nat.mod_lt _ (by decide)

theorem and7_lt (x : Int) : and7 x < 8 := by
  unfold and7
  omega

theorem and7_cast (x : Int) : ((and7 x : Nat) : Int) = x % 8 := by
  unfold and7
  omega

@[simp] theorem notify_master_pic1 (v : Vpic) : (notify_master v).pic1 = v.pic1 := by
  unfold notify_master
  simp only [Vpic.emit]
  split
  · split <;> rfl
  · rfl

@[simp] theorem notify_master_wire_mode (v : Vpic) :
    (notify_master v).wire_mode = v.wire_mode := by
  unfold notify_master
  simp only [Vpic.emit]
  split
  · split <;> rfl
  · rfl

theorem notify_master_pic0 (v : Vpic) :
    (notify_master v).pic0 =
      { v.pic0 with intr_raised :=
          v.pic0.intr_raised || decide (vpic_get_highest_irrpin v.pic0 ≠ -1) } := by
  obtain ⟨wm, tr, p0, p1⟩ := v
  obtain ⟨a1, a2, a3, a4, a5, a6, a7, a8, a9, a10, a11, a12, a13, a14, a15, a16⟩ := p0
  unfold notify_master
  simp only [Vpic.emit]
  split
  · rename_i h
    obtain ⟨h1, h2⟩ := h
    subst h1
    split <;> simp [h2]
  · rename_i h
    cases a15 with
    | true => simp
    | false =>
      simp only [true_and, not_not] at h
      simp [h]

theorem pinstate_update_eq (v : Vpic) (pin : Nat) (b : Bool) :
    pinstate_update v pin b =
      v.setPic (pic_index (pin >>> 3))
        { v.pic (pic_index (pin >>> 3)) with
          acnt := Function.update (v.pic (pic_index (pin >>> 3))).acnt (slot pin)
            (if b then (v.pic (pic_index (pin >>> 3))).acnt (slot pin) + 1
              else (v.pic (pic_index (pin >>> 3))).acnt (slot pin) - 1),
          request := pinstate_request (v.pic (pic_index (pin >>> 3))) pin b } := by
  unfold pinstate_update pinstate_request
  simp only [decide_eq_true_eq]
  split_ifs <;> first | rfl | (exfalso; tauto)

theorem shiftRight3_of_lt (pin : Nat) (h : pin < 8) : pin >>> 3 = 0 := by
  rw [Nat.shiftRight_eq_div_pow]; omega

@[simp] theorem pinstate_update_two_pic1 (v : Vpic) (b : Bool) :
    (pinstate_update v 2 b).pic1 = v.pic1 := by
  rw [pinstate_update_eq]
  rfl

@[simp] theorem pinstate_update_wire_mode (v : Vpic) (pin : Nat) (b : Bool) :
    (pinstate_update v pin b).wire_mode = v.wire_mode := by
  rw [pinstate_update_eq]
  cases pic_index (pin >>> 3) <;> rfl

theorem pinstate_update_two_pic0 (v : Vpic) (b : Bool) :
    (pinstate_update v 2 b).pic0 =
      { v.pic0 with
        acnt := Function.update v.pic0.acnt (slot 2)
          (if b then v.pic0.acnt (slot 2) + 1 else v.pic0.acnt (slot 2) - 1),
        request := pinstate_request v.pic0 2 b } := by
  rw [pinstate_update_eq]
  rfl

theorem vpic_notify_intr_fuel_eq (n : Nat) (v : Vpic) :
    vpic_notify_intr_fuel (n + 3) v = some
      (if v.pic1.intr_raised = false ∧ vpic_get_highest_irrpin v.pic1 ≠ -1 then
        notify_master (cascade_pulse { v with pic1 := { v.pic1 with intr_raised := true } })
      else notify_master v) := by
  by_cases h : v.pic1.intr_raised = false ∧ vpic_get_highest_irrpin v.pic1 ≠ -1
  · rw [if_pos h]
    simp only [vpic_notify_intr_fuel, vpic_set_pinstate_fuel, if_pos h]
    simp [cascade_pulse]
  · rw [if_neg h]
    simp only [vpic_notify_intr_fuel, if_neg h]

theorem vpic_notify_intr_eq (v : Vpic) :
    vpic_notify_intr v =
      if v.pic1.intr_raised = false ∧ vpic_get_highest_irrpin v.pic1 ≠ -1 then
        notify_master (cascade_pulse { v with pic1 := { v.pic1 with intr_raised := true } })
      else notify_master v := by
  unfold vpic_notify_intr
  rw [vpic_notify_intr_fuel_eq 0 v]
  rfl

theorem vpic_set_pinstate_fuel_eq (n : Nat) (v : Vpic) (pin : Nat) (b : Bool) :
    vpic_set_pinstate_fuel (n + 4) v pin b =
      some (vpic_notify_intr (pinstate_update v pin b)) := by
  simp only [vpic_set_pinstate_fuel]
  rw [vpic_notify_intr_fuel_eq n, vpic_notify_intr_eq]

theorem vpic_set_pinstate_eq (v : Vpic) (pin : Nat) (b : Bool) :
    vpic_set_pinstate v pin b = vpic_notify_intr (pinstate_update v pin b) := by
  unfold vpic_set_pinstate
  rw [vpic_set_pinstate_fuel_eq 0]
  rfl

theorem update_update_same (f : Fin 8 → Int) (s : Fin 8) :
    Function.update (Function.update f s (f s + 1)) s
      (Function.update f s (f s + 1) s - 1) = f := by
  funext i
  by_cases h : i = s
  · subst h; simp
  · simp [Function.update, h]

theorem cascade_pulse_pic1 (v : Vpic) : (cascade_pulse v).pic1 = v.pic1 := by
  simp [cascade_pulse]

theorem cascade_pulse_wire_mode (v : Vpic) : (cascade_pulse v).wire_mode = v.wire_mode := by
  simp [cascade_pulse]

theorem cascade_pulse_pic0 (v : Vpic) :
    ∃ ir, (cascade_pulse v).pic0 =
      { v.pic0 with request := cascade_request v.pic0, intr_raised := ir } := by
  refine ⟨(cascade_pulse v).pic0.intr_raised, ?_⟩
  unfold cascade_pulse
  rw [notify_master_pic0, pinstate_update_two_pic0, notify_master_pic0,
    pinstate_update_two_pic0]
  simp only [if_true, Bool.false_eq_true, if_false]
  unfold cascade_request
  congr 1
  exact update_update_same _ _

@[simp] theorem pic_setPic (v : Vpic) (c : Chip) (p : Pic) : (v.setPic c p).pic c = p := by
  cases c <;> rfl

theorem vpic_notify_intr_pic1 (v : Vpic) :
    ∃ ir, (vpic_notify_intr v).pic1 = { v.pic1 with intr_raised := ir } := by
  refine ⟨(vpic_notify_intr v).pic1.intr_raised, ?_⟩
  rw [vpic_notify_intr_eq]
  split
  · rw [notify_master_pic1, cascade_pulse_pic1]
  · rw [notify_master_pic1]

theorem vpic_notify_intr_pic0 (v : Vpic) :
    ∃ ir, (vpic_notify_intr v).pic0 =
      { v.pic0 with
        request :=
          if v.pic1.intr_raised = false ∧ vpic_get_highest_irrpin v.pic1 ≠ -1 then
            cascade_request v.pic0
          else v.pic0.request,
        intr_raised := ir } := by
  refine ⟨(vpic_notify_intr v).pic0.intr_raised, ?_⟩
  rw [vpic_notify_intr_eq]
  split
  · rw [notify_master_pic0]
    obtain ⟨ir, h⟩ := cascade_pulse_pic0 { v with pic1 := { v.pic1 with intr_raised := true } }
    rw [h]
  · rw [notify_master_pic0]

theorem vpic_notify_intr_pic (v : Vpic) (c : Chip) :
    ∃ r ir, (vpic_notify_intr v).pic c = { v.pic c with request := r, intr_raised := ir } := by
  cases c with
  | master =>
    obtain ⟨ir, h⟩ := vpic_notify_intr_pic0 v
    exact ⟨_, ir, h⟩
  | slave =>
    obtain ⟨ir, h⟩ := vpic_notify_intr_pic1 v
    exact ⟨v.pic1.request, ir, h⟩

theorem vpic_notify_intr_wire_mode (v : Vpic) :
    (vpic_notify_intr v).wire_mode = v.wire_mode := by
  rw [vpic_notify_intr_eq]
  split
  · rw [notify_master_wire_mode, cascade_pulse_wire_mode]
  · rw [notify_master_wire_mode]

theorem cmd_port_even (c : Chip) : cmd_port c &&& ICU_IMR_OFFSET = 0 := by
  cases c <;> decide

theorem data_port_odd (c : Chip) : data_port c &&& ICU_IMR_OFFSET ≠ 0 := by
  cases c <;> decide

theorem u8_and_bit_ne_zero (x p : Nat) (hp : p < 8) :
    (u8 x &&& bit p) ≠ 0 ↔ x.testBit p = true := by
  rw [and_bit_ne_zero, testBit_u8]
  simp [hp]

theorem u8_and_bit_eq_zero (x p : Nat) (hp : p < 8) :
    (u8 x &&& bit p) = 0 ↔ x.testBit p = false := by
  rw [and_bit_eq_zero, testBit_u8]
  simp [hp]

/-- A valid ICW1 on the command port: the chip is reset and waits for ICW2. -/
theorem vpic_write_icw1_valid (v : Vpic) (c : Chip) (x : Nat)
    (h4 : x.testBit 4 = true) (h0 : x.testBit 0 = true) (h1 : x.testBit 1 = false) :
    vpic_write v c (cmd_port c) x =
      (v.setPic c { v.pic c with
        ready := false, icw_num := 2, request := 0, mask := 0, lowprio := 7,
        rd_cmd_reg := 0, poll := false, smm := 0 }, 0) := by
  have e4 : (u8 x &&& bit 4) ≠ 0 := (u8_and_bit_ne_zero x 4 (by decide)).mpr h4
  have e1 : (u8 x &&& ICW1_SNGL) = 0 := (u8_and_bit_eq_zero x 1 (by decide)).mpr h1
  have e0 : (u8 x &&& ICW1_IC4) ≠ 0 := (u8_and_bit_ne_zero x 0 (by decide)).mpr h0
  simp [vpic_write, vpic_write_dispatch, cmd_port_even, e4, vpic_icw1, e1, e0]

/-- A data-port write while the chip waits for ICW2. -/
theorem vpic_write_icw2 (v : Vpic) (c : Chip) (x : Nat) (h : (v.pic c).icw_num = 2)
    (hr : (v.pic c).ready = false) :
    vpic_write v c (data_port c) x =
      (v.setPic c { v.pic c with irq_base := ((u8 x &&& 0xf8 : Nat) : Int), icw_num := 3 }, 0) := by
  simp [vpic_write, vpic_write_dispatch, data_port_odd, h, vpic_icw2, hr]

/-- A data-port write while the chip waits for ICW3. -/
theorem vpic_write_icw3 (v : Vpic) (c : Chip) (x : Nat) (h : (v.pic c).icw_num = 3)
    (hr : (v.pic c).ready = false) :
    vpic_write v c (data_port c) x =
      (v.setPic c { v.pic c with icw_num := 4 }, 0) := by
  simp [vpic_write, vpic_write_dispatch, data_port_odd, h, vpic_icw3, hr]

/-- A data-port write of an ICW4 with the 8086 bit while the chip waits for
ICW4: the chip becomes ready and the notification runs. -/
theorem vpic_write_icw4 (v : Vpic) (c : Chip) (x : Nat) (h : (v.pic c).icw_num = 4)
    (h0 : x.testBit 0 = true) :
    vpic_write v c (data_port c) x =
      (vpic_notify_intr (v.setPic c { v.pic c with
        aeoi := (v.pic c).aeoi || x.testBit 1,
        sfn := (v.pic c).sfn || (x.testBit 4 && master_pic c),
        icw_num := 0, ready := true }), 0) := by
  have e0 : (u8 x &&& ICW4_8086) ≠ 0 := (u8_and_bit_ne_zero x 0 (by decide)).mpr h0
  have e1 : (u8 x &&& ICW4_AEOI) ≠ 0 ↔ x.testBit 1 = true := u8_and_bit_ne_zero x 1 (by decide)
  have e4 : (u8 x &&& ICW4_SFNM) ≠ 0 ↔ x.testBit 4 = true := u8_and_bit_ne_zero x 4 (by decide)
  cases hb1 : x.testBit 1 <;> cases hb4 : x.testBit 4 <;> cases hm : master_pic c <;>
    simp [hb1, hb4] at e1 e4 <;>
    simp [vpic_write, vpic_write_dispatch, data_port_odd, h, vpic_icw4, e0, e1, e4, hm]

theorem u8_and_f8 (x : Nat) : u8 x &&& 0xf8 = x &&& 0xf8 := by
  apply Nat.eq_of_testBit_eq
  intro i
  rw [Nat.testBit_and, Nat.testBit_and, testBit_u8]
  by_cases hi : i < 8
  · simp [hi]
  · have : Nat.testBit 0xf8 i = false := Nat.testBit_lt_two_pow (by
      calc 0xf8 < 2 ^ 8 := by decide
        _ ≤ 2 ^ i := Nat.pow_le_pow_right (by decide) (by omega))
    simp [this]

theorem irr_loop_range (pic : Pic) (S : Nat) (n : Nat) :
    ∀ start, start < 8 →
      irr_loop pic S n start = -1 ∨ ∃ p : Nat, p < 8 ∧ irr_loop pic S n start = (p : Int) := by
  induction n with
  | zero => intro start _; left; rfl
  | succ n ih =>
    intro start hs
    unfold irr_loop
    split
    · left; rfl
    · split
      · right; exact ⟨start, hs, rfl⟩
      · exact ih _ (Nat.mod_lt _ (by decide))

theorem irr_loop_eq_pin (pic : Pic) (S : Nat) (n : Nat) :
    ∀ start p : Nat, start < 8 →
      (irr_loop pic S n start = (p : Int) ↔
        ∃ k, k < n ∧ p = (start + k) % 8 ∧ irr_eligible pic p ∧
          (∀ j, j < k → ¬ irr_eligible pic ((start + j) % 8)) ∧
          (∀ j, j ≤ k → S.testBit ((start + j) % 8) = false)) := by
  induction n with
  | zero =>
    intro start p _
    constructor
    · intro h
      simp only [irr_loop] at h
      omega
    · rintro ⟨k, hk, _⟩
      omega
  | succ n ih =>
    intro start p hs
    have hs8 : (start + 0) % 8 = start := by omega
    unfold irr_loop
    by_cases hS : (S &&& bit start) ≠ 0
    · rw [if_pos hS]
      have hS' := (and_bit_ne_zero S start).mp hS
      constructor
      · intro h; omega
      · rintro ⟨k, _, _, _, _, h5⟩
        have := h5 0 (Nat.zero_le _)
        rw [hs8, hS'] at this
        cases this
    · rw [if_neg hS]
      have hS' : S.testBit start = false := (and_bit_eq_zero S start).mp (not_not.mp hS)
      by_cases he : (pic.request &&& bit start) ≠ 0 ∧ (pic.mask &&& bit start) = 0
      · rw [if_pos he]
        have he' : irr_eligible pic start :=
          ⟨(and_bit_ne_zero _ _).mp he.1, (and_bit_eq_zero _ _).mp he.2⟩
        constructor
        · intro h
          have hp : p = start := by omega
          subst hp
          refine ⟨0, Nat.succ_pos _, hs8.symm, he', ?_, ?_⟩
          · intro j hj; omega
          · intro j hj
            have : j = 0 := by omega
            subst this
            rw [hs8]; exact hS'
        · rintro ⟨k, _, hp, _, h4, _⟩
          cases k with
          | zero => rw [hs8] at hp; rw [hp]
          | succ k =>
            have := h4 0 (Nat.succ_pos _)
            rw [hs8] at this
            exact absurd he' this
      · rw [if_neg he]
        have he' : ¬ irr_eligible pic start := by
          intro h
          exact he ⟨(and_bit_ne_zero _ _).mpr h.1, (and_bit_eq_zero _ _).mpr h.2⟩
        rw [ih ((start + 1) % 8) p (Nat.mod_lt _ (by decide))]
        have hshift : ∀ j, ((start + 1) % 8 + j) % 8 = (start + (j + 1)) % 8 := by
          intro j; omega
        constructor
        · rintro ⟨k, hk, hp, h3, h4, h5⟩
          refine ⟨k + 1, Nat.succ_lt_succ hk, ?_, h3, ?_, ?_⟩
          · rw [hp, hshift]
          · intro j hj
            cases j with
            | zero => rw [hs8]; exact he'
            | succ j => rw [← hshift]; exact h4 j (by omega)
          · intro j hj
            cases j with
            | zero => rw [hs8]; exact hS'
            | succ j => rw [← hshift]; exact h5 j (by omega)
        · rintro ⟨k, hk, hp, h3, h4, h5⟩
          cases k with
          | zero =>
            rw [hs8] at hp
            rw [hp] at h3
            exact absurd h3 he'
          | succ k =>
            refine ⟨k, by omega, ?_, h3, ?_, ?_⟩
            · rw [hp, hshift]
            · intro j hj
              rw [hshift]; exact h4 (j + 1) (by omega)
            · intro j hj
              rw [hshift]; exact h5 (j + 1) (by omega)

theorem pic_setPic_ne (v : Vpic) (c d : Chip) (p : Pic) (h : c ≠ d) :
    (v.setPic d p).pic c = v.pic c := by
  cases c <;> cases d <;> first | rfl | exact absurd rfl h

theorem vpic_get_highest_irrpin_range (pic : Pic) :
    vpic_get_highest_irrpin pic = -1 ∨
      ∃ p : Nat, p < 8 ∧ vpic_get_highest_irrpin pic = (p : Int) :=
  irr_loop_range pic _ 8 _ (and7_lt _)

theorem picstep_notify (v : Vpic) (c : Chip) :
    PicStep c (v.pic c) ((vpic_notify_intr v).pic c) := by
  obtain ⟨r, ir, h⟩ := vpic_notify_intr_pic v c
  rw [h]
  exact PicStep.drive (v.pic c) (v.pic c).acnt r ir

theorem pinstate_update_pic (v : Vpic) (pin : Nat) (b : Bool) (c : Chip) :
    ∃ a r, (pinstate_update v pin b).pic c = { v.pic c with acnt := a, request := r } := by
  rw [pinstate_update_eq]
  by_cases hc : c = pic_index (pin >>> 3)
  · subst hc
    rw [pic_setPic]
    exact ⟨_, _, rfl⟩
  · rw [pic_setPic_ne _ _ _ _ hc]
    exact ⟨_, _, rfl⟩

theorem picstep_set_pinstate (v : Vpic) (pin : Nat) (b : Bool) (c : Chip) :
    PicStep c (v.pic c) ((vpic_set_pinstate v pin b).pic c) := by
  rw [vpic_set_pinstate_eq]
  obtain ⟨a, r, h⟩ := pinstate_update_pic v pin b c
  refine PicStep.trans ?_ (picstep_notify _ c)
  rw [h]
  exact PicStep.drive (v.pic c) a r (v.pic c).intr_raised

theorem picstep_set_irqstate (v : Vpic) (irq : Int) (st : irqstate) (c : Chip) :
    PicStep c (v.pic c) ((vpic_set_irqstate v irq st).1.pic c) := by
  unfold vpic_set_irqstate
  split
  · exact PicStep.refl _
  · simp only
    split
    · exact PicStep.refl _
    · cases st
      · exact picstep_set_pinstate _ _ _ _
      · exact picstep_set_pinstate _ _ _ _
      · exact PicStep.trans (picstep_set_pinstate _ _ _ _) (picstep_set_pinstate _ _ _ _)

theorem picstep_read (v : Vpic) (d : Chip) (port eax : Nat) (c : Chip) :
    PicStep c (v.pic c) ((vpic_read v d port eax).1.pic c) := by
  unfold vpic_read
  simp only
  split
  · split
    · rename_i hpin
      by_cases hc : c = d
      · subst hc
        rw [pic_setPic]
        refine PicStep.trans (PicStep.poll_clear _) (PicStep.accepted _ _ ?_)
        rcases vpic_get_highest_irrpin_range { v.pic c with poll := false } with h | ⟨p, hp, h⟩
        · rw [h] at hpin; omega
        · rw [h]; simpa using hp
      · rw [pic_setPic_ne _ _ _ _ hc]
        exact PicStep.refl _
    · by_cases hc : c = d
      · subst hc
        rw [pic_setPic]
        exact PicStep.poll_clear _
      · rw [pic_setPic_ne _ _ _ _ hc]
        exact PicStep.refl _
  · split
    · exact PicStep.refl _
    · split <;> exact PicStep.refl _

theorem vpic_ocw1_pic_ne (v : Vpic) (c d : Chip) (x : Nat) (h : c ≠ d) :
    (vpic_ocw1 v d x).1.pic c = v.pic c := by
  cases c <;> cases d <;> first | rfl | exact absurd rfl h

theorem vpic_ocw2_pic_ne (v : Vpic) (c d : Chip) (x : Nat) (h : c ≠ d) :
    (vpic_ocw2 v d x).1.pic c = v.pic c := by
  unfold vpic_ocw2
  simp only [Vpic.emit]
  cases c <;> cases d <;> first | exact absurd rfl h | (split_ifs <;> rfl)

theorem picstep_write_dispatch (v : Vpic) (d : Chip) (port val : Nat) (c : Chip) :
    PicStep c (v.pic c) ((vpic_write_dispatch v d port val).1.pic c) := by
  by_cases hc : c = d
  · subst hc
    unfold vpic_write_dispatch
    simp only
    split
    · split
      · rw [pic_setPic]; exact PicStep.icw2 _ _
      · split
        · rw [pic_setPic]; exact PicStep.icw3 _ _
        · split
          · rw [pic_setPic]; exact PicStep.icw4 _ _
          · exact PicStep.ocw1 _ _
    · by_cases h4 : (val &&& bit 4) ≠ 0
      · simp only [if_pos h4, pic_setPic]
        have hnr : (vpic_icw1 (v.pic c) val).1.ready = false := by
          unfold vpic_icw1
          simp only
          split_ifs <;> rfl
        simp only [hnr, Bool.false_eq_true, if_false, pic_setPic]
        exact PicStep.icw1 _ _
      · simp only [if_neg h4]
        split
        · split
          · rw [pic_setPic]; exact PicStep.ocw3 _ _
          · exact PicStep.ocw2 _ _
        · exact PicStep.refl _
  · have : (vpic_write_dispatch v d port val).1.pic c = v.pic c := by
      unfold vpic_write_dispatch
      simp only
      split
      · split_ifs <;> exact pic_setPic_ne _ _ _ _ hc
      · split_ifs <;>
          first
          | exact pic_setPic_ne _ _ _ _ hc
          | exact vpic_ocw2_pic_ne _ _ _ _ hc
          | rfl
          | (rw [pic_setPic_ne _ _ _ _ hc, pic_setPic_ne _ _ _ _ hc])
          | (rw [vpic_ocw2_pic_ne _ _ _ _ hc, pic_setPic_ne _ _ _ _ hc])
    rw [this]
    exact PicStep.refl _

theorem picstep_write (v : Vpic) (d : Chip) (port eax : Nat) (c : Chip) :
    PicStep c (v.pic c) ((vpic_write v d port eax).1.pic c) := by
  unfold vpic_write
  simp only
  split
  · exact PicStep.trans (picstep_write_dispatch _ _ _ _ _) (picstep_notify _ _)
  · exact picstep_write_dispatch _ _ _ _ _

theorem picstep_handler (d : Chip) (v : Vpic) (i : Bool) (port bytes eax : Nat) (c : Chip) :
    PicStep c (v.pic c) ((vpic_handler d v i port bytes eax).1.pic c) := by
  unfold vpic_handler
  split
  · exact PicStep.refl _
  · split
    · exact picstep_read _ _ _ _ _
    · exact picstep_write _ _ _ _ _

theorem picstep_intr_accepted (v : Vpic) (vector : Int) (c : Chip) :
    PicStep c (v.pic c) ((vpic_intr_accepted v vector).pic c) := by
  unfold vpic_intr_accepted
  refine PicStep.trans ?_ (picstep_notify _ _)
  simp only
  split
  · cases c
    · exact PicStep.accepted _ _ (by decide)
    · exact PicStep.accepted _ _ (and7_lt _)
  · cases c
    · exact PicStep.accepted _ _ (and7_lt _)
    · exact PicStep.refl _

theorem vpic_pending_intr_fst (v : Vpic) : (vpic_pending_intr v).1 = v := by
  unfold vpic_pending_intr
  simp only
  split <;> split <;> rfl

/-- Every public operation changes each chip by elementary updates. -/
theorem step_picstep (v : Vpic) (op : Op) (c : Chip) :
    PicStep c (v.pic c) ((step v op).pic c) := by
  cases op with
  | master_io i port bytes eax => exact picstep_handler _ _ _ _ _ _ _
  | slave_io i port bytes eax => exact picstep_handler _ _ _ _ _ _ _
  | elc_io i port bytes eax => exact PicStep.elc _ _ _ _ _
  | set_irq_trigger irq t => exact PicStep.trigger _ _ _
  | assert_irq irq => exact picstep_set_irqstate _ _ _ _
  | deassert_irq irq => exact picstep_set_irqstate _ _ _ _
  | pulse_irq irq => exact picstep_set_irqstate _ _ _ _
  | pending_intr =>
    show PicStep c (v.pic c) ((vpic_pending_intr v).1.pic c)
    rw [vpic_pending_intr_fst]
    exact PicStep.refl _
  | intr_accepted vector => exact picstep_intr_accepted _ _ _

theorem vpic_pin_accepted_frame (p : Pic) (pin : Nat) :
    ∃ r s l, vpic_pin_accepted p pin =
      { p with intr_raised := false, request := r, service := s, lowprio := l } := by
  unfold vpic_pin_accepted
  simp only
  split_ifs <;> exact ⟨_, _, _, rfl⟩

theorem vpic_ocw2_frame (v : Vpic) (c : Chip) (x : Nat) :
    ∃ rot s l, (vpic_ocw2 v c x).1.pic c =
      { v.pic c with rotate := rot, service := s, lowprio := l } := by
  unfold vpic_ocw2
  simp only [Vpic.emit]
  cases c <;> (split_ifs <;> exact ⟨_, _, _, rfl⟩)

theorem vpic_elc_handler_frame (v : Vpic) (i : Bool) (port bytes eax : Nat) (c : Chip) :
    ∃ e, (vpic_elc_handler v i port bytes eax).1.pic c = { v.pic c with elc := e } := by
  unfold vpic_elc_handler
  simp only
  cases c <;> (split_ifs <;> exact ⟨_, rfl⟩)

theorem vpic_set_irq_trigger_frame (v : Vpic) (irq : Int) (t : vpic_trigger) (c : Chip) :
    ∃ e, (vpic_set_irq_trigger v irq t).1.pic c = { v.pic c with elc := e } := by
  unfold vpic_set_irq_trigger
  simp only
  cases c <;> cases h : pic_index (irq.toNat >>> 3) <;>
    (split_ifs <;> exact ⟨_, rfl⟩)

/-- The slave never enters special fully-nested mode and `irq_base` is never
negative: both hold of every chip update. -/
theorem picstep_sfn_base (c : Chip) (p q : Pic) (h : PicStep c p q) :
    ((c = .slave → p.sfn = false) → (c = .slave → q.sfn = false)) ∧
    (0 ≤ p.irq_base → 0 ≤ q.irq_base) := by
  induction h with
  | refl p => exact ⟨id, id⟩
  | trans _ _ ih1 ih2 => exact ⟨fun h => ih2.1 (ih1.1 h), fun h => ih2.2 (ih1.2 h)⟩
  | icw1 p x =>
    unfold vpic_icw1
    simp only
    split_ifs <;> exact ⟨id, id⟩
  | icw2 p x =>
    refine ⟨id, fun _ => ?_⟩
    simp only [vpic_icw2]
    exact Int.ofNat_nonneg _
  | icw3 p x => exact ⟨id, id⟩
  | icw4 p x =>
    unfold vpic_icw4
    simp only
    cases c <;> simp only [master_pic] <;> (split_ifs <;> first | exact ⟨id, id⟩ | contradiction | simp)
  | ocw1 v x => cases c <;> exact ⟨id, id⟩
  | ocw2 v x =>
    obtain ⟨rot, s, l, h⟩ := vpic_ocw2_frame v c x
    rw [h]; exact ⟨id, id⟩
  | ocw3 p x =>
    unfold vpic_ocw3
    simp only
    split_ifs <;> exact ⟨id, id⟩
  | accepted p pin hpin =>
    obtain ⟨r, s, l, h⟩ := vpic_pin_accepted_frame p pin
    rw [h]; exact ⟨id, id⟩
  | poll_clear p => exact ⟨id, id⟩
  | drive p a r ir => exact ⟨id, id⟩
  | elc v i port bytes eax =>
    obtain ⟨e, h⟩ := vpic_elc_handler_frame v i port bytes eax c
    rw [h]; exact ⟨id, id⟩
  | trigger v irq t =>
    obtain ⟨e, h⟩ := vpic_set_irq_trigger_frame v irq t c
    rw [h]; exact ⟨id, id⟩

theorem reachable_sfn_base (v : Vpic) (h : Reachable v) :
    v.pic1.sfn = false ∧ 0 ≤ v.pic0.irq_base ∧ 0 ≤ v.pic1.irq_base := by
  induction h with
  | init wm => exact ⟨rfl, le_refl _, le_refl _⟩
  | @step v op _ ih =>
    have h0 := picstep_sfn_base .master _ _ (step_picstep v op .master)
    have h1 := picstep_sfn_base .slave _ _ (step_picstep v op .slave)
    exact ⟨h1.1 (fun _ => ih.1) rfl, h0.2 ih.2.1, h1.2 ih.2.2⟩

theorem prio_pin_eq (pic : Pic) (k : Nat) :
    (and7 (pic.lowprio + 1) + k) % 8 = prio_pin pic k := by
  unfold prio_pin and7
  omega

theorem prio_pin_lt (pic : Pic) (k : Nat) : prio_pin pic k < 8 := and7_lt _

theorem irr_serviced_testBit (c : Chip) (pic : Pic) (i : Nat) (hi : i < 8)
    (hs : c = .slave → pic.sfn = false) :
    (irr_serviced pic).testBit i = effective_service c pic i := by
  unfold irr_serviced effective_service
  by_cases hsmm : pic.smm ≠ 0
  · simp [hsmm]
  · simp only [hsmm, if_false]
    cases hsfn : pic.sfn with
    | false => simp
    | true =>
      have hc : c = .master := by
        cases c with
        | master => rfl
        | slave => rw [hs rfl] at hsfn; cases hsfn
      subst hc
      simp only [if_true, true_and, Nat.testBit_and, testBit_not32, testBit_bit]
      have h32 : i < 32 := by omega
      by_cases h2 : i = 2
      · subst h2; simp
      · have : ¬ 2 = i := fun h => h2 h.symm
        simp [h32, h2, this]

theorem highest_irrpin_iff (c : Chip) (pic : Pic) (hs : c = .slave → pic.sfn = false)
    (p : Nat) :
    vpic_get_highest_irrpin pic = (p : Int) ↔ is_highest_irr c pic p := by
  unfold vpic_get_highest_irrpin is_highest_irr
  rw [irr_loop_eq_pin pic _ 8 _ p (and7_lt _)]
  constructor
  · rintro ⟨k, hk, hp, h3, h4, h5⟩
    refine ⟨k, hk, ?_, h3, ?_, ?_⟩
    · rw [hp, prio_pin_eq]
    · intro j hj; rw [← prio_pin_eq]; exact h4 j hj
    · intro j hj
      rw [← irr_serviced_testBit c pic _ (prio_pin_lt _ _) hs, ← prio_pin_eq]
      exact h5 j hj
  · rintro ⟨k, hk, hp, h3, h4, h5⟩
    refine ⟨k, hk, ?_, h3, ?_, ?_⟩
    · rw [hp, prio_pin_eq]
    · intro j hj; rw [prio_pin_eq]; exact h4 j hj
    · intro j hj
      rw [prio_pin_eq, irr_serviced_testBit c pic _ (prio_pin_lt _ _) hs]
      exact h5 j hj

theorem reachable_run (wm : vpic_wire_mode) (ops : List Op) :
    Reachable (run (vpic_init wm) ops) := by
  have : ∀ (ops : List Op) (v : Vpic), Reachable v → Reachable (run v ops) := by
    intro ops
    induction ops with
    | nil => intro v hv; exact hv
    | cons op ops ih => intro v hv; exact ih _ (Reachable.step op hv)
  exact this ops _ (Reachable.init wm)

theorem vpic_notify_intr_service (v : Vpic) (c : Chip) :
    ((vpic_notify_intr v).pic c).service = (v.pic c).service := by
  obtain ⟨r, ir, h⟩ := vpic_notify_intr_pic v c
  rw [h]

theorem vpic_pin_accepted_service (pic : Pic) (pin : Nat) (h : pic.aeoi = false) :
    (vpic_pin_accepted pic pin).service = u8 (pic.service ||| bit pin) := by
  unfold vpic_pin_accepted
  simp only
  split_ifs <;> simp_all

theorem testBit_u8_or_bit (x pin i : Nat) (hi : i < 8) :
    (u8 (x ||| bit pin)).testBit i = (x.testBit i || decide (i = pin)) := by
  rw [testBit_u8, Nat.testBit_or, testBit_bit]
  simp only [hi, decide_True, Bool.true_and]
  congr 1
  simp only [eq_comm]

theorem vpic_pin_accepted_noaeoi (pic : Pic) (pin : Nat) (h : pic.aeoi = false) :
    vpic_pin_accepted pic pin =
      { pic with
        intr_raised := false,
        request :=
          if (pic.elc &&& bit pin) = 0 then u8 (pic.request &&& not32 (bit pin))
          else pic.request,
        service := u8 (pic.service ||| bit pin) } := by
  unfold vpic_pin_accepted
  simp only
  split_ifs <;> simp_all

theorem testBit_u8_and_not_bit (x pin i : Nat) (hi : i < 8) :
    (u8 (x &&& not32 (bit pin))).testBit i = (x.testBit i && !decide (i = pin)) := by
  rw [testBit_u8, Nat.testBit_and, testBit_not32, testBit_bit]
  have h32 : i < 32 := by omega
  by_cases h : i = pin
  · subst h; simp [hi, h32]
  · have : ¬ pin = i := fun e => h e.symm
    simp [hi, h32, h, this]

/-- The three outcomes of the pin driver for the IRR. -/
theorem pinstate_request_cases (pic : Pic) (pin : Nat) (b : Bool) (newcnt : Int)
    (hn : newcnt = if b then pic.acnt (slot pin) + 1 else pic.acnt (slot pin) - 1) :
    (((pic.acnt (slot pin) = 0 ∧ newcnt = 1) ∨
        (newcnt > 0 ∧ pic.elc.testBit (pin % 8) = true)) ∧
      pinstate_request pic pin b = u8 (pic.request ||| bit (pin % 8))) ∨
    (¬ (pic.acnt (slot pin) = 0 ∧ newcnt = 1) ∧ pic.acnt (slot pin) = 1 ∧ newcnt = 0 ∧
      pic.elc.testBit (pin % 8) = true ∧
      pinstate_request pic pin b = u8 (pic.request &&& not32 (bit (pin % 8)))) ∨
    (¬ (pic.acnt (slot pin) = 0 ∧ newcnt = 1) ∧
      ¬ (newcnt > 0 ∧ pic.elc.testBit (pin % 8) = true) ∧
      ¬ (pic.acnt (slot pin) = 1 ∧ newcnt = 0 ∧ pic.elc.testBit (pin % 8) = true) ∧
      pinstate_request pic pin b = pic.request) := by
  have hl := and_bit_ne_zero pic.elc (pin % 8)
  unfold pinstate_request
  simp only [← hn, hl]
  by_cases h1 : (pic.acnt (slot pin) = 0 ∧ newcnt = 1) ∨
      (newcnt > 0 ∧ pic.elc.testBit (pin % 8) = true)
  · left
    exact ⟨h1, if_pos h1⟩
  · right
    rw [if_neg h1]
    by_cases h2 : (pic.acnt (slot pin) = 1 ∧ newcnt = 0) ∧ pic.elc.testBit (pin % 8) = true
    · left
      rw [if_pos h2]
      exact ⟨fun h => h1 (Or.inl h), h2.1.1, h2.1.2, h2.2, rfl⟩
    · right
      rw [if_neg h2]
      exact ⟨fun h => h1 (Or.inl h), fun h => h1 (Or.inr h),
        fun h => h2 ⟨⟨h.1, h.2.1⟩, h.2.2⟩, rfl⟩

/-- Bits of the IRR other than the driven pin are not changed by the pin
driver. -/
theorem pinstate_request_other (pic : Pic) (pin : Nat) (b : Bool) (i : Nat) (hi : i < 8)
    (hne : i ≠ pin % 8) :
    (pinstate_request pic pin b).testBit i = pic.request.testBit i := by
  rcases pinstate_request_cases pic pin b _ rfl with ⟨-, h⟩ | ⟨-, -, -, -, h⟩ | ⟨-, -, -, h⟩
  · rw [h, testBit_u8_or_bit _ _ _ hi]; simp [hne]
  · rw [h, testBit_u8_and_not_bit _ _ _ hi]; simp [hne]
  · rw [h]

/-- A set IRR bit of an edge-triggered pin is not cleared by the pin driver. -/
theorem pinstate_request_edge_keeps (pic : Pic) (pin : Nat) (b : Bool)
    (he : pic.elc.testBit (pin % 8) = false)
    (hset : pic.request.testBit (pin % 8) = true) :
    (pinstate_request pic pin b).testBit (pin % 8) = true := by
  have hi : pin % 8 < 8 := Nat.mod_lt _ (by decide)
  rcases pinstate_request_cases pic pin b _ rfl with ⟨-, h⟩ | ⟨-, -, -, hl, -⟩ | ⟨-, -, -, h⟩
  · rw [h, testBit_u8_or_bit _ _ _ hi]; simp
  · rw [he] at hl; cases hl
  · rw [h]; exact hset

/-- A rising edge (count 0 to 1) sets the IRR bit. -/
theorem pinstate_request_rising (pic : Pic) (pin : Nat)
    (hc : pic.acnt (slot pin) = 0) :
    (pinstate_request pic pin true).testBit (pin % 8) = true := by
  have hi : pin % 8 < 8 := Nat.mod_lt _ (by decide)
  rcases pinstate_request_cases pic pin true _ rfl with ⟨-, h⟩ | ⟨h, -⟩ | ⟨h, -⟩
  · rw [h, testBit_u8_or_bit _ _ _ hi]; simp
  · exact absurd ⟨hc, by simp [hc]⟩ h
  · exact absurd ⟨hc, by simp [hc]⟩ h

/-- On a level-triggered pin the IRR bit is set when the new count is positive
and cleared when the count falls from 1 to 0. -/
theorem pinstate_request_level (pic : Pic) (pin : Nat) (b : Bool) (newcnt : Int)
    (hn : newcnt = if b then pic.acnt (slot pin) + 1 else pic.acnt (slot pin) - 1)
    (hl : pic.elc.testBit (pin % 8) = true) :
    (0 < newcnt → (pinstate_request pic pin b).testBit (pin % 8) = true) ∧
    (newcnt = 0 → b = false → (pinstate_request pic pin b).testBit (pin % 8) = false) := by
  have hi : pin % 8 < 8 := Nat.mod_lt _ (by decide)
  rcases pinstate_request_cases pic pin b newcnt hn with
    ⟨hc, h⟩ | ⟨-, -, h0, -, h⟩ | ⟨-, h2, h3, h⟩
  · refine ⟨fun _ => ?_, fun h0 hb => ?_⟩
    · rw [h, testBit_u8_or_bit _ _ _ hi]; simp
    · exfalso
      rcases hc with ⟨-, h1⟩ | ⟨h1, -⟩ <;> omega
  · refine ⟨fun hp => ?_, fun _ _ => ?_⟩
    · omega
    · rw [h, testBit_u8_and_not_bit _ _ _ hi]; simp
  · refine ⟨fun hp => absurd ⟨hp, hl⟩ h2, fun h0 hb => ?_⟩
    exfalso
    subst hb
    simp only [Bool.false_eq_true, if_false] at hn
    exact h3 ⟨by omega, h0, hl⟩

theorem cascade_request_other (pic : Pic) (i : Nat) (hi : i < 8) (hne : i ≠ 2) :
    (cascade_request pic).testBit i = pic.request.testBit i := by
  unfold cascade_request
  rw [pinstate_request_other _ 2 false i hi hne]
  exact pinstate_request_other pic 2 true i hi hne

theorem cascade_request_edge_keeps (pic : Pic) (he : pic.elc.testBit 2 = false)
    (hset : pic.request.testBit 2 = true) :
    (cascade_request pic).testBit 2 = true := by
  unfold cascade_request
  exact pinstate_request_edge_keeps _ 2 false he
    (pinstate_request_edge_keeps pic 2 true he hset)

theorem cascade_request_level (pic : Pic) (hl : pic.elc.testBit 2 = true) :
    (0 < pic.acnt (slot 2) → (cascade_request pic).testBit 2 = true) ∧
    (pic.acnt (slot 2) = 0 → (cascade_request pic).testBit 2 = false) := by
  unfold cascade_request
  have h := pinstate_request_level
    { pic with
      acnt := Function.update pic.acnt (slot 2) (pic.acnt (slot 2) + 1),
      request := pinstate_request pic 2 true } 2 false (pic.acnt (slot 2))
    (by simp) hl
  exact ⟨h.1, fun h0 => h.2 h0 rfl⟩

theorem vpic_notify_intr_frame (v : Vpic) (c : Chip) :
    ((vpic_notify_intr v).pic c).acnt = (v.pic c).acnt ∧
    ((vpic_notify_intr v).pic c).elc = (v.pic c).elc ∧
    ((vpic_notify_intr v).pic c).ready = (v.pic c).ready := by
  obtain ⟨r, ir, h⟩ := vpic_notify_intr_pic v c
  rw [h]
  exact ⟨rfl, rfl, rfl⟩

/-- The notification keeps a set IRR bit of an edge-triggered pin. -/
theorem vpic_notify_intr_edge_keeps (v : Vpic) (c : Chip) (i : Nat) (hi : i < 8)
    (he : (v.pic c).elc.testBit i = false) (hset : (v.pic c).request.testBit i = true) :
    ((vpic_notify_intr v).pic c).request.testBit i = true := by
  cases c with
  | slave =>
    obtain ⟨ir, h⟩ := vpic_notify_intr_pic1 v
    show (vpic_notify_intr v).pic1.request.testBit i = true
    rw [h]; exact hset
  | master =>
    obtain ⟨ir, h⟩ := vpic_notify_intr_pic0 v
    show (vpic_notify_intr v).pic0.request.testBit i = true
    rw [h]; simp only
    split
    · by_cases h2 : i = 2
      · subst h2; exact cascade_request_edge_keeps _ he hset
      · rw [cascade_request_other _ i hi h2]; exact hset
    · exact hset

/-- The notification keeps the relation between the IRR bit and the assertion
count of a level-triggered pin. -/
theorem vpic_notify_intr_level_keeps (v : Vpic) (c : Chip) (i : Nat) (hi : i < 8)
    (hl : (v.pic c).elc.testBit i = true) (n : Int) (hn : (v.pic c).acnt (slot i) = n) :
    (0 < n → (v.pic c).request.testBit i = true →
      ((vpic_notify_intr v).pic c).request.testBit i = true) ∧
    (n = 0 → (v.pic c).request.testBit i = false →
      ((vpic_notify_intr v).pic c).request.testBit i = false) := by
  cases c with
  | slave =>
    obtain ⟨ir, h⟩ := vpic_notify_intr_pic1 v
    show (0 < n → _ → (vpic_notify_intr v).pic1.request.testBit i = true) ∧
      (n = 0 → _ → (vpic_notify_intr v).pic1.request.testBit i = false)
    rw [h]; exact ⟨fun _ h => h, fun _ h => h⟩
  | master =>
    obtain ⟨ir, h⟩ := vpic_notify_intr_pic0 v
    show (0 < n → _ → (vpic_notify_intr v).pic0.request.testBit i = true) ∧
      (n = 0 → _ → (vpic_notify_intr v).pic0.request.testBit i = false)
    rw [h]; simp only
    split
    · by_cases h2 : i = 2
      · subst h2
        subst hn
        have := cascade_request_level _ hl
        exact ⟨fun hp _ => this.1 hp, fun hz _ => this.2 hz⟩
      · rw [cascade_request_other _ i hi h2]; exact ⟨fun _ h => h, fun _ h => h⟩
    · exact ⟨fun _ h => h, fun _ h => h⟩

theorem pinstate_update_pic_self (v : Vpic) (pin : Nat) (b : Bool) :
    (pinstate_update v pin b).pic (pic_index (pin >>> 3)) =
      { v.pic (pic_index (pin >>> 3)) with
        acnt := Function.update (v.pic (pic_index (pin >>> 3))).acnt (slot pin)
          (if b then (v.pic (pic_index (pin >>> 3))).acnt (slot pin) + 1
            else (v.pic (pic_index (pin >>> 3))).acnt (slot pin) - 1),
        request := pinstate_request (v.pic (pic_index (pin >>> 3))) pin b } := by
  rw [pinstate_update_eq, pic_setPic]

/-- What `vpic_set_pinstate` leaves of the addressed chip: the counter of the
pin moves by one, `elc` and `ready` stay. -/
theorem vpic_set_pinstate_frame (v : Vpic) (pin : Nat) (b : Bool) :
    ((vpic_set_pinstate v pin b).pic (pic_index (pin >>> 3))).acnt =
      Function.update (v.pic (pic_index (pin >>> 3))).acnt (slot pin)
        (if b then (v.pic (pic_index (pin >>> 3))).acnt (slot pin) + 1
          else (v.pic (pic_index (pin >>> 3))).acnt (slot pin) - 1) ∧
    ((vpic_set_pinstate v pin b).pic (pic_index (pin >>> 3))).elc =
      (v.pic (pic_index (pin >>> 3))).elc ∧
    ((vpic_set_pinstate v pin b).pic (pic_index (pin >>> 3))).ready =
      (v.pic (pic_index (pin >>> 3))).ready := by
  rw [vpic_set_pinstate_eq]
  obtain ⟨h1, h2, h3⟩ := vpic_notify_intr_frame (pinstate_update v pin b)
    (pic_index (pin >>> 3))
  rw [h1, h2, h3, pinstate_update_pic_self]
  exact ⟨rfl, rfl, rfl⟩

/-- On an edge-triggered pin `vpic_set_pinstate` leaves the IRR bit set when it
was set before or when the call is a rising edge. -/
theorem vpic_set_pinstate_edge (v : Vpic) (pin : Nat) (b : Bool)
    (he : (v.pic (pic_index (pin >>> 3))).elc.testBit (pin % 8) = false)
    (h : (v.pic (pic_index (pin >>> 3))).request.testBit (pin % 8) = true ∨
      (b = true ∧ (v.pic (pic_index (pin >>> 3))).acnt (slot pin) = 0)) :
    ((vpic_set_pinstate v pin b).pic (pic_index (pin >>> 3))).request.testBit (pin % 8)
      = true := by
  rw [vpic_set_pinstate_eq]
  apply vpic_notify_intr_edge_keeps _ _ _ (Nat.mod_lt _ (by decide))
  · rw [pinstate_update_pic_self]; exact he
  · rw [pinstate_update_pic_self]
    simp only
    rcases h with h | ⟨hb, hc⟩
    · exact pinstate_request_edge_keeps _ _ _ he h
    · subst hb; exact pinstate_request_rising _ _ hc

theorem vpic_set_irqstate_ready (v : Vpic) (irq : Nat) (st : irqstate) (h : irq < 16)
    (hr : (v.pic (pic_index (irq >>> 3))).ready = true) :
    vpic_set_irqstate v (irq : Int) st =
      match st with
      | .IRQSTATE_ASSERT => (vpic_set_pinstate v irq true, 0)
      | .IRQSTATE_DEASSERT => (vpic_set_pinstate v irq false, 0)
      | .IRQSTATE_PULSE =>
        (vpic_set_pinstate (vpic_set_pinstate v irq true) irq false, 0) := by
  unfold vpic_set_irqstate
  have h1 : ¬ ((irq : Int) < 0 ∨ (irq : Int) > 15) := by omega
  simp only [h1, if_false, Int.toNat_ofNat, hr, Bool.true_eq_false]

theorem slot_mod (pin : Nat) : slot (pin % 8) = slot pin := by
  unfold slot
  simp

theorem isr_loop_range (pic : Pic) (n : Nat) :
    ∀ start, start < 8 →
      isr_loop pic n start = -1 ∨ ∃ p : Nat, p < 8 ∧ isr_loop pic n start = (p : Int) := by
  induction n with
  | zero => intro start _; left; rfl
  | succ n ih =>
    intro start hs
    unfold isr_loop
    split
    · split
      · exact ih _ (Nat.mod_lt _ (by decide))
      · right; exact ⟨start, hs, rfl⟩
    · exact ih _ (Nat.mod_lt _ (by decide))

theorem isr_loop_eq_pin (pic : Pic) (n : Nat) :
    ∀ start p : Nat, start < 8 →
      (isr_loop pic n start = (p : Int) ↔
        ∃ k, k < n ∧ p = (start + k) % 8 ∧ isr_selectable pic p ∧
          (∀ j, j < k → ¬ isr_selectable pic ((start + j) % 8))) := by
  induction n with
  | zero =>
    intro start p _
    constructor
    · intro h
      simp only [isr_loop] at h
      omega
    · rintro ⟨k, hk, _⟩
      omega
  | succ n ih =>
    intro start p hs
    have hs8 : (start + 0) % 8 = start := by omega
    have hshift : ∀ j, ((start + 1) % 8 + j) % 8 = (start + (j + 1)) % 8 := by
      intro j; omega
    have hsel : isr_selectable pic start ↔
        ((pic.service &&& bit start) ≠ 0 ∧ ¬ (pic.smm ≠ 0 ∧ (pic.mask &&& bit start) ≠ 0)) := by
      unfold isr_selectable
      rw [and_bit_ne_zero, and_bit_ne_zero]
    by_cases he : isr_selectable pic start
    · have hv : isr_loop pic (n + 1) start = (start : Int) := by
        unfold isr_loop
        rw [if_pos (hsel.mp he).1, if_neg (hsel.mp he).2]
      rw [hv]
      constructor
      · intro h
        have hp : p = start := by omega
        subst hp
        exact ⟨0, Nat.succ_pos _, hs8.symm, he, fun j hj => by omega⟩
      · rintro ⟨k, _, hp, _, h4⟩
        cases k with
        | zero => rw [hs8] at hp; rw [hp]
        | succ k =>
          have := h4 0 (Nat.succ_pos _)
          rw [hs8] at this
          exact absurd he this
    · have hv : isr_loop pic (n + 1) start = isr_loop pic n ((start + 1) % 8) := by
        rw [hsel] at he
        conv_lhs => unfold isr_loop
        by_cases h1 : (pic.service &&& bit start) ≠ 0
        · rw [if_pos h1, if_pos (by
            by_contra hc
            exact he ⟨h1, hc⟩)]
        · rw [if_neg h1]
      rw [hv, ih ((start + 1) % 8) p (Nat.mod_lt _ (by decide))]
      constructor
      · rintro ⟨k, hk, hp, h3, h4⟩
        refine ⟨k + 1, Nat.succ_lt_succ hk, ?_, h3, ?_⟩
        · rw [hp, hshift]
        · intro j hj
          cases j with
          | zero => rw [hs8]; exact he
          | succ j => rw [← hshift]; exact h4 j (by omega)
      · rintro ⟨k, hk, hp, h3, h4⟩
        cases k with
        | zero =>
          rw [hs8] at hp
          rw [hp] at h3
          exact absurd h3 he
        | succ k =>
          refine ⟨k, by omega, ?_, h3, ?_⟩
          · rw [hp, hshift]
          · intro j hj
            rw [hshift]; exact h4 (j + 1) (by omega)

theorem vpic_get_highest_isrpin_range (pic : Pic) :
    vpic_get_highest_isrpin pic = -1 ∨
      ∃ p : Nat, p < 8 ∧ vpic_get_highest_isrpin pic = (p : Int) :=
  isr_loop_range pic 8 _ (and7_lt _)

theorem highest_isrpin_iff (pic : Pic) (p : Nat) :
    vpic_get_highest_isrpin pic = (p : Int) ↔ is_highest_isr pic p := by
  unfold vpic_get_highest_isrpin is_highest_isr
  rw [isr_loop_eq_pin pic 8 _ p (and7_lt _)]
  constructor
  · rintro ⟨k, hk, hp, h3, h4⟩
    refine ⟨k, hk, ?_, h3, ?_⟩
    · rw [hp, prio_pin_eq]
    · intro j hj; rw [← prio_pin_eq]; exact h4 j hj
  · rintro ⟨k, hk, hp, h3, h4⟩
    refine ⟨k, hk, ?_, h3, ?_⟩
    · rw [hp, prio_pin_eq]
    · intro j hj; rw [prio_pin_eq]; exact h4 j hj

theorem highest_isrpin_none_iff (pic : Pic) :
    vpic_get_highest_isrpin pic = -1 ↔ ¬ ∃ p, is_highest_isr pic p := by
  constructor
  · rintro h ⟨p, hp⟩
    rw [← highest_isrpin_iff pic p, h] at hp
    omega
  · intro h
    rcases vpic_get_highest_isrpin_range pic with h1 | ⟨p, _, hp⟩
    · exact h1
    · exact absurd ⟨p, (highest_isrpin_iff pic p).mp hp⟩ h

theorem isr_loop_congr (p q : Pic) (h1 : q.service = p.service) (h2 : q.smm = p.smm)
    (h3 : q.mask = p.mask) (n : Nat) :
    ∀ start, isr_loop q n start = isr_loop p n start := by
  induction n with
  | zero => intro _; rfl
  | succ n ih =>
    intro start
    unfold isr_loop
    rw [h1, h2, h3, ih]

theorem u8_and_7 (x : Nat) : u8 x &&& 0x7 = x &&& 0x7 := by
  apply Nat.eq_of_testBit_eq
  intro i
  rw [Nat.testBit_and, Nat.testBit_and, testBit_u8]
  by_cases hi : i < 8
  · simp [hi]
  · have : Nat.testBit 0x7 i = false := Nat.testBit_lt_two_pow (by
      calc 0x7 < 2 ^ 8 := by decide
        _ ≤ 2 ^ i := Nat.pow_le_pow_right (by decide) (by omega))
    simp [this]

theorem and_7_lt (x : Nat) : x &&& 0x7 < 8 :=
  Nat.and_lt_two_pow x (n := 3) (by decide)

/-- The chip after an OCW2 with the EOI bit. -/
theorem vpic_ocw2_eoi_pic (v : Vpic) (c : Chip) (val : Nat) (h5 : (val &&& OCW2_EOI) ≠ 0)
    (sel : Int)
    (hsel : sel = if (val &&& OCW2_SL) ≠ 0 then ((val &&& 0x7 : Nat) : Int)
      else vpic_get_highest_isrpin (v.pic c)) :
    (vpic_ocw2 v c val).1.pic c =
      { v.pic c with
        rotate := decide ((val &&& OCW2_R) ≠ 0),
        service :=
          if sel ≠ -1 then u8 ((v.pic c).service &&& not32 (bit sel.toNat))
          else (v.pic c).service,
        lowprio := if sel ≠ -1 ∧ (val &&& OCW2_R) ≠ 0 then sel else (v.pic c).lowprio } := by
  have hisr : vpic_get_highest_isrpin
      { v.pic c with rotate := decide ((val &&& OCW2_R) ≠ 0) } =
      vpic_get_highest_isrpin (v.pic c) := by
    unfold vpic_get_highest_isrpin
    exact isr_loop_congr _ _ rfl rfl rfl 8 _
  unfold vpic_ocw2
  simp only [h5, ne_eq, not_false_eq_true, if_true, hisr, ← hsel, Vpic.emit]
  by_cases h1 : sel = -1
  · simp only [h1, not_true_eq_false, if_false, false_and]
    split <;> cases c <;> rfl
  · simp only [h1, not_false_eq_true, if_true, true_and]
    by_cases hR : (val &&& OCW2_R) = 0
    · simp only [hR, not_true_eq_false, decide_False, Bool.false_eq_true, if_false]
      split <;> cases c <;> rfl
    · simp only [hR, not_false_eq_true, decide_True, if_true]
      split <;> cases c <;> rfl

/-- A command-port write of an OCW2 (bits 3 and 4 clear) to a ready chip. -/
theorem vpic_write_ocw2 (v : Vpic) (c : Chip) (x : Nat) (hr : (v.pic c).ready = true)
    (h3 : x.testBit 3 = false) (h4 : x.testBit 4 = false) :
    (vpic_write_dispatch v c (cmd_port c) (u8 x)) = vpic_ocw2 v c (u8 x) := by
  have e4 : (u8 x &&& bit 4) = 0 := (u8_and_bit_eq_zero x 4 (by decide)).mpr h4
  have e3 : (u8 x &&& bit 3) = 0 := (u8_and_bit_eq_zero x 3 (by decide)).mpr h3
  simp [vpic_write_dispatch, cmd_port_even, e4, e3, hr]

/-- The pin driver sets no IRR bit other than that of the driven pin. -/
theorem pinstate_request_other_le (pic : Pic) (pin : Nat) (b : Bool) (i : Nat)
    (hne : i ≠ pin % 8) (h : (pinstate_request pic pin b).testBit i = true) :
    pic.request.testBit i = true := by
  have hne' : ¬ pin % 8 = i := fun e => hne e.symm
  rcases pinstate_request_cases pic pin b _ rfl with ⟨-, e⟩ | ⟨-, -, -, -, e⟩ | ⟨-, -, -, e⟩
  · rw [e, testBit_u8, Nat.testBit_or, testBit_bit] at h
    simp only [hne', decide_False, Bool.or_false, Bool.and_eq_true] at h
    exact h.2
  · rw [e, testBit_u8, Nat.testBit_and] at h
    simp only [Bool.and_eq_true] at h
    exact h.2.1
  · rw [e] at h; exact h

theorem cascade_request_other_le (pic : Pic) (i : Nat) (hne : i ≠ 2)
    (h : (cascade_request pic).testBit i = true) : pic.request.testBit i = true := by
  unfold cascade_request at h
  have h1 := pinstate_request_other_le _ 2 false i hne h
  exact pinstate_request_other_le pic 2 true i hne h1

theorem testBit_u8_or_bit_set (x pin j : Nat) (hj : j < 8) :
    (u8 (x ||| bit pin)).testBit j = if j = pin then true else x.testBit j := by
  rw [testBit_u8_or_bit _ _ _ hj]
  by_cases h : j = pin <;> simp [h]

theorem testBit_u8_and_not_bit_clear (x pin j : Nat) (hj : j < 8) :
    (u8 (x &&& not32 (bit pin))).testBit j = if j = pin then false else x.testBit j := by
  rw [testBit_u8_and_not_bit _ _ _ hj]
  by_cases h : j = pin <;> simp [h]

theorem and_ff_of_lt (x : Nat) (h : x < 256) : u8 x &&& 0xff = x := by
  have h1 : u8 x = x := Nat.mod_eq_of_lt h
  rw [h1]
  have : x &&& 2 ^ 8 - 1 = x % 2 ^ 8 := Nat.and_pow_two_sub_one_eq_mod x 8
  have h2 : x &&& 0xff = x % 256 := this
  rw [h2]
  exact Nat.mod_eq_of_lt h

/-- A data-port write outside the ICW sequence is an OCW1, followed by the
notification when the chip is ready. -/
theorem vpic_write_ocw1 (v : Vpic) (c : Chip) (x : Nat)
    (h2 : (v.pic c).icw_num ≠ 2) (h3 : (v.pic c).icw_num ≠ 3) (h4 : (v.pic c).icw_num ≠ 4) :
    vpic_write v c (data_port c) x =
      if (v.pic c).ready = true then (vpic_notify_intr (vpic_ocw1 v c (u8 x)).1, 0)
      else ((vpic_ocw1 v c (u8 x)).1, 0) := by
  have hd : vpic_write_dispatch v c (data_port c) (u8 x) = vpic_ocw1 v c (u8 x) := by
    simp [vpic_write_dispatch, data_port_odd, h2, h3, h4]
  have hp : (vpic_ocw1 v c (u8 x)).1.pic c = { v.pic c with mask := u8 x &&& 0xff } := by
    cases c <;> rfl
  unfold vpic_write
  simp only [hd, hp]
  split <;> rfl

theorem vpic_ocw1_pic (v : Vpic) (c : Chip) (x : Nat) :
    (vpic_ocw1 v c x).1.pic c = { v.pic c with mask := x &&& 0xff } := by
  cases c <;> rfl

theorem u8_and_lt (x m : Nat) (hm : m < 256) : u8 (x &&& m) = x &&& m :=
  Nat.mod_eq_of_lt (Nat.lt_of_le_of_lt Nat.and_le_right hm)

theorem vpic_icw1_frame (p : Pic) (x : Nat) :
    ∃ n, (vpic_icw1 p x).1 = { p with
      ready := false, icw_num := n, request := 0, mask := 0, lowprio := 7,
      rd_cmd_reg := 0, poll := false, smm := 0 } := by
  unfold vpic_icw1
  simp only
  split_ifs <;> exact ⟨_, rfl⟩

theorem vpic_icw4_frame (c : Chip) (p : Pic) (x : Nat) :
    ∃ a s n r, (vpic_icw4 c p x).1 = { p with aeoi := a, sfn := s, icw_num := n, ready := r } ∧
      (p.aeoi = true → a = true) := by
  unfold vpic_icw4
  simp only
  split_ifs <;> exact ⟨_, _, _, _, rfl, by simp⟩

theorem vpic_ocw3_frame (p : Pic) (x : Nat) :
    ∃ s r pl, (vpic_ocw3 p x).1 = { p with smm := s, rd_cmd_reg := r, poll := pl } := by
  unfold vpic_ocw3
  simp only
  split_ifs <;> exact ⟨_, _, _, rfl⟩

theorem testBit_u8_and_mask_clear (x m k : Nat) (hm : m.testBit k = false) :
    (u8 (x &&& m)).testBit k = false := by
  rw [testBit_u8, Nat.testBit_and, hm]; simp

theorem testBit_u8_and_keep_clear (e y k : Nat) (he : e.testBit k = false) :
    (u8 (e &&& y)).testBit k = false := by
  rw [testBit_u8, Nat.testBit_and, he]; simp

theorem testBit_u8_or_bit_keep_clear (e j k : Nat) (he : e.testBit k = false) (hjk : j ≠ k) :
    (u8 (e ||| bit j)).testBit k = false := by
  rw [testBit_u8, Nat.testBit_or, testBit_bit, he]; simp [hjk]

theorem pic_index_shift (n : Nat) (h : n < 16) :
    pic_index (n >>> 3) = if n < 8 then Chip.master else Chip.slave := by
  unfold pic_index
  rw [Nat.shiftRight_eq_div_pow]
  by_cases h8 : n < 8
  · have : n / 2 ^ 3 = 0 := by omega
    rw [if_pos this, if_pos h8]
  · have : n / 2 ^ 3 ≠ 0 := by omega
    rw [if_neg this, if_neg h8]

theorem and7_ofNat (n : Nat) : and7 (n : Int) = n % 8 := by
  unfold and7
  omega

theorem vpic_elc_handler_elc (v : Vpic) (i : Bool) (port bytes eax : Nat) (c : Chip)
    (h : elc_edge_only c (v.pic c).elc) :
    elc_edge_only c ((vpic_elc_handler v i port bytes eax).1.pic c).elc := by
  unfold vpic_elc_handler
  simp only
  split_ifs
  · exact h
  · exact h
  · exact h
  · cases c
    · exact ⟨testBit_u8_and_mask_clear _ _ _ (by decide),
        testBit_u8_and_mask_clear _ _ _ (by decide),
        testBit_u8_and_mask_clear _ _ _ (by decide)⟩
    · exact h
  · cases c
    · exact h
    · exact ⟨testBit_u8_and_mask_clear _ _ _ (by decide),
        testBit_u8_and_mask_clear _ _ _ (by decide)⟩

theorem vpic_set_irq_trigger_elc (v : Vpic) (irq : Int) (t : vpic_trigger) (c : Chip)
    (h : elc_edge_only c (v.pic c).elc) :
    elc_edge_only c ((vpic_set_irq_trigger v irq t).1.pic c).elc := by
  unfold vpic_set_irq_trigger
  by_cases h1 : irq < 0 ∨ irq > 15
  · simp only [h1, if_true]; exact h
  · simp only [h1, if_false]
    by_cases h2 : t = .LEVEL_TRIGGER ∧ (irq = 0 ∨ irq = 1 ∨ irq = 2 ∨ irq = 8 ∨ irq = 13)
    · simp only [h2, and_self, if_true]; exact h
    · simp only [h2, if_false]
      obtain ⟨n, rfl⟩ := Int.eq_ofNat_of_zero_le (by omega : 0 ≤ irq)
      have hn : n < 16 := by omega
      simp only [Int.toNat_ofNat, and7_ofNat, pic_index_shift n hn]
      by_cases ht : t = .LEVEL_TRIGGER
      · simp only [ht, if_true]
        simp only [ht, true_and] at h2
        by_cases h8 : n < 8
        · simp only [h8, if_true]
          cases c
          · obtain ⟨e0, e1, e2⟩ := h
            have hm : n % 8 = n := by omega
            rw [hm]
            exact ⟨testBit_u8_or_bit_keep_clear _ _ _ e0 (by omega),
              testBit_u8_or_bit_keep_clear _ _ _ e1 (by omega),
              testBit_u8_or_bit_keep_clear _ _ _ e2 (by omega)⟩
          · exact h
        · simp only [h8, if_false]
          cases c
          · exact h
          · obtain ⟨e0, e5⟩ := h
            exact ⟨testBit_u8_or_bit_keep_clear _ _ _ e0 (by omega),
              testBit_u8_or_bit_keep_clear _ _ _ e5 (by omega)⟩
      · simp only [ht, if_false]
        by_cases h8 : n < 8
        · simp only [h8, if_true]
          cases c
          · obtain ⟨e0, e1, e2⟩ := h
            exact ⟨testBit_u8_and_keep_clear _ _ _ e0, testBit_u8_and_keep_clear _ _ _ e1,
              testBit_u8_and_keep_clear _ _ _ e2⟩
          · exact h
        · simp only [h8, if_false]
          cases c
          · exact h
          · obtain ⟨e0, e5⟩ := h
            exact ⟨testBit_u8_and_keep_clear _ _ _ e0, testBit_u8_and_keep_clear _ _ _ e5⟩

/-- The ELCR bits of the edge-only pins stay clear under every chip update. -/
theorem picstep_elc (c : Chip) (p q : Pic) (h : PicStep c p q) :
    elc_edge_only c p.elc → elc_edge_only c q.elc := by
  induction h with
  | refl p => exact id
  | trans _ _ ih1 ih2 => exact fun h => ih2 (ih1 h)
  | icw1 p x =>
    obtain ⟨n, h⟩ := vpic_icw1_frame p x
    rw [h]; exact id
  | icw2 p x => exact id
  | icw3 p x => exact id
  | icw4 p x =>
    obtain ⟨a, s, n, r, h, -⟩ := vpic_icw4_frame c p x
    rw [h]; exact id
  | ocw1 v x => rw [vpic_ocw1_pic]; exact id
  | ocw2 v x =>
    obtain ⟨rot, s, l, h⟩ := vpic_ocw2_frame v c x
    rw [h]; exact id
  | ocw3 p x =>
    obtain ⟨s, r, pl, h⟩ := vpic_ocw3_frame p x
    rw [h]; exact id
  | accepted p pin hpin =>
    obtain ⟨r, s, l, h⟩ := vpic_pin_accepted_frame p pin
    rw [h]; exact id
  | poll_clear p => exact id
  | drive p a r ir => exact id
  | elc v i port bytes eax => exact vpic_elc_handler_elc v i port bytes eax c
  | trigger v irq t => exact vpic_set_irq_trigger_elc v irq t c

/-- An OCW2 sets no ISR bit. -/
theorem vpic_ocw2_service_le (v : Vpic) (c : Chip) (x : Nat) (i : Nat)
    (h : ((vpic_ocw2 v c x).1.pic c).service.testBit i = true) :
    (v.pic c).service.testBit i = true := by
  by_cases h5 : (x &&& OCW2_EOI) ≠ 0
  · obtain ⟨sel, hsel⟩ : ∃ sel : Int, sel = if (x &&& OCW2_SL) ≠ 0 then ((x &&& 0x7 : Nat) : Int)
        else vpic_get_highest_isrpin (v.pic c) := ⟨_, rfl⟩
    rw [vpic_ocw2_eoi_pic v c x h5 sel hsel] at h
    simp only at h
    by_cases hs : sel ≠ -1
    · rw [if_pos hs, testBit_u8, Nat.testBit_and] at h
      simp only [Bool.and_eq_true] at h
      exact h.2.1
    · rw [if_neg hs] at h
      exact h
  · have : ∃ rot l, (vpic_ocw2 v c x).1.pic c = { v.pic c with rotate := rot, lowprio := l } := by
      unfold vpic_ocw2
      simp only [h5, if_false]
      cases c <;> (split_ifs <;> exact ⟨_, _, rfl⟩)
    obtain ⟨rot, l, e⟩ := this
    rw [e] at h
    exact h

/-- Function `vpic_pin_accepted` on a chip in AEOI mode. -/
theorem vpic_pin_accepted_aeoi (pic : Pic) (pin : Nat) (h : pic.aeoi = true) :
    (vpic_pin_accepted pic pin).service = pic.service ∧
    (vpic_pin_accepted pic pin).aeoi = true ∧
    (vpic_pin_accepted pic pin).lowprio =
      if pic.rotate = true then (pin : Int) else pic.lowprio := by
  unfold vpic_pin_accepted
  simp only
  split_ifs <;> simp_all

/-- A chip in AEOI mode stays in AEOI mode and gets no new ISR bit under any
chip update. -/
theorem picstep_aeoi_service (c : Chip) (p q : Pic) (h : PicStep c p q) :
    p.aeoi = true → q.aeoi = true ∧ ∀ i, q.service.testBit i = true → p.service.testBit i = true := by
  induction h with
  | refl p => exact fun h => ⟨h, fun _ h => h⟩
  | trans _ _ ih1 ih2 =>
    intro h
    obtain ⟨a1, s1⟩ := ih1 h
    obtain ⟨a2, s2⟩ := ih2 a1
    exact ⟨a2, fun i hi => s1 i (s2 i hi)⟩
  | icw1 p x =>
    obtain ⟨n, h⟩ := vpic_icw1_frame p x
    rw [h]; exact fun h => ⟨h, fun _ h => h⟩
  | icw2 p x => exact fun h => ⟨h, fun _ h => h⟩
  | icw3 p x => exact fun h => ⟨h, fun _ h => h⟩
  | icw4 p x =>
    obtain ⟨a, s, n, r, h, ha⟩ := vpic_icw4_frame c p x
    rw [h]; exact fun h => ⟨ha h, fun _ h => h⟩
  | ocw1 v x => rw [vpic_ocw1_pic]; exact fun h => ⟨h, fun _ h => h⟩
  | ocw2 v x =>
    intro h
    refine ⟨?_, fun i hi => vpic_ocw2_service_le v c x i hi⟩
    obtain ⟨rot, s, l, e⟩ := vpic_ocw2_frame v c x
    rw [e]; exact h
  | ocw3 p x =>
    obtain ⟨s, r, pl, h⟩ := vpic_ocw3_frame p x
    rw [h]; exact fun h => ⟨h, fun _ h => h⟩
  | accepted p pin hpin =>
    intro h
    obtain ⟨e1, e2, -⟩ := vpic_pin_accepted_aeoi p pin h
    rw [e1]
    exact ⟨e2, fun _ h => h⟩
  | poll_clear p => exact fun h => ⟨h, fun _ h => h⟩
  | drive p a r ir => exact fun h => ⟨h, fun _ h => h⟩
  | elc v i port bytes eax =>
    obtain ⟨e, h⟩ := vpic_elc_handler_frame v i port bytes eax c
    rw [h]; exact fun h => ⟨h, fun _ h => h⟩
  | trigger v irq t =>
    obtain ⟨e, h⟩ := vpic_set_irq_trigger_frame v irq t c
    rw [h]; exact fun h => ⟨h, fun _ h => h⟩

theorem chipstep_mono (c : Chip) (P Q : Nat → Prop) (hPQ : ∀ x, P x → Q x) (p q : Pic)
    (h : ChipStep c P p q) : ChipStep c Q p q := by
  induction h with
  | refl p => exact ChipStep.refl p
  | trans _ _ ih1 ih2 => exact ChipStep.trans ih1 ih2
  | icw1 p x h4 hp => exact ChipStep.icw1 p x h4 (hPQ x hp)
  | icw2 p x h => exact ChipStep.icw2 p x h
  | icw3 p x h => exact ChipStep.icw3 p x h
  | icw4 p x h => exact ChipStep.icw4 p x h
  | ocw1 v x h2 h3 h4 => exact ChipStep.ocw1 v x h2 h3 h4
  | ocw2 v x h => exact ChipStep.ocw2 v x h
  | ocw3 p x h => exact ChipStep.ocw3 p x h
  | accepted p pin h => exact ChipStep.accepted p pin h
  | poll_clear p => exact ChipStep.poll_clear p
  | drive p a r ir => exact ChipStep.drive p a r ir
  | elc v i port bytes eax => exact ChipStep.elc v i port bytes eax
  | trigger v irq t => exact ChipStep.trigger v irq t

theorem chipstep_notify (P : Nat → Prop) (v : Vpic) (c : Chip) :
    ChipStep c P (v.pic c) ((vpic_notify_intr v).pic c) := by
  obtain ⟨r, ir, h⟩ := vpic_notify_intr_pic v c
  rw [h]
  exact ChipStep.drive (v.pic c) (v.pic c).acnt r ir

theorem chipstep_set_pinstate (P : Nat → Prop) (v : Vpic) (pin : Nat) (b : Bool) (c : Chip) :
    ChipStep c P (v.pic c) ((vpic_set_pinstate v pin b).pic c) := by
  rw [vpic_set_pinstate_eq]
  obtain ⟨a, r, h⟩ := pinstate_update_pic v pin b c
  refine ChipStep.trans ?_ (chipstep_notify P _ c)
  rw [h]
  exact ChipStep.drive (v.pic c) a r (v.pic c).intr_raised

theorem chipstep_set_irqstate (P : Nat → Prop) (v : Vpic) (irq : Int) (st : irqstate)
    (c : Chip) : ChipStep c P (v.pic c) ((vpic_set_irqstate v irq st).1.pic c) := by
  unfold vpic_set_irqstate
  split
  · exact ChipStep.refl _
  · simp only
    split
    · exact ChipStep.refl _
    · cases st
      · exact chipstep_set_pinstate P _ _ _ _
      · exact chipstep_set_pinstate P _ _ _ _
      · exact ChipStep.trans (chipstep_set_pinstate P _ _ _ _)
          (chipstep_set_pinstate P _ _ _ _)

theorem chipstep_read (P : Nat → Prop) (v : Vpic) (d : Chip) (port eax : Nat) (c : Chip) :
    ChipStep c P (v.pic c) ((vpic_read v d port eax).1.pic c) := by
  unfold vpic_read
  simp only
  split
  · split
    · rename_i hpin
      by_cases hc : c = d
      · subst hc
        rw [pic_setPic]
        refine ChipStep.trans (ChipStep.poll_clear _) (ChipStep.accepted _ _ ?_)
        rcases vpic_get_highest_irrpin_range { v.pic c with poll := false } with h | ⟨p, hp, h⟩
        · rw [h] at hpin; omega
        · rw [h]; simpa using hp
      · rw [pic_setPic_ne _ _ _ _ hc]
        exact ChipStep.refl _
    · by_cases hc : c = d
      · subst hc
        rw [pic_setPic]
        exact ChipStep.poll_clear _
      · rw [pic_setPic_ne _ _ _ _ hc]
        exact ChipStep.refl _
  · split
    · exact ChipStep.refl _
    · split <;> exact ChipStep.refl _

theorem vpic_write_dispatch_pic_ne (v : Vpic) (d : Chip) (port val : Nat) (c : Chip)
    (hc : c ≠ d) : (vpic_write_dispatch v d port val).1.pic c = v.pic c := by
  unfold vpic_write_dispatch
  simp only
  split
  · split_ifs <;> exact pic_setPic_ne _ _ _ _ hc
  · split_ifs <;>
      first
      | exact pic_setPic_ne _ _ _ _ hc
      | exact vpic_ocw2_pic_ne _ _ _ _ hc
      | rfl
      | (rw [pic_setPic_ne _ _ _ _ hc, pic_setPic_ne _ _ _ _ hc])
      | (rw [vpic_ocw2_pic_ne _ _ _ _ hc, pic_setPic_ne _ _ _ _ hc])

theorem chipstep_write_dispatch (v : Vpic) (d : Chip) (port val : Nat) (c : Chip) :
    ChipStep c (fun x => c = d ∧ (port &&& ICU_IMR_OFFSET) = 0 ∧ x = val)
      (v.pic c) ((vpic_write_dispatch v d port val).1.pic c) := by
  by_cases hc : c = d
  · subst hc
    unfold vpic_write_dispatch
    simp only
    by_cases hport : (port &&& ICU_IMR_OFFSET) ≠ 0
    · rw [if_pos hport]
      split
      · rename_i h; rw [pic_setPic]; exact ChipStep.icw2 _ _ h
      · split
        · rename_i h; rw [pic_setPic]; exact ChipStep.icw3 _ _ h
        · split
          · rename_i h; rw [pic_setPic]; exact ChipStep.icw4 _ _ h
          · rename_i h2 h3 h4; exact ChipStep.ocw1 _ _ h2 h3 h4
    · rw [if_neg hport]
      by_cases h4 : (val &&& bit 4) ≠ 0
      · simp only [if_pos h4, pic_setPic]
        have hnr : (vpic_icw1 (v.pic c) val).1.ready = false := by
          unfold vpic_icw1
          simp only
          split_ifs <;> rfl
        simp only [hnr, Bool.false_eq_true, if_false, pic_setPic]
        exact ChipStep.icw1 _ _ h4 ⟨trivial, not_not.mp hport, rfl⟩
      · simp only [if_neg h4]
        split
        · rename_i hr
          split
          · rw [pic_setPic]; exact ChipStep.ocw3 _ _ hr
          · exact ChipStep.ocw2 _ _ hr
        · exact ChipStep.refl _
  · rw [vpic_write_dispatch_pic_ne v d port val c hc]
    exact ChipStep.refl _

theorem chipstep_write (v : Vpic) (d : Chip) (port eax : Nat) (c : Chip) :
    ChipStep c (fun x => c = d ∧ (port &&& ICU_IMR_OFFSET) = 0 ∧ x = u8 eax)
      (v.pic c) ((vpic_write v d port eax).1.pic c) := by
  unfold vpic_write
  simp only
  split
  · exact ChipStep.trans (chipstep_write_dispatch _ _ _ _ _) (chipstep_notify _ _ _)
  · exact chipstep_write_dispatch _ _ _ _ _

theorem chipstep_handler (d : Chip) (v : Vpic) (i : Bool) (port bytes eax : Nat) (c : Chip) :
    ChipStep c
      (fun x => c = d ∧ i = false ∧ bytes = 1 ∧ (port &&& ICU_IMR_OFFSET) = 0 ∧ x = u8 eax)
      (v.pic c) ((vpic_handler d v i port bytes eax).1.pic c) := by
  unfold vpic_handler
  split
  · exact ChipStep.refl _
  · rename_i hb
    split
    · exact chipstep_read _ _ _ _ _ _
    · rename_i hi
      apply chipstep_mono c _ _ _ _ _ (chipstep_write v d port eax c)
      rintro x ⟨h1, h2, h3⟩
      exact ⟨h1, by simpa using hi, not_not.mp hb, h2, h3⟩

theorem chipstep_intr_accepted (P : Nat → Prop) (v : Vpic) (vector : Int) (c : Chip) :
    ChipStep c P (v.pic c) ((vpic_intr_accepted v vector).pic c) := by
  unfold vpic_intr_accepted
  refine ChipStep.trans ?_ (chipstep_notify P _ _)
  simp only
  split
  · cases c
    · exact ChipStep.accepted _ _ (by decide)
    · exact ChipStep.accepted _ _ (and7_lt _)
  · cases c
    · exact ChipStep.accepted _ _ (and7_lt _)
    · exact ChipStep.refl _

/-- Every public operation changes each chip by guarded elementary updates; an
ICW1 occurs only with a byte the operation writes to that chip's command
port. -/
theorem step_chipstep (v : Vpic) (op : Op) (c : Chip) :
    ChipStep c (icw1_byte c op) (v.pic c) ((step v op).pic c) := by
  cases op with
  | master_io i port bytes eax => exact chipstep_handler _ _ _ _ _ _ _
  | slave_io i port bytes eax => exact chipstep_handler _ _ _ _ _ _ _
  | elc_io i port bytes eax => exact ChipStep.elc _ _ _ _ _
  | set_irq_trigger irq t => exact ChipStep.trigger _ _ _
  | assert_irq irq => exact chipstep_set_irqstate _ _ _ _ _
  | deassert_irq irq => exact chipstep_set_irqstate _ _ _ _ _
  | pulse_irq irq => exact chipstep_set_irqstate _ _ _ _ _
  | pending_intr =>
    show ChipStep c _ (v.pic c) ((vpic_pending_intr v).1.pic c)
    rw [vpic_pending_intr_fst]
    exact ChipStep.refl _
  | intr_accepted vector => exact chipstep_intr_accepted _ _ _ _

theorem step_cmd_write (v : Vpic) (c : Chip) (x : Nat) :
    step v (cmd_write c x) = (vpic_write v c (cmd_port c) x).1 := by
  cases c <;> simp [step, cmd_write, vpic_master_handler, vpic_slave_handler, vpic_handler,
    cmd_port]

theorem step_data_write (v : Vpic) (c : Chip) (x : Nat) :
    step v (data_write c x) = (vpic_write v c (data_port c) x).1 := by
  cases c <;> simp [step, data_write, vpic_master_handler, vpic_slave_handler, vpic_handler,
    data_port]

theorem vpic_icw1_cases (p : Pic) (x : Nat) :
    ∃ n, (n = 1 ∨ n = 2) ∧ (vpic_icw1 p x).1 = { p with
      ready := false, icw_num := n, request := 0, mask := 0, lowprio := 7,
      rd_cmd_reg := 0, poll := false, smm := 0 } := by
  unfold vpic_icw1
  simp only
  split_ifs
  · exact ⟨1, Or.inl rfl, rfl⟩
  · exact ⟨1, Or.inl rfl, rfl⟩
  · exact ⟨2, Or.inr rfl, rfl⟩

theorem vpic_icw4_cases (c : Chip) (p : Pic) (x : Nat) :
    (vpic_icw4 c p x).1 = p ∨
    ∃ a s, (vpic_icw4 c p x).1 = { p with aeoi := a, sfn := s, icw_num := 0, ready := true } := by
  unfold vpic_icw4
  simp only
  split_ifs
  · left; rfl
  all_goals right; exact ⟨_, _, rfl⟩

theorem vpic_pin_accepted_lowprio (p : Pic) (pin : Nat) :
    (vpic_pin_accepted p pin).lowprio = p.lowprio ∨
      (vpic_pin_accepted p pin).lowprio = (pin : Int) := by
  unfold vpic_pin_accepted
  simp only
  split_ifs <;> first | (left; rfl) | (right; rfl)

theorem vpic_ocw2_lowprio (v : Vpic) (c : Chip) (x : Nat) :
    ((vpic_ocw2 v c x).1.pic c).lowprio = (v.pic c).lowprio ∨
      ∃ n : Nat, n < 8 ∧ ((vpic_ocw2 v c x).1.pic c).lowprio = (n : Int) := by
  by_cases h5 : (x &&& OCW2_EOI) ≠ 0
  · obtain ⟨sel, hsel⟩ : ∃ sel : Int, sel = if (x &&& OCW2_SL) ≠ 0 then ((x &&& 0x7 : Nat) : Int)
        else vpic_get_highest_isrpin (v.pic c) := ⟨_, rfl⟩
    rw [vpic_ocw2_eoi_pic v c x h5 sel hsel]
    simp only
    by_cases hs : sel ≠ -1 ∧ (x &&& OCW2_R) ≠ 0
    · rw [if_pos hs]
      right
      rw [hsel] at hs ⊢
      split
      · exact ⟨x &&& 0x7, and_7_lt x, rfl⟩
      · rename_i hsl
        rw [if_neg hsl] at hs
        rcases vpic_get_highest_isrpin_range (v.pic c) with h | ⟨n, hn, h⟩
        · exact absurd h hs.1
        · exact ⟨n, hn, h⟩
    · rw [if_neg hs]; left; trivial
  · have : ((vpic_ocw2 v c x).1.pic c).lowprio = (v.pic c).lowprio ∨
        ((vpic_ocw2 v c x).1.pic c).lowprio = ((x &&& 0x7 : Nat) : Int) := by
      unfold vpic_ocw2
      simp only [h5, if_false]
      cases c <;> (split_ifs <;> first | (left; rfl) | (right; rfl))
    rcases this with h | h
    · left; exact h
    · right; exact ⟨x &&& 0x7, and_7_lt x, h⟩

/-- The ranges of `icw_num` and `lowprio` and the implication from `ready` to
`icw_num = 0` hold after every guarded chip update. -/
theorem chipstep_wf (c : Chip) (P : Nat → Prop) (p q : Pic) (h : ChipStep c P p q) :
    chip_wf p → chip_wf q := by
  induction h with
  | refl p => exact id
  | trans _ _ ih1 ih2 => exact fun h => ih2 (ih1 h)
  | icw1 p x _ _ =>
    obtain ⟨n, hn, h⟩ := vpic_icw1_cases p x
    rw [h]
    intro _
    rcases hn with hn | hn <;> subst hn <;> simp [chip_wf]
  | icw2 p x h2 =>
    rintro ⟨-, hl, hr⟩
    refine ⟨?_, hl, fun h => ?_⟩
    · simp [vpic_icw2, h2]
    · have := hr h; omega
  | icw3 p x h3 =>
    rintro ⟨-, hl, hr⟩
    refine ⟨?_, hl, fun h => ?_⟩
    · simp [vpic_icw3, h3]
    · have := hr h; omega
  | icw4 p x h4 =>
    rintro ⟨hi, hl, hr⟩
    rcases vpic_icw4_cases c p x with h | ⟨a, s, h⟩
    · rw [h]; exact ⟨hi, hl, hr⟩
    · rw [h]; exact ⟨⟨le_refl _, by simp⟩, hl, fun _ => rfl⟩
  | ocw1 v x _ _ _ => rw [vpic_ocw1_pic]; exact id
  | ocw2 v x _ =>
    rintro ⟨hi, hl, hr⟩
    obtain ⟨rot, s, l, e⟩ := vpic_ocw2_frame v c x
    have hlow := vpic_ocw2_lowprio v c x
    have e1 : ((vpic_ocw2 v c x).1.pic c).icw_num = (v.pic c).icw_num := by rw [e]
    have e2 : ((vpic_ocw2 v c x).1.pic c).ready = (v.pic c).ready := by rw [e]
    refine ⟨by rw [e1]; exact hi, ?_, by rw [e1, e2]; exact hr⟩
    rcases hlow with h | ⟨n, hn, h⟩
    · rw [h]; exact hl
    · rw [h]; omega
  | ocw3 p x _ =>
    obtain ⟨s, r, pl, h⟩ := vpic_ocw3_frame p x
    rw [h]; exact id
  | accepted p pin hpin =>
    rintro ⟨hi, hl, hr⟩
    obtain ⟨r, s, l, e⟩ := vpic_pin_accepted_frame p pin
    have e1 : (vpic_pin_accepted p pin).icw_num = p.icw_num := by rw [e]
    have e2 : (vpic_pin_accepted p pin).ready = p.ready := by rw [e]
    refine ⟨by rw [e1]; exact hi, ?_, by rw [e1, e2]; exact hr⟩
    rcases vpic_pin_accepted_lowprio p pin with h | h
    · rw [h]; exact hl
    · rw [h]; omega
  | poll_clear p => exact id
  | drive p a r ir => exact id
  | elc v i port bytes eax =>
    obtain ⟨e, h⟩ := vpic_elc_handler_frame v i port bytes eax c
    rw [h]; exact id
  | trigger v irq t =>
    obtain ⟨e, h⟩ := vpic_set_irq_trigger_frame v irq t c
    rw [h]; exact id

/-- The equivalence of `ready` and `icw_num = 0` is kept by every guarded chip
update. -/
theorem chipstep_ready_iff (c : Chip) (P : Nat → Prop) (p q : Pic) (h : ChipStep c P p q) :
    (p.ready = true ↔ p.icw_num = 0) → (q.ready = true ↔ q.icw_num = 0) := by
  induction h with
  | refl p => exact id
  | trans _ _ ih1 ih2 => exact fun h => ih2 (ih1 h)
  | icw1 p x _ _ =>
    obtain ⟨n, hn, h⟩ := vpic_icw1_cases p x
    rw [h]
    intro _
    constructor
    · intro hr; cases hr
    · intro h0
      have h0' : n = 0 := h0
      rcases hn with hn | hn <;> omega
  | icw2 p x h2 =>
    intro hL
    have hr : ¬ p.ready = true := fun h => by have := hL.mp h; omega
    simp only [vpic_icw2, h2]
    exact ⟨fun h => absurd h hr, fun h => by omega⟩
  | icw3 p x h3 =>
    intro hL
    have hr : ¬ p.ready = true := fun h => by have := hL.mp h; omega
    simp only [vpic_icw3, h3]
    exact ⟨fun h => absurd h hr, fun h => by omega⟩
  | icw4 p x h4 =>
    intro hL
    rcases vpic_icw4_cases c p x with h | ⟨a, s, h⟩
    · rw [h]; exact hL
    · rw [h]; exact ⟨fun _ => rfl, fun _ => rfl⟩
  | ocw1 v x _ _ _ => rw [vpic_ocw1_pic]; exact id
  | ocw2 v x _ =>
    obtain ⟨rot, s, l, e⟩ := vpic_ocw2_frame v c x
    rw [e]; exact id
  | ocw3 p x _ =>
    obtain ⟨s, r, pl, h⟩ := vpic_ocw3_frame p x
    rw [h]; exact id
  | accepted p pin hpin =>
    obtain ⟨r, s, l, e⟩ := vpic_pin_accepted_frame p pin
    rw [e]; exact id
  | poll_clear p => exact id
  | drive p a r ir => exact id
  | elc v i port bytes eax =>
    obtain ⟨e, h⟩ := vpic_elc_handler_frame v i port bytes eax c
    rw [h]; exact id
  | trigger v irq t =>
    obtain ⟨e, h⟩ := vpic_set_irq_trigger_frame v irq t c
    rw [h]; exact id

theorem reachable_chip_wf (v : Vpic) (hv : Reachable v) (c : Chip) : chip_wf (v.pic c) := by
  induction hv with
  | init wm => cases c <;> simp [chip_wf, vpic_init, Vpic.pic, Pic.zero]
  | @step v op _ ih => exact chipstep_wf c _ _ _ (step_chipstep v op c) ih

theorem initdone_ready_iff (c : Chip) (v : Vpic) (h : InitDone c v) :
    (v.pic c).ready = true ↔ (v.pic c).icw_num = 0 := by
  induction h with
  | @done v x _ h4 h0 =>
    rw [step_data_write, vpic_write_icw4 v c x h4 h0]
    obtain ⟨r, ir, hn⟩ := vpic_notify_intr_pic
      (v.setPic c { v.pic c with
        aeoi := (v.pic c).aeoi || x.testBit 1,
        sfn := (v.pic c).sfn || (x.testBit 4 && master_pic c),
        icw_num := 0, ready := true }) c
    simp only [hn, pic_setPic]
  | @step v op _ ih => exact chipstep_ready_iff c _ _ _ (step_chipstep v op c) ih

theorem initdone_reachable (c : Chip) (v : Vpic) (h : InitDone c v) : Reachable v := by
  induction h with
  | done x hv _ _ => exact Reachable.step _ hv
  | step op _ ih => exact Reachable.step op ih

theorem vpic_icw1_invalid (p : Pic) (y : Nat) (h : ¬ (y.testBit 0 = true ∧ y.testBit 1 = false)) :
    vpic_icw1 p y =
      ({ p with ready := false, icw_num := 1, request := 0, mask := 0, lowprio := 7,
                rd_cmd_reg := 0, poll := false, smm := 0 }, -1) := by
  have e1 : (y &&& ICW1_SNGL) ≠ 0 ↔ y.testBit 1 = true := and_bit_ne_zero y 1
  have e0 : (y &&& ICW1_IC4) = 0 ↔ y.testBit 0 = false := and_bit_eq_zero y 0
  unfold vpic_icw1
  simp only
  by_cases h1 : y.testBit 1 = true
  · rw [if_pos (e1.mpr h1)]
  · rw [if_neg (fun hc => h1 (e1.mp hc))]
    have h0 : y.testBit 0 = false := by
      cases hb : y.testBit 0 with
      | false => rfl
      | true => exact absurd ⟨hb, by simpa using h1⟩ h
    rw [if_pos (e0.mpr h0)]

/-- A chip that an invalid ICW1 left at `icw_num = 1` stays not ready under every
guarded chip update that brings no valid ICW1. -/
theorem chipstep_not_ready (c : Chip) (P : Nat → Prop) (hP : ∀ y, P y → ¬ icw1_valid y)
    (p q : Pic) (h : ChipStep c P p q) :
    (p.ready = false ∧ p.icw_num = 1) → (q.ready = false ∧ q.icw_num = 1) := by
  induction h with
  | refl p => exact id
  | trans _ _ ih1 ih2 => exact fun h => ih2 (ih1 h)
  | icw1 p y h4 hp =>
    intro _
    have hbad : ¬ (y.testBit 0 = true ∧ y.testBit 1 = false) := by
      intro hc
      exact hP y hp ⟨(and_bit_ne_zero y 4).mp h4, hc.1, hc.2⟩
    rw [vpic_icw1_invalid p y hbad]
    exact ⟨rfl, rfl⟩
  | icw2 p x h2 => rintro ⟨-, h⟩; omega
  | icw3 p x h3 => rintro ⟨-, h⟩; omega
  | icw4 p x h4 => rintro ⟨-, h⟩; omega
  | ocw1 v x _ _ _ => rw [vpic_ocw1_pic]; exact id
  | ocw2 v x hr => rintro ⟨h, -⟩; rw [hr] at h; cases h
  | ocw3 p x hr => rintro ⟨h, -⟩; rw [hr] at h; cases h
  | accepted p pin hpin =>
    obtain ⟨r, s, l, e⟩ := vpic_pin_accepted_frame p pin
    rw [e]; exact id
  | poll_clear p => exact id
  | drive p a r ir => exact id
  | elc v i port bytes eax =>
    obtain ⟨e, h⟩ := vpic_elc_handler_frame v i port bytes eax c
    rw [h]; exact id
  | trigger v irq t =>
    obtain ⟨e, h⟩ := vpic_set_irq_trigger_frame v irq t c
    rw [h]; exact id

theorem run_not_ready (c : Chip) (ops : List Op) :
    ∀ v : Vpic, (∀ op ∈ ops, ∀ y, icw1_byte c op y → ¬ icw1_valid y) →
      ((v.pic c).ready = false ∧ (v.pic c).icw_num = 1) →
      (((run v ops).pic c).ready = false ∧ ((run v ops).pic c).icw_num = 1) := by
  induction ops with
  | nil => intro v _ h; exact h
  | cons op ops ih =>
    intro v hops h
    have h1 := chipstep_not_ready c _ (hops op (List.mem_cons_self _ _)) _ _
      (step_chipstep v op c) h
    exact ih (step v op) (fun o ho => hops o (List.mem_cons_of_mem _ ho)) h1

theorem icw1_byte_data_write (c : Chip) (d y : Nat) : ¬ icw1_byte c (data_write c d) y := by
  cases c <;> simp [icw1_byte, data_write, ICU_IMR_OFFSET]

theorem run_data_writes (c : Chip) (ds : List Nat) :
    ∀ v : Vpic, ds.foldl (fun s d => (vpic_write s c (data_port c) d).1) v =
      run v (ds.map (data_write c)) := by
  induction ds with
  | nil => intro v; rfl
  | cons d ds ih =>
    intro v
    simp only [List.foldl_cons, List.map_cons, run]
    rw [ih, step_data_write]
    rfl

/-- The `aeoi` flag after an accepted ICW4: the old flag or bit 1 of the
byte. -/
theorem vpic_write_icw4_aeoi (v : Vpic) (c : Chip) (x : Nat) (h : (v.pic c).icw_num = 4)
    (h0 : x.testBit 0 = true) :
    (vpic_write v c (data_port c) x).2 = 0 ∧
    ((vpic_write v c (data_port c) x).1.pic c).aeoi = ((v.pic c).aeoi || x.testBit 1) := by
  rw [vpic_write_icw4 v c x h h0]
  obtain ⟨r, ir, hn⟩ := vpic_notify_intr_pic
    (v.setPic c { v.pic c with
      aeoi := (v.pic c).aeoi || x.testBit 1,
      sfn := (v.pic c).sfn || (x.testBit 4 && master_pic c),
      icw_num := 0, ready := true }) c
  simp only [hn, pic_setPic, and_self]

/-- The passthrough acknowledgement of an OCW2 with the EOI bit when a pin is
selected: issued exactly when the ELCR bit of the pin is set, with the pin's
absolute number. -/
theorem vpic_ocw2_ack_selected (v : Vpic) (c : Chip) (val : Nat)
    (h5 : (val &&& OCW2_EOI) ≠ 0) (sel : Nat) (hs : sel < 8)
    (hsel : (sel : Int) = if (val &&& OCW2_SL) ≠ 0 then ((val &&& 0x7 : Nat) : Int)
      else vpic_get_highest_isrpin (v.pic c)) :
    (vpic_ocw2 v c val).1.trace =
      if (v.pic c).elc.testBit sel = true then
        v.trace ++ [.ptdev_ack (if master_pic c then (sel : Int) else (sel : Int) + 8)]
      else v.trace := by
  have hisr : vpic_get_highest_isrpin
      { v.pic c with rotate := decide ((val &&& OCW2_R) ≠ 0) } =
      vpic_get_highest_isrpin (v.pic c) := by
    unfold vpic_get_highest_isrpin
    exact isr_loop_congr _ _ rfl rfl rfl 8 _
  have hne : (sel : Int) ≠ -1 := by omega
  have h7 : and7 (sel : Int) = sel := by rw [and7_ofNat]; omega
  have hbit := and_bit_ne_zero (v.pic c).elc sel
  unfold vpic_ocw2
  simp only [h5, ne_eq, not_false_eq_true, if_true, hisr, ← hsel, hne, Vpic.emit, h7]
  by_cases hl : (v.pic c).elc.testBit sel = true
  · have hl' : ¬ ((v.pic c).elc &&& bit sel) = 0 := hbit.mpr hl
    by_cases hR : (val &&& OCW2_R) = 0 <;> cases c <;>
      simp [hR, hl, hl', Vpic.setPic, Vpic.pic] <;> simp_all [Vpic.pic]
  · have hl' : ((v.pic c).elc &&& bit sel) = 0 := by
      by_contra hc
      exact hl (hbit.mp hc)
    by_cases hR : (val &&& OCW2_R) = 0 <;> cases c <;>
      simp [hR, hl, hl', Vpic.setPic, Vpic.pic] <;> simp_all [Vpic.pic]

theorem irr_loop_congr (p q : Pic) (S : Nat) (h1 : q.request = p.request)
    (h2 : q.mask = p.mask) (n : Nat) :
    ∀ start, irr_loop q S n start = irr_loop p S n start := by
  induction n with
  | zero => intro _; rfl
  | succ n ih =>
    intro start
    conv_lhs => unfold irr_loop
    conv_rhs => unfold irr_loop
    rw [h1, h2, ih]

/-- The highest-IRR query does not read `intr_raised`. -/
theorem vpic_get_highest_irrpin_intr_raised (p : Pic) (b : Bool) :
    vpic_get_highest_irrpin { p with intr_raised := b } = vpic_get_highest_irrpin p := by
  unfold vpic_get_highest_irrpin
  exact irr_loop_congr _ _ _ rfl rfl 8 _

/-- The master half of the notification changes nothing when the master is
raised already or has no eligible pin. -/
theorem notify_master_of_quiet (w : Vpic)
    (h : ¬ (w.pic0.intr_raised = false ∧ vpic_get_highest_irrpin w.pic0 ≠ -1)) :
    notify_master w = w := by
  unfold notify_master
  simp only [h, if_false]

/-- The master half of the notification changes nothing when run twice. -/
theorem notify_master_idem (u : Vpic) : notify_master (notify_master u) = notify_master u := by
  have h0 := notify_master_pic0 u
  have hr : (notify_master u).pic0.intr_raised =
      (u.pic0.intr_raised || decide (vpic_get_highest_irrpin u.pic0 ≠ -1)) := by rw [h0]
  have hi : vpic_get_highest_irrpin (notify_master u).pic0 = vpic_get_highest_irrpin u.pic0 := by
    rw [h0]; exact vpic_get_highest_irrpin_intr_raised _ _
  apply notify_master_of_quiet
  rintro ⟨h1, h2⟩
  rw [hr] at h1
  rw [hi] at h2
  simp [h2] at h1

/-- After the notification the slave either has `intr_raised` set or has no
eligible pin: the cascade pulse is not made again. -/
theorem vpic_notify_intr_slave_quiet (v : Vpic) :
    ¬ ((vpic_notify_intr v).pic1.intr_raised = false ∧
      vpic_get_highest_irrpin (vpic_notify_intr v).pic1 ≠ -1) := by
  rw [vpic_notify_intr_eq]
  split
  · rw [notify_master_pic1, cascade_pulse_pic1]
    rintro ⟨h1, -⟩
    cases h1
  · rename_i h
    rw [notify_master_pic1]
    exact h

theorem vpic_notify_intr_is_notify_master (v : Vpic) :
    ∃ u, vpic_notify_intr v = notify_master u := by
  rw [vpic_notify_intr_eq]
  split
  · exact ⟨_, rfl⟩
  · exact ⟨_, rfl⟩

/-- With the cascade guard false the notification needs no nested call: depth 1
suffices and only the master half runs. -/
theorem vpic_notify_intr_fuel_quiet (n : Nat) (v : Vpic)
    (h : ¬ (v.pic1.intr_raised = false ∧ vpic_get_highest_irrpin v.pic1 ≠ -1)) :
    vpic_notify_intr_fuel (n + 1) v = some (notify_master v) := by
  simp only [vpic_notify_intr_fuel, if_neg h]

/-- The counting variants compute the same controller as the functions they
instrument. -/
theorem calls_erase (fuel : Nat) :
    (∀ v, (vpic_notify_intr_calls fuel v).map Prod.fst = vpic_notify_intr_fuel fuel v) ∧
    (∀ v pin b,
      (vpic_set_pinstate_calls fuel v pin b).map Prod.fst = vpic_set_pinstate_fuel fuel v pin b) := by
  induction fuel with
  | zero => exact ⟨fun _ => rfl, fun _ _ _ => rfl⟩
  | succ n ih =>
    obtain ⟨ihn, ihs⟩ := ih
    refine ⟨fun v => ?_, fun v pin b => ?_⟩
    · simp only [vpic_notify_intr_calls, vpic_notify_intr_fuel]
      split
      · rw [← ihs]
        cases h1 : vpic_set_pinstate_calls n
            { v with pic1 := { v.pic1 with intr_raised := true } } 2 true with
        | none => rfl
        | some r1 =>
          simp only [Option.map_some']
          rw [← ihs]
          cases h2 : vpic_set_pinstate_calls n r1.1 2 false with
          | none => rfl
          | some r2 => rfl
      · rfl
    · simp only [vpic_set_pinstate_calls, vpic_set_pinstate_fuel]
      exact ihn _

/-- A notification whose cascade guard is false is a single call. -/
theorem vpic_notify_intr_calls_quiet (n : Nat) (v : Vpic)
    (h : ¬ (v.pic1.intr_raised = false ∧ vpic_get_highest_irrpin v.pic1 ≠ -1)) :
    vpic_notify_intr_calls (n + 1) v = some (notify_master v, 1) := by
  simp only [vpic_notify_intr_calls, if_neg h]

theorem not_guard_of_raised (v : Vpic) (h : v.pic1.intr_raised = true) :
    ¬ (v.pic1.intr_raised = false ∧ vpic_get_highest_irrpin v.pic1 ≠ -1) := by
  rintro ⟨h1, -⟩
  rw [h] at h1
  cases h1

/-- The number of calls of `vpic_notify_intr` in a notification: 1, or 3 when
the cascade pulse is made. -/
theorem vpic_notify_intr_calls_eq (n : Nat) (v : Vpic) :
    vpic_notify_intr_calls (n + 3) v = some (vpic_notify_intr v,
      if v.pic1.intr_raised = false ∧ vpic_get_highest_irrpin v.pic1 ≠ -1 then 3 else 1) := by
  rw [vpic_notify_intr_eq]
  by_cases h : v.pic1.intr_raised = false ∧ vpic_get_highest_irrpin v.pic1 ≠ -1
  · rw [if_pos h, if_pos h]
    have q1 : ∀ u : Vpic, u.pic1.intr_raised = true → ∀ b,
        vpic_set_pinstate_calls (n + 2) u 2 b =
          some (notify_master (pinstate_update u 2 b), 1) := by
      intro u hu b
      simp only [vpic_set_pinstate_calls]
      exact vpic_notify_intr_calls_quiet n _
        (not_guard_of_raised _ (by rw [pinstate_update_two_pic1]; exact hu))
    simp only [vpic_notify_intr_calls, if_pos h]
    rw [q1 _ rfl true]
    simp only
    rw [q1 _ (by rw [notify_master_pic1, pinstate_update_two_pic1]) false]
    rfl
  · rw [if_neg h, if_neg h]
    exact vpic_notify_intr_calls_quiet (n + 2) v h

/-- A pin-2 update inside the cascade pulse, where the slave has `intr_raised`
latched, is followed by a notification that runs the master half only: depth 2
suffices and the latch is kept. -/
theorem vpic_set_pinstate_fuel_latched (n : Nat) (u : Vpic) (b : Bool)
    (hu : u.pic1.intr_raised = true) :
    vpic_set_pinstate_fuel (n + 2) u 2 b = some (notify_master (pinstate_update u 2 b)) ∧
    (notify_master (pinstate_update u 2 b)).pic1.intr_raised = true := by
  constructor
  · simp only [vpic_set_pinstate_fuel]
    exact vpic_notify_intr_fuel_quiet n _
      (not_guard_of_raised _ (by rw [pinstate_update_two_pic1]; exact hu))
  · rw [notify_master_pic1, pinstate_update_two_pic1]
    exact hu

/-- Right after the pin driver `vpic_set_pinstate` has driven a
level-triggered pin its IRR bit is 1 if the new assertion count is greater
than 0, and 0 if the count has just dropped to 0 by a deassertion, whatever
the IRR bit was before. -/
theorem vpic_set_pinstate_level (v : Vpic) (pin : Nat) (b : Bool)
    (hl : (v.pic (pic_index (pin >>> 3))).elc.testBit (pin % 8) = true) :
    let s := vpic_set_pinstate v pin b
    (0 < (s.pic (pic_index (pin >>> 3))).acnt (slot pin) →
      (s.pic (pic_index (pin >>> 3))).request.testBit (pin % 8) = true) ∧
    ((s.pic (pic_index (pin >>> 3))).acnt (slot pin) = 0 → b = false →
      (s.pic (pic_index (pin >>> 3))).request.testBit (pin % 8) = false) := by
  obtain ⟨f1, -, -⟩ := vpic_set_pinstate_frame v pin b
  have hcnt : ((vpic_set_pinstate v pin b).pic (pic_index (pin >>> 3))).acnt (slot pin) =
      if b then (v.pic (pic_index (pin >>> 3))).acnt (slot pin) + 1
      else (v.pic (pic_index (pin >>> 3))).acnt (slot pin) - 1 := by
    rw [f1]; simp
  have hupd := pinstate_update_pic_self v pin b
  have hk := vpic_notify_intr_level_keeps (pinstate_update v pin b) (pic_index (pin >>> 3))
    (pin % 8) (Nat.mod_lt _ (by decide)) (by rw [hupd]; exact hl)
    (((vpic_set_pinstate v pin b).pic (pic_index (pin >>> 3))).acnt (slot pin))
    (by rw [hupd, slot_mod, hcnt]; simp)
  have hreq := pinstate_request_level (v.pic (pic_index (pin >>> 3))) pin b
    (((vpic_set_pinstate v pin b).pic (pic_index (pin >>> 3))).acnt (slot pin)) hcnt hl
  rw [hupd, ← vpic_set_pinstate_eq] at hk
  exact ⟨fun hp => hk.1 hp (hreq.1 hp), fun h0 hb => hk.2 h0 (hreq.2 h0 hb)⟩

theorem irr_tracks_of_same (p q : Pic) (i : Nat) (h1 : q.acnt = p.acnt)
    (h2 : q.request.testBit i = p.request.testBit i) (ht : irr_tracks p i) :
    irr_tracks q i := by
  unfold irr_tracks at ht ⊢
  rw [h1, h2]; exact ht

/-- On a level-triggered pin whose IRR bit says whether the count is positive,
the pin driver leaves an IRR bit that says whether the new count is
positive. -/
theorem pinstate_request_tracks (pic : Pic) (pin : Nat) (b : Bool)
    (hl : pic.elc.testBit (pin % 8) = true)
    (ht : pic.request.testBit (pin % 8) = true ↔ 0 < pic.acnt (slot pin)) :
    (pinstate_request pic pin b).testBit (pin % 8) = true ↔
      0 < (if b then pic.acnt (slot pin) + 1 else pic.acnt (slot pin) - 1) := by
  have hi : pin % 8 < 8 := Nat.mod_lt _ (by decide)
  rcases pinstate_request_cases pic pin b _ rfl with ⟨hc, h⟩ | ⟨-, h1, h0, -, h⟩ | ⟨h1, h2, h3, h⟩
  · rw [h, testBit_u8_or_bit _ _ _ hi]
    have hp : 0 < (if b then pic.acnt (slot pin) + 1 else pic.acnt (slot pin) - 1) := by
      rcases hc with ⟨-, h1⟩ | ⟨h1, -⟩ <;> omega
    simp [hp]
  · rw [h, testBit_u8_and_not_bit _ _ _ hi, h0]
    simp
  · rw [h]
    have hnp : ¬ 0 < (if b then pic.acnt (slot pin) + 1 else pic.acnt (slot pin) - 1) :=
      fun hp => h2 ⟨hp, hl⟩
    have hold : ¬ 0 < pic.acnt (slot pin) := by
      intro hp
      cases b with
      | true => simp only [if_true] at hnp; omega
      | false =>
        simp only [Bool.false_eq_true, if_false] at hnp h3
        exact h3 ⟨by omega, by omega, hl⟩
    constructor
    · intro hr; exact absurd (ht.1 hr) hold
    · intro hp; exact absurd hp hnp

/-- The cascade pulse keeps the rule on master pin 2 if that pin is
level-triggered. -/
theorem cascade_request_tracks (pic : Pic) (hl : pic.elc.testBit 2 = true)
    (ht : pic.request.testBit 2 = true ↔ 0 < pic.acnt (slot 2)) :
    (cascade_request pic).testBit 2 = true ↔ 0 < pic.acnt (slot 2) := by
  unfold cascade_request
  have h1 := pinstate_request_tracks pic 2 true hl ht
  have h2 := pinstate_request_tracks
    { pic with
      acnt := Function.update pic.acnt (slot 2) (pic.acnt (slot 2) + 1),
      request := pinstate_request pic 2 true } 2 false hl
    (by simpa using h1)
  simpa using h2

/-- The notification keeps the rule on every level-triggered pin. -/
theorem vpic_notify_intr_tracks (v : Vpic) (c : Chip) (i : Nat) (hi : i < 8)
    (hl : (v.pic c).elc.testBit i = true) (ht : irr_tracks (v.pic c) i) :
    irr_tracks ((vpic_notify_intr v).pic c) i := by
  unfold irr_tracks at ht ⊢
  cases c with
  | slave =>
    obtain ⟨ir, h⟩ := vpic_notify_intr_pic1 v
    show (vpic_notify_intr v).pic1.request.testBit i = true ↔
      0 < (vpic_notify_intr v).pic1.acnt (slot i)
    rw [h]; exact ht
  | master =>
    obtain ⟨ir, h⟩ := vpic_notify_intr_pic0 v
    show (vpic_notify_intr v).pic0.request.testBit i = true ↔
      0 < (vpic_notify_intr v).pic0.acnt (slot i)
    rw [h]; simp only
    split
    · by_cases h2 : i = 2
      · subst h2
        exact cascade_request_tracks _ hl ht
      · rw [cascade_request_other _ i hi h2]; exact ht
    · exact ht

theorem slot_ne_of_ne (i pin : Nat) (hi : i < 8) (hne : i ≠ pin % 8) : slot i ≠ slot pin := by
  intro h
  have := congrArg Fin.val h
  simp only [slot] at this
  rw [Nat.mod_eq_of_lt hi] at this
  exact hne this

/-- The counter and IRR update of the pin driver keeps ELCR and, on every
level-triggered pin of either chip, the rule that the IRR bit says whether the
count is positive. -/
theorem pinstate_update_tracks (v : Vpic) (pin : Nat) (b : Bool) (c : Chip) (i : Nat)
    (hi : i < 8) (hl : (v.pic c).elc.testBit i = true) (ht : irr_tracks (v.pic c) i) :
    ((pinstate_update v pin b).pic c).elc = (v.pic c).elc ∧
    irr_tracks ((pinstate_update v pin b).pic c) i := by
  by_cases hc : c = pic_index (pin >>> 3)
  · subst hc
    rw [pinstate_update_pic_self]
    refine ⟨rfl, ?_⟩
    unfold irr_tracks at ht ⊢
    simp only
    by_cases hp : i = pin % 8
    · subst hp
      rw [slot_mod] at ht ⊢
      rw [Function.update_same]
      exact pinstate_request_tracks _ pin b hl ht
    · rw [pinstate_request_other _ pin b i hi hp,
        Function.update_noteq (slot_ne_of_ne i pin hi hp)]
      exact ht
  · rw [pinstate_update_eq, pic_setPic_ne _ _ _ _ hc]
    exact ⟨rfl, ht⟩

/-- Function `vpic_set_pinstate`, on any pin, keeps ELCR and the rule on every
level-triggered pin of either chip. -/
theorem vpic_set_pinstate_tracks (v : Vpic) (pin : Nat) (b : Bool) (c : Chip) (i : Nat)
    (hi : i < 8) (hl : (v.pic c).elc.testBit i = true) (ht : irr_tracks (v.pic c) i) :
    ((vpic_set_pinstate v pin b).pic c).elc = (v.pic c).elc ∧
    irr_tracks ((vpic_set_pinstate v pin b).pic c) i := by
  rw [vpic_set_pinstate_eq]
  obtain ⟨he, ht1⟩ := pinstate_update_tracks v pin b c i hi hl ht
  obtain ⟨-, he2, -⟩ := vpic_notify_intr_frame (pinstate_update v pin b) c
  exact ⟨he2.trans he, vpic_notify_intr_tracks _ c i hi (by rw [he]; exact hl) ht1⟩

theorem vpic_set_irqstate_tracks (v : Vpic) (irq : Int) (st : irqstate) (c : Chip) (i : Nat)
    (hi : i < 8) (hl : (v.pic c).elc.testBit i = true) (ht : irr_tracks (v.pic c) i) :
    irr_tracks ((vpic_set_irqstate v irq st).1.pic c) i := by
  unfold vpic_set_irqstate
  split
  · exact ht
  · simp only
    split
    · exact ht
    · cases st with
      | IRQSTATE_ASSERT => exact (vpic_set_pinstate_tracks v _ true c i hi hl ht).2
      | IRQSTATE_DEASSERT => exact (vpic_set_pinstate_tracks v _ false c i hi hl ht).2
      | IRQSTATE_PULSE =>
        obtain ⟨he, ht1⟩ := vpic_set_pinstate_tracks v irq.toNat true c i hi hl ht
        exact (vpic_set_pinstate_tracks _ irq.toNat false c i hi (by rw [he]; exact hl) ht1).2

/-- The acceptance of a pin keeps ELCR and the counters, and keeps the IRR bit
of every level-triggered pin, the accepted one included. -/
theorem vpic_pin_accepted_tracks (p : Pic) (pin : Nat) (i : Nat) (hi : i < 8)
    (hl : p.elc.testBit i = true) (ht : irr_tracks p i) :
    (vpic_pin_accepted p pin).elc = p.elc ∧ irr_tracks (vpic_pin_accepted p pin) i := by
  have hreq : (vpic_pin_accepted p pin).request.testBit i = p.request.testBit i := by
    unfold vpic_pin_accepted
    simp only
    by_cases h0 : (p.elc &&& bit pin) = 0
    · have hne : i ≠ pin := by
        rintro rfl
        rw [and_bit_eq_zero] at h0
        rw [h0] at hl; cases hl
      have : (u8 (p.request &&& not32 (bit pin))).testBit i = p.request.testBit i := by
        rw [testBit_u8_and_not_bit _ _ _ hi]; simp [hne]
      simp only [if_pos h0]
      split_ifs <;> exact this
    · simp only [if_neg h0]
      split_ifs <;> rfl
  obtain ⟨r, s, l, h⟩ := vpic_pin_accepted_frame p pin
  have he : (vpic_pin_accepted p pin).elc = p.elc := by rw [h]
  have ha : (vpic_pin_accepted p pin).acnt = p.acnt := by rw [h]
  exact ⟨he, irr_tracks_of_same p _ i ha hreq ht⟩

theorem vpic_read_tracks (v : Vpic) (d : Chip) (port eax : Nat) (c : Chip) (i : Nat)
    (hi : i < 8) (hl : (v.pic c).elc.testBit i = true) (ht : irr_tracks (v.pic c) i) :
    irr_tracks ((vpic_read v d port eax).1.pic c) i := by
  unfold vpic_read
  simp only
  split
  · split
    · by_cases hc : c = d
      · subst hc
        rw [pic_setPic]
        exact (vpic_pin_accepted_tracks { v.pic c with poll := false } _ i hi hl ht).2
      · rw [pic_setPic_ne _ _ _ _ hc]; exact ht
    · by_cases hc : c = d
      · subst hc
        rw [pic_setPic]; exact ht
      · rw [pic_setPic_ne _ _ _ _ hc]; exact ht
  · split
    · exact ht
    · split <;> exact ht

/-- A port write that makes no ICW1 on the chip keeps its ELCR, its counters
and its IRR up to the call of `vpic_notify_intr`. -/
theorem vpic_write_dispatch_keeps (v : Vpic) (d : Chip) (port val : Nat) (c : Chip)
    (h : ¬ (c = d ∧ (port &&& ICU_IMR_OFFSET) = 0 ∧ (val &&& bit 4) ≠ 0)) :
    ((vpic_write_dispatch v d port val).1.pic c).elc = (v.pic c).elc ∧
    ((vpic_write_dispatch v d port val).1.pic c).acnt = (v.pic c).acnt ∧
    ((vpic_write_dispatch v d port val).1.pic c).request = (v.pic c).request := by
  by_cases hc : c = d
  · subst hc
    unfold vpic_write_dispatch
    simp only
    by_cases hport : (port &&& ICU_IMR_OFFSET) ≠ 0
    · rw [if_pos hport]
      split
      · rw [pic_setPic]; exact ⟨rfl, rfl, rfl⟩
      · split
        · rw [pic_setPic]; exact ⟨rfl, rfl, rfl⟩
        · split
          · rw [pic_setPic]
            obtain ⟨a, s, n, r, h4, -⟩ := vpic_icw4_frame c (v.pic c) val
            rw [h4]; exact ⟨rfl, rfl, rfl⟩
          · rw [vpic_ocw1_pic]; exact ⟨rfl, rfl, rfl⟩
    · rw [if_neg hport]
      have h4 : ¬ (val &&& bit 4) ≠ 0 := fun h4 => h ⟨rfl, not_not.mp hport, h4⟩
      simp only [if_neg h4]
      split
      · split
        · rw [pic_setPic]
          obtain ⟨s, r, pl, h3⟩ := vpic_ocw3_frame (v.pic c) val
          rw [h3]; exact ⟨rfl, rfl, rfl⟩
        · obtain ⟨rot, s, l, h2⟩ := vpic_ocw2_frame v c val
          rw [h2]; exact ⟨rfl, rfl, rfl⟩
      · exact ⟨rfl, rfl, rfl⟩
  · rw [vpic_write_dispatch_pic_ne v d port val c hc]
    exact ⟨rfl, rfl, rfl⟩

theorem vpic_write_tracks (v : Vpic) (d : Chip) (port eax : Nat) (c : Chip) (i : Nat)
    (h : ¬ (c = d ∧ (port &&& ICU_IMR_OFFSET) = 0 ∧ (u8 eax &&& bit 4) ≠ 0))
    (hi : i < 8) (hl : (v.pic c).elc.testBit i = true) (ht : irr_tracks (v.pic c) i) :
    irr_tracks ((vpic_write v d port eax).1.pic c) i := by
  obtain ⟨he, ha, hr⟩ := vpic_write_dispatch_keeps v d port (u8 eax) c h
  have ht1 : irr_tracks ((vpic_write_dispatch v d port (u8 eax)).1.pic c) i :=
    irr_tracks_of_same _ _ i ha (by rw [hr]) ht
  unfold vpic_write
  simp only
  split
  · exact vpic_notify_intr_tracks _ c i hi (by rw [he]; exact hl) ht1
  · exact ht1

theorem vpic_handler_tracks (d : Chip) (v : Vpic) (b : Bool) (port bytes eax : Nat)
    (c : Chip) (i : Nat)
    (h : ¬ (c = d ∧ b = false ∧ bytes = 1 ∧ (port &&& ICU_IMR_OFFSET) = 0 ∧
      (u8 eax &&& bit 4) ≠ 0))
    (hi : i < 8) (hl : (v.pic c).elc.testBit i = true) (ht : irr_tracks (v.pic c) i) :
    irr_tracks ((vpic_handler d v b port bytes eax).1.pic c) i := by
  unfold vpic_handler
  split
  · exact ht
  · rename_i hb
    split
    · exact vpic_read_tracks v d port eax c i hi hl ht
    · rename_i hin
      exact vpic_write_tracks v d port eax c i
        (fun h1 => h ⟨h1.1, by simpa using hin, not_not.mp hb, h1.2⟩) hi hl ht

theorem vpic_intr_accepted_tracks (v : Vpic) (vector : Int) (c : Chip) (i : Nat)
    (hi : i < 8) (hl : (v.pic c).elc.testBit i = true) (ht : irr_tracks (v.pic c) i) :
    irr_tracks ((vpic_intr_accepted v vector).pic c) i := by
  unfold vpic_intr_accepted
  simp only
  split
  · cases c
    · obtain ⟨he, h1⟩ := vpic_pin_accepted_tracks v.pic0 2 i hi hl ht
      exact vpic_notify_intr_tracks _ .master i hi (by show (vpic_pin_accepted v.pic0 2).elc.testBit i = true; rw [he]; exact hl) h1
    · obtain ⟨he, h1⟩ := vpic_pin_accepted_tracks v.pic1 (and7 vector) i hi hl ht
      exact vpic_notify_intr_tracks _ .slave i hi (by show (vpic_pin_accepted v.pic1 (and7 vector)).elc.testBit i = true; rw [he]; exact hl) h1
  · cases c
    · obtain ⟨he, h1⟩ := vpic_pin_accepted_tracks v.pic0 (and7 vector) i hi hl ht
      exact vpic_notify_intr_tracks _ .master i hi (by show (vpic_pin_accepted v.pic0 (and7 vector)).elc.testBit i = true; rw [he]; exact hl) h1
    · exact vpic_notify_intr_tracks _ .slave i hi hl ht

/-- Every public operation that makes no ICW1 on a chip keeps, on every
level-triggered pin of the chip, the rule that the IRR bit is 1 exactly when
the assertion count is greater than 0. -/
theorem step_tracks (v : Vpic) (op : Op) (c : Chip) (i : Nat) (hi : i < 8)
    (hn : ¬ icw1_op c op)
    (hl : (v.pic c).elc.testBit i = true) (ht : irr_tracks (v.pic c) i) :
    irr_tracks ((step v op).pic c) i := by
  cases op with
  | master_io b port bytes eax => exact vpic_handler_tracks .master v b port bytes eax c i hn hi hl ht
  | slave_io b port bytes eax => exact vpic_handler_tracks .slave v b port bytes eax c i hn hi hl ht
  | elc_io b port bytes eax =>
    obtain ⟨e, h⟩ := vpic_elc_handler_frame v b port bytes eax c
    exact irr_tracks_of_same _ _ i (by show ((vpic_elc_handler v b port bytes eax).1.pic c).acnt = _; rw [h]) (by show ((vpic_elc_handler v b port bytes eax).1.pic c).request.testBit i = _; rw [h]) ht
  | set_irq_trigger irq t =>
    obtain ⟨e, h⟩ := vpic_set_irq_trigger_frame v irq t c
    exact irr_tracks_of_same _ _ i (by show ((vpic_set_irq_trigger v irq t).1.pic c).acnt = _; rw [h]) (by show ((vpic_set_irq_trigger v irq t).1.pic c).request.testBit i = _; rw [h]) ht
  | assert_irq irq => exact vpic_set_irqstate_tracks v irq _ c i hi hl ht
  | deassert_irq irq => exact vpic_set_irqstate_tracks v irq _ c i hi hl ht
  | pulse_irq irq => exact vpic_set_irqstate_tracks v irq _ c i hi hl ht
  | pending_intr =>
    show irr_tracks ((vpic_pending_intr v).1.pic c) i
    rw [vpic_pending_intr_fst]; exact ht
  | intr_accepted vector => exact vpic_intr_accepted_tracks v vector c i hi hl ht

/-- The rule is kept along a sequence of public operations none of which makes
an ICW1 on the chip, if the pin is level-triggered before each of them. -/
theorem run_tracks (c : Chip) (i : Nat) (hi : i < 8) (ops : List Op) :
    ∀ v : Vpic, irr_tracks (v.pic c) i →
      (∀ n, n < ops.length → ((run v (ops.take n)).pic c).elc.testBit i = true) →
      (∀ op ∈ ops, ¬ icw1_op c op) →
      irr_tracks ((run v ops).pic c) i := by
  induction ops with
  | nil => intro v ht _ _; exact ht
  | cons op ops ih =>
    intro v ht hl hn
    have h0 : (v.pic c).elc.testBit i = true := hl 0 (by simp)
    have h1 := step_tracks v op c i hi (hn op (List.mem_cons_self _ _)) h0 ht
    show irr_tracks ((run (step v op) ops).pic c) i
    refine ih (step v op) h1 (fun n hlt => ?_) (fun o ho => hn o (List.mem_cons_of_mem _ ho))
    exact hl (n + 1) (by simpa using hlt)

/-! ## The claims -/

/-- Claim C1 (counterexample): on a fresh controller the three writes of
scenario 1 (`0x11` to port `0x20`, then `0x20` and `0x01` to port `0x21`) leave
the master not ready with `icw_num = 4`; and a complete initialisation of the
master (with ICW3) in a state where the slave has an eligible pin and
`intr_raised` clear leaves the master's `request` at 4, not 0. -/
theorem c1_counterexample :
    (let s := run (vpic_init .VPIC_WIRE_INTR)
      [.master_io false 0x20 1 0x11, .master_io false 0x21 1 0x20, .master_io false 0x21 1 0x01]
     s.pic0.ready = false ∧ s.pic0.icw_num = 4 ∧
      ¬ (s.pic0.ready = true ∧ s.pic0.icw_num = 0 ∧ s.pic0.request = 0 ∧
          s.pic0.mask = 0 ∧ s.pic0.lowprio = 7)) ∧
    (let s := run ex_slave_polled
      [.master_io false 0x20 1 0x11, .master_io false 0x21 1 0x20, .master_io false 0x21 1 0x04,
       .master_io false 0x21 1 0x01]
     s.pic0.ready = true ∧ s.pic0.request = 4) := by
  decide

/-- Claim C1 (as amended): from every controller state and for either chip, a
valid ICW1 on the command port followed by two data-port writes leaves the chip
not ready with `icw_num = 4`, `request = 0`, `mask = 0`, `lowprio = 7` (the
second data byte is taken as ICW3); a further data-port write of an ICW4 with
bit 0 set leaves it ready with `icw_num = 0`, `mask = 0`, `lowprio = 7` and no
request bit other than bit 2; `request = 0` when the chip is the slave, or
when the slave's `intr_raised` is set or the slave has no eligible pin. -/
theorem c1_init_sequence (v : Vpic) (c : Chip) (x1 x2 x3 x4 : Nat)
    (h4 : x1.testBit 4 = true) (h0 : x1.testBit 0 = true) (h1 : x1.testBit 1 = false)
    (h : x4.testBit 0 = true) :
    let s1 := (vpic_write v c (cmd_port c) x1).1
    let s2 := (vpic_write s1 c (data_port c) x2).1
    let s3 := (vpic_write s2 c (data_port c) x3).1
    let s4 := (vpic_write s3 c (data_port c) x4).1
    ((s3.pic c).ready = false ∧ (s3.pic c).icw_num = 4 ∧ (s3.pic c).request = 0 ∧
      (s3.pic c).mask = 0 ∧ (s3.pic c).lowprio = 7) ∧
    ((s4.pic c).ready = true ∧ (s4.pic c).icw_num = 0 ∧
      (s4.pic c).mask = 0 ∧ (s4.pic c).lowprio = 7) ∧
    (∀ i, i ≠ 2 → (s4.pic c).request.testBit i = false) ∧
    ((c = .slave ∨ v.pic1.intr_raised = true ∨ vpic_get_highest_irrpin v.pic1 = -1) →
      (s4.pic c).request = 0) := by
  intro s1 s2 s3 s4
  have e1 : s1 = _ := congrArg Prod.fst (vpic_write_icw1_valid v c x1 h4 h0 h1)
  have e2 : s2 = _ := congrArg Prod.fst
    (vpic_write_icw2 s1 c x2 (by rw [e1]; simp) (by rw [e1]; simp))
  have e3 : s3 = _ := congrArg Prod.fst
    (vpic_write_icw3 s2 c x3 (by rw [e2]; simp) (by rw [e2, e1]; simp))
  have e4 : s4 = _ := congrArg Prod.fst
    (vpic_write_icw4 s3 c x4 (by rw [e3]; simp) h)
  have h3 : (s3.pic c).ready = false ∧ (s3.pic c).icw_num = 4 ∧ (s3.pic c).request = 0 ∧
      (s3.pic c).mask = 0 ∧ (s3.pic c).lowprio = 7 := by
    rw [e3, e2, e1]; simp
  obtain ⟨-, -, hreq3, hmask3, hlow3⟩ := h3
  refine ⟨by rw [e3, e2, e1]; simp, ?_, ?_, ?_⟩
  · obtain ⟨r, ir, hn⟩ := vpic_notify_intr_pic
      (s3.setPic c { s3.pic c with
        aeoi := (s3.pic c).aeoi || x4.testBit 1,
        sfn := (s3.pic c).sfn || (x4.testBit 4 && master_pic c),
        icw_num := 0, ready := true }) c
    rw [e4]
    simp only [hn, pic_setPic]
    exact ⟨trivial, trivial, hmask3, hlow3⟩
  · intro i hi
    rw [e4]
    cases c with
    | slave =>
      obtain ⟨ir, hn⟩ := vpic_notify_intr_pic1
        (s3.setPic .slave { s3.pic .slave with
          aeoi := (s3.pic .slave).aeoi || x4.testBit 1,
          sfn := (s3.pic .slave).sfn || (x4.testBit 4 && master_pic .slave),
          icw_num := 0, ready := true })
      show (vpic_notify_intr _).pic1.request.testBit i = false
      rw [hn]
      show (s3.pic .slave).request.testBit i = false
      rw [hreq3]; exact Nat.zero_testBit i
    | master =>
      obtain ⟨ir, hn⟩ := vpic_notify_intr_pic0
        (s3.setPic .master { s3.pic .master with
          aeoi := (s3.pic .master).aeoi || x4.testBit 1,
          sfn := (s3.pic .master).sfn || (x4.testBit 4 && master_pic .master),
          icw_num := 0, ready := true })
      show (vpic_notify_intr _).pic0.request.testBit i = false
      rw [hn]
      simp only
      split
      · cases hb : (cascade_request _).testBit i with
        | false => rfl
        | true =>
          have := cascade_request_other_le _ i hi hb
          have hz : (s3.pic .master).request.testBit i = true := this
          rw [hreq3, Nat.zero_testBit] at hz
          cases hz
      · show (s3.pic .master).request.testBit i = false
        rw [hreq3]; exact Nat.zero_testBit i
  · intro hc
    rw [e4]
    cases c with
    | slave =>
      obtain ⟨ir, hn⟩ := vpic_notify_intr_pic1
        (s3.setPic .slave { s3.pic .slave with
          aeoi := (s3.pic .slave).aeoi || x4.testBit 1,
          sfn := (s3.pic .slave).sfn || (x4.testBit 4 && master_pic .slave),
          icw_num := 0, ready := true })
      show (vpic_notify_intr _).pic1.request = 0
      rw [hn]
      exact hreq3
    | master =>
      have hp1 : s3.pic1 = v.pic1 := by rw [e3, e2, e1]; rfl
      obtain ⟨ir, hn⟩ := vpic_notify_intr_pic0
        (s3.setPic .master { s3.pic .master with
          aeoi := (s3.pic .master).aeoi || x4.testBit 1,
          sfn := (s3.pic .master).sfn || (x4.testBit 4 && master_pic .master),
          icw_num := 0, ready := true })
      show (vpic_notify_intr _).pic0.request = 0
      rw [hn]
      have hcond : ¬ ((s3.setPic .master { s3.pic .master with
          aeoi := (s3.pic .master).aeoi || x4.testBit 1,
          sfn := (s3.pic .master).sfn || (x4.testBit 4 && master_pic .master),
          icw_num := 0, ready := true }).pic1.intr_raised = false ∧
          vpic_get_highest_irrpin (s3.setPic .master { s3.pic .master with
          aeoi := (s3.pic .master).aeoi || x4.testBit 1,
          sfn := (s3.pic .master).sfn || (x4.testBit 4 && master_pic .master),
          icw_num := 0, ready := true }).pic1 ≠ -1) := by
        show ¬ (s3.pic1.intr_raised = false ∧ vpic_get_highest_irrpin s3.pic1 ≠ -1)
        rw [hp1]
        rintro ⟨ha, hb⟩
        rcases hc with hc | hc | hc
        · cases hc
        · rw [hc] at ha; cases ha
        · exact hb hc
      simp only [hcond, if_false]
      exact hreq3

/-- Claim C1 (as amended) on the master of a fresh controller with the bytes of
scenario 1 followed by an ICW4. -/
theorem c1_init_sequence_witness :
    (Nat.testBit 0x11 4 = true ∧ Nat.testBit 0x11 0 = true ∧ Nat.testBit 0x11 1 = false ∧
      Nat.testBit 0x01 0 = true) ∧
    (let v := vpic_init .VPIC_WIRE_INTR
     let s1 := (vpic_write v .master (cmd_port .master) 0x11).1
     let s2 := (vpic_write s1 .master (data_port .master) 0x20).1
     let s3 := (vpic_write s2 .master (data_port .master) 0x01).1
     let s4 := (vpic_write s3 .master (data_port .master) 0x01).1
     ((s3.pic .master).ready = false ∧ (s3.pic .master).icw_num = 4 ∧
       (s3.pic .master).request = 0 ∧ (s3.pic .master).mask = 0 ∧
       (s3.pic .master).lowprio = 7) ∧
     ((s4.pic .master).ready = true ∧ (s4.pic .master).icw_num = 0 ∧
       (s4.pic .master).mask = 0 ∧ (s4.pic .master).lowprio = 7) ∧
     (∀ i, i ≠ 2 → (s4.pic .master).request.testBit i = false) ∧
     ((Chip.master = .slave ∨ v.pic1.intr_raised = true ∨
         vpic_get_highest_irrpin v.pic1 = -1) →
       (s4.pic .master).request = 0)) :=
  ⟨by decide, c1_init_sequence (vpic_init .VPIC_WIRE_INTR) .master 0x11 0x20 0x01 0x01
    (by decide) (by decide) (by decide) (by decide)⟩

/-- Claim C2: from every controller state and for either chip, a valid ICW1 on
the command port followed by three data-port writes `x2`, `x3`, `x4` with bit 0
of `x4` set leaves the chip ready with `icw_num = 0`, `irq_base = x2 & 0xF8`,
`mask = 0` and `lowprio = 7`, whatever `x3` is; and the chip is not ready after
one, two or three of the four writes. -/
theorem c2_four_writes_ready (v : Vpic) (c : Chip) (x1 x2 x3 x4 : Nat)
    (h4 : x1.testBit 4 = true) (h0 : x1.testBit 0 = true) (h1 : x1.testBit 1 = false)
    (h : x4.testBit 0 = true) :
    let s1 := (vpic_write v c (cmd_port c) x1).1
    let s2 := (vpic_write s1 c (data_port c) x2).1
    let s3 := (vpic_write s2 c (data_port c) x3).1
    let s4 := (vpic_write s3 c (data_port c) x4).1
    ((s4.pic c).ready = true ∧ (s4.pic c).icw_num = 0 ∧
      (s4.pic c).irq_base = ((x2 &&& 0xF8 : Nat) : Int) ∧
      (s4.pic c).mask = 0 ∧ (s4.pic c).lowprio = 7) ∧
    (s1.pic c).ready = false ∧ (s2.pic c).ready = false ∧ (s3.pic c).ready = false := by
  intro s1 s2 s3 s4
  have e1 : s1 = _ := congrArg Prod.fst (vpic_write_icw1_valid v c x1 h4 h0 h1)
  have e2 : s2 = _ := congrArg Prod.fst
    (vpic_write_icw2 s1 c x2 (by rw [e1]; simp) (by rw [e1]; simp))
  have e3 : s3 = _ := congrArg Prod.fst
    (vpic_write_icw3 s2 c x3 (by rw [e2]; simp) (by rw [e2, e1]; simp))
  have e4 : s4 = _ := congrArg Prod.fst
    (vpic_write_icw4 s3 c x4 (by rw [e3]; simp) h)
  obtain ⟨r, ir, hn⟩ := vpic_notify_intr_pic
    (s3.setPic c { s3.pic c with
      aeoi := (s3.pic c).aeoi || x4.testBit 1,
      sfn := (s3.pic c).sfn || (x4.testBit 4 && master_pic c),
      icw_num := 0, ready := true }) c
  refine ⟨?_, ?_, ?_, ?_⟩
  · rw [e4]
    simp only [hn]
    rw [e3, e2, e1]
    simp [u8_and_f8]
  · rw [e1]; simp
  · rw [e2, e1]; simp
  · rw [e3, e2, e1]; simp

/-- Claim C2 on the slave of a fresh controller with ICW2 `0x28`. -/
theorem c2_four_writes_ready_witness :
    (Nat.testBit 0x11 4 = true ∧ Nat.testBit 0x11 0 = true ∧ Nat.testBit 0x11 1 = false ∧
      Nat.testBit 0x01 0 = true) ∧
    let s1 := (vpic_write (vpic_init .VPIC_WIRE_INTR) .slave (cmd_port .slave) 0x11).1
    let s2 := (vpic_write s1 .slave (data_port .slave) 0x28).1
    let s3 := (vpic_write s2 .slave (data_port .slave) 0x02).1
    let s4 := (vpic_write s3 .slave (data_port .slave) 0x01).1
    ((s4.pic .slave).ready = true ∧ (s4.pic .slave).icw_num = 0 ∧
      (s4.pic .slave).irq_base = ((0x28 &&& 0xF8 : Nat) : Int) ∧
      (s4.pic .slave).mask = 0 ∧ (s4.pic .slave).lowprio = 7) ∧
    (s1.pic .slave).ready = false ∧ (s2.pic .slave).ready = false ∧
      (s3.pic .slave).ready = false :=
  ⟨by decide, c2_four_writes_ready (vpic_init .VPIC_WIRE_INTR) .slave 0x11 0x28 0x02 0x01
    (by decide) (by decide) (by decide) (by decide)⟩

/-- Claim C3: `vpic_pending_intr` returns `master.irq_base + p` when the
master's highest IRR pin is a pin `p` other than 2, `slave.irq_base + q` when
the master's highest IRR pin is 2 and the slave's is a pin `q`, and `-1` when
the master has no eligible pin; the controller is returned unchanged. -/
theorem c3_pending_intr (v : Vpic) :
    (vpic_pending_intr v).1 = v ∧
    (∀ p : Int, vpic_get_highest_irrpin v.pic0 = p → p ≠ -1 → p ≠ 2 →
      (vpic_pending_intr v).2 = v.pic0.irq_base + p) ∧
    (∀ q : Int, vpic_get_highest_irrpin v.pic0 = 2 →
      vpic_get_highest_irrpin v.pic1 = q → q ≠ -1 →
      (vpic_pending_intr v).2 = v.pic1.irq_base + q) ∧
    (vpic_get_highest_irrpin v.pic0 = -1 → (vpic_pending_intr v).2 = -1) := by
  refine ⟨?_, ?_, ?_, ?_⟩
  · unfold vpic_pending_intr
    simp only
    split <;> split <;> rfl
  · intro p hp h1 h2
    subst hp
    simp [vpic_pending_intr, h1, h2]
  · intro q h2 hq h1
    subst hq
    simp [vpic_pending_intr, h2, h1]
  · intro h
    simp [vpic_pending_intr, h]

/-- Claim C3 at scenario 3: the pending vector is the slave's base plus 1. -/
theorem c3_pending_intr_witness :
    vpic_get_highest_irrpin ex_slave_cascade.pic0 = 2 ∧
    vpic_get_highest_irrpin ex_slave_cascade.pic1 = 1 ∧
    (vpic_pending_intr ex_slave_cascade).2 = ex_slave_cascade.pic1.irq_base + 1 ∧
    (vpic_pending_intr ex_slave_cascade).1 = ex_slave_cascade :=
  ⟨by decide, by decide,
    (c3_pending_intr ex_slave_cascade).2.2.1 1 (by decide) (by decide) (by decide),
    (c3_pending_intr ex_slave_cascade).1⟩

/-- Claim C4: for every chip of every reachable controller state,
`vpic_get_highest_irrpin` returns pin `p` exactly when `p` is the first pin in
the order `(lowprio+1)&7, (lowprio+2)&7, ...` (8 steps) whose IRR bit is set
and IMR bit is clear and no pin at or before `p` in that order has its
effective-service bit set, and returns `-1` exactly when there is no such pin;
the effective-service mask is 0 under `smm`, otherwise the ISR, with bit 2
cleared on the master under `sfn`. -/
theorem c4_highest_irrpin_spec (v : Vpic) (hv : Reachable v) (c : Chip) :
    (∀ p : Nat, vpic_get_highest_irrpin (v.pic c) = (p : Int) ↔ is_highest_irr c (v.pic c) p) ∧
    (vpic_get_highest_irrpin (v.pic c) = -1 ↔ ¬ ∃ p, is_highest_irr c (v.pic c) p) := by
  have hs : c = .slave → (v.pic c).sfn = false := by
    intro hc; subst hc; exact (reachable_sfn_base v hv).1
  refine ⟨fun p => highest_irrpin_iff c _ hs p, ?_⟩
  constructor
  · rintro h ⟨p, hp⟩
    rw [← highest_irrpin_iff c _ hs p, h] at hp
    omega
  · intro h
    rcases vpic_get_highest_irrpin_range (v.pic c) with h1 | ⟨p, _, hp⟩
    · exact h1
    · exact absurd ⟨p, (highest_irrpin_iff c _ hs p).mp hp⟩ h

/-- Claim C4 at scenario 1: pin 0 is the master's highest IRR pin. -/
theorem c4_highest_irrpin_spec_witness :
    Reachable ex_basic_irq ∧ is_highest_irr .master (ex_basic_irq.pic .master) 0 :=
  ⟨reachable_run _ _,
    ((c4_highest_irrpin_spec ex_basic_irq (reachable_run _ _) .master).1 0).mp (by decide)⟩

/-- Claim C5: when neither chip is in AEOI mode, `vpic_intr_accepted` of a
vector whose high bits equal the slave's `irq_base` sets the slave's ISR bit
`vector & 7` and the master's ISR bit 2 and leaves all other ISR bits of both
chips unchanged; for any other vector it sets the master's ISR bit
`vector & 7`, leaves the master's other ISR bits unchanged and leaves the
slave's ISR unchanged. -/
theorem c5_intr_accepted_isr (v : Vpic) (vector : Int)
    (h0 : v.pic0.aeoi = false) (h1 : v.pic1.aeoi = false) :
    let s := vpic_intr_accepted v vector
    if vector - vector % 8 = v.pic1.irq_base then
      ∀ i, i < 8 →
        s.pic1.service.testBit i = (v.pic1.service.testBit i || decide (i = and7 vector)) ∧
        s.pic0.service.testBit i = (v.pic0.service.testBit i || decide (i = 2))
    else
      (∀ i, i < 8 →
        s.pic0.service.testBit i = (v.pic0.service.testBit i || decide (i = and7 vector))) ∧
      s.pic1.service = v.pic1.service := by
  intro s
  have e0 : s.pic0.service = _ := vpic_notify_intr_service _ .master
  have e1 : s.pic1.service = _ := vpic_notify_intr_service _ .slave
  split
  · rename_i hb
    intro i hi
    rw [e0, e1]
    simp only [hb, if_true, Vpic.pic]
    rw [vpic_pin_accepted_service _ _ h1, vpic_pin_accepted_service _ _ h0]
    exact ⟨testBit_u8_or_bit _ _ _ hi, testBit_u8_or_bit _ _ _ hi⟩
  · rename_i hb
    rw [e0, e1]
    simp only [hb, if_false, Vpic.pic]
    refine ⟨fun i hi => ?_, trivial⟩
    rw [vpic_pin_accepted_service _ _ h0]
    exact testBit_u8_or_bit _ _ _ hi

/-- Claim C5 at scenario 3 with vector `0x29`. -/
theorem c5_intr_accepted_isr_witness :
    ex_slave_cascade.pic0.aeoi = false ∧ ex_slave_cascade.pic1.aeoi = false ∧
    (let s := vpic_intr_accepted ex_slave_cascade 0x29
     if (0x29 : Int) - 0x29 % 8 = ex_slave_cascade.pic1.irq_base then
       ∀ i, i < 8 →
         s.pic1.service.testBit i =
           (ex_slave_cascade.pic1.service.testBit i || decide (i = and7 0x29)) ∧
         s.pic0.service.testBit i = (ex_slave_cascade.pic0.service.testBit i || decide (i = 2))
     else
       (∀ i, i < 8 →
         s.pic0.service.testBit i =
           (ex_slave_cascade.pic0.service.testBit i || decide (i = and7 0x29))) ∧
       s.pic1.service = ex_slave_cascade.pic1.service) :=
  ⟨by decide, by decide, c5_intr_accepted_isr ex_slave_cascade 0x29 (by decide) (by decide)⟩

/-- Claim C6: for a chip that is neither in AEOI mode nor in special mask mode,
if `vpic_get_highest_irrpin` returns pin `p` (and not both `sfn` is set and
`p = 2`), then after `vpic_pin_accepted(pic, p)` the ISR bit `p` is set, the
IRR bit `p` is clear when the pin is edge-triggered, `intr_raised` is false and
`vpic_get_highest_irrpin` returns none. -/
theorem c6_accepted_blocks (pic : Pic) (p : Nat)
    (ha : pic.aeoi = false) (hm : pic.smm = 0)
    (hp : vpic_get_highest_irrpin pic = (p : Int))
    (h2 : ¬ (pic.sfn = true ∧ p = 2)) :
    let q := vpic_pin_accepted pic p
    q.service.testBit p = true ∧
    (pic.elc.testBit p = false → q.request.testBit p = false) ∧
    q.intr_raised = false ∧
    vpic_get_highest_irrpin q = -1 := by
  intro q
  have hq : q = _ := vpic_pin_accepted_noaeoi pic p ha
  unfold vpic_get_highest_irrpin at hp
  obtain ⟨k0, hk0, hpk, he0, hb0, hs0⟩ := (irr_loop_eq_pin pic _ 8 _ p (and7_lt _)).mp hp
  have hp8 : p < 8 := by rw [hpk]; exact Nat.mod_lt _ (by decide)
  have hsvc : q.service.testBit p = true := by
    rw [hq]; simp only
    rw [testBit_u8_or_bit _ _ _ hp8]; simp
  have hreq : ∀ i, i < 8 → q.request.testBit i = true → pic.request.testBit i = true := by
    intro i hi
    rw [hq]; simp only
    split
    · rw [testBit_u8_and_not_bit _ _ _ hi]
      intro h
      simp only [Bool.and_eq_true] at h
      exact h.1
    · exact id
  have hS : (irr_serviced q).testBit p = true := by
    unfold irr_serviced
    have hsmm : q.smm = 0 := by rw [hq]; exact hm
    have hsfn : q.sfn = pic.sfn := by rw [hq]
    simp only [hsmm, ne_eq, not_true_eq_false, if_false, hsfn]
    cases hf : pic.sfn with
    | false => simpa using hsvc
    | true =>
      have hne : p ≠ 2 := fun e => h2 ⟨hf, e⟩
      have : ¬ 2 = p := fun e => hne e.symm
      simp only [if_true, Nat.testBit_and, hsvc, testBit_not32, testBit_bit, Bool.true_and]
      have h32 : p < 32 := by omega
      simp [h32, this]
  refine ⟨hsvc, ?_, ?_, ?_⟩
  · intro hedge
    have : (pic.elc &&& bit p) = 0 := (and_bit_eq_zero _ _).mpr hedge
    rw [hq]; simp only [this, if_true]
    rw [testBit_u8_and_not_bit _ _ _ hp8]; simp
  · rw [hq]
  · rcases vpic_get_highest_irrpin_range q with h | ⟨p', _, h⟩
    · exact h
    · exfalso
      unfold vpic_get_highest_irrpin at h
      have hl : q.lowprio = pic.lowprio := by rw [hq]
      have hmask : q.mask = pic.mask := by rw [hq]
      rw [hl] at h
      obtain ⟨k, hk, hpk', he, hb, hs⟩ := (irr_loop_eq_pin q _ 8 _ p' (and7_lt _)).mp h
      have hlt : k < k0 := by
        by_contra hge
        have := hs k0 (by omega)
        rw [← hpk, hS] at this
        cases this
      have hp'8 : p' < 8 := by rw [hpk']; exact Nat.mod_lt _ (by decide)
      have := hb0 k hlt
      rw [← hpk'] at this
      exact this ⟨hreq p' hp'8 he.1, by rw [← hmask]; exact he.2⟩

/-- Claim C6 at the master of scenario 1 with pin 0. -/
theorem c6_accepted_blocks_witness :
    ex_basic_irq.pic0.aeoi = false ∧ ex_basic_irq.pic0.smm = 0 ∧
    vpic_get_highest_irrpin ex_basic_irq.pic0 = ((0 : Nat) : Int) ∧
    ¬ (ex_basic_irq.pic0.sfn = true ∧ 0 = 2) ∧
    (let q := vpic_pin_accepted ex_basic_irq.pic0 0
     q.service.testBit 0 = true ∧
     (ex_basic_irq.pic0.elc.testBit 0 = false → q.request.testBit 0 = false) ∧
     q.intr_raised = false ∧
     vpic_get_highest_irrpin q = -1) :=
  ⟨by decide, by decide, by decide, by decide,
    c6_accepted_blocks ex_basic_irq.pic0 0 (by decide) (by decide) (by decide) (by decide)⟩

/-- Claim C8: when the chip addressed by `irq` (0..15) is ready, the pin is
edge-triggered and its assertion count is 0, `vpic_assert_irq` followed by
`vpic_deassert_irq`, and likewise `vpic_pulse_irq`, return 0 and leave the
pin's IRR bit set and its assertion count at 0. -/
theorem c8_edge_latch (v : Vpic) (irq : Nat) (h : irq < 16)
    (hr : (v.pic (pic_index (irq >>> 3))).ready = true)
    (he : (v.pic (pic_index (irq >>> 3))).elc.testBit (irq % 8) = false)
    (hc : (v.pic (pic_index (irq >>> 3))).acnt (slot irq) = 0) :
    let a := vpic_assert_irq v (irq : Int)
    let d := vpic_deassert_irq a.1 (irq : Int)
    let p := vpic_pulse_irq v (irq : Int)
    (a.2 = 0 ∧ d.2 = 0 ∧
      (d.1.pic (pic_index (irq >>> 3))).request.testBit (irq % 8) = true ∧
      (d.1.pic (pic_index (irq >>> 3))).acnt (slot irq) = 0) ∧
    (p.2 = 0 ∧
      (p.1.pic (pic_index (irq >>> 3))).request.testBit (irq % 8) = true ∧
      (p.1.pic (pic_index (irq >>> 3))).acnt (slot irq) = 0) := by
  intro a d p
  have ea : a = (vpic_set_pinstate v irq true, 0) := vpic_set_irqstate_ready v irq _ h hr
  obtain ⟨fa1, fa2, fa3⟩ := vpic_set_pinstate_frame v irq true
  have ra := vpic_set_pinstate_edge v irq true he (Or.inr ⟨rfl, hc⟩)
  have hr' : ((vpic_set_pinstate v irq true).pic (pic_index (irq >>> 3))).ready = true := by
    rw [fa3]; exact hr
  have he' : ((vpic_set_pinstate v irq true).pic (pic_index (irq >>> 3))).elc.testBit
      (irq % 8) = false := by
    rw [fa2]; exact he
  obtain ⟨fd1, -, -⟩ := vpic_set_pinstate_frame (vpic_set_pinstate v irq true) irq false
  have rd := vpic_set_pinstate_edge (vpic_set_pinstate v irq true) irq false he' (Or.inl ra)
  have hcnt : ((vpic_set_pinstate (vpic_set_pinstate v irq true) irq false).pic
      (pic_index (irq >>> 3))).acnt (slot irq) = 0 := by
    rw [fd1, fa1]
    simp [hc]
  have ed : d = (vpic_set_pinstate (vpic_set_pinstate v irq true) irq false, 0) := by
    show vpic_set_irqstate a.1 (irq : Int) .IRQSTATE_DEASSERT = _
    rw [ea]
    exact vpic_set_irqstate_ready _ irq _ h hr'
  have ep : p = (vpic_set_pinstate (vpic_set_pinstate v irq true) irq false, 0) :=
    vpic_set_irqstate_ready v irq _ h hr
  rw [ea, ed, ep]
  exact ⟨⟨rfl, rfl, rd, hcnt⟩, rfl, rd, hcnt⟩

/-- Claim C8 for IRQ3 on the programmed master of scenario 1. -/
theorem c8_edge_latch_witness :
    (3 < 16 ∧ (ex_basic_irq.pic (pic_index (3 >>> 3))).ready = true ∧
      (ex_basic_irq.pic (pic_index (3 >>> 3))).elc.testBit (3 % 8) = false ∧
      (ex_basic_irq.pic (pic_index (3 >>> 3))).acnt (slot 3) = 0) ∧
    (let a := vpic_assert_irq ex_basic_irq ((3 : Nat) : Int)
     let d := vpic_deassert_irq a.1 ((3 : Nat) : Int)
     let p := vpic_pulse_irq ex_basic_irq ((3 : Nat) : Int)
     (a.2 = 0 ∧ d.2 = 0 ∧
       (d.1.pic (pic_index (3 >>> 3))).request.testBit (3 % 8) = true ∧
       (d.1.pic (pic_index (3 >>> 3))).acnt (slot 3) = 0) ∧
     (p.2 = 0 ∧
       (p.1.pic (pic_index (3 >>> 3))).request.testBit (3 % 8) = true ∧
       (p.1.pic (pic_index (3 >>> 3))).acnt (slot 3) = 0)) :=
  ⟨by decide, c8_edge_latch ex_basic_irq 3 (by decide) (by decide) (by decide) (by decide)⟩

/-- Claim C9: a command-port write of an OCW2 byte `x` (bits 3 and 4 clear) with
the EOI bit 5 set to a ready chip clears the ISR bit of the selected pin and
leaves every other ISR bit unchanged, where the selected pin is `x & 7` when SL
(bit 6) is set and otherwise the highest in-service pin: the first pin in the
order starting at `(lowprio+1)&7` whose ISR bit is set, skipping pins that are
also masked when `smm` is set, none (ISR unchanged) when there is no such pin;
`lowprio` becomes the selected pin when R (bit 7) is set and a pin was selected
and is unchanged otherwise. -/
theorem c9_ocw2_eoi (v : Vpic) (c : Chip) (x : Nat) (hr : (v.pic c).ready = true)
    (h3 : x.testBit 3 = false) (h4 : x.testBit 4 = false) (h5 : x.testBit 5 = true) :
    let s := (vpic_write v c (cmd_port c) x).1
    let sel : Int :=
      if x.testBit 6 = true then ((x &&& 0x7 : Nat) : Int)
      else vpic_get_highest_isrpin (v.pic c)
    (∀ i, i < 8 →
      (s.pic c).service.testBit i =
        ((v.pic c).service.testBit i && !decide ((i : Int) = sel))) ∧
    (s.pic c).lowprio =
      (if x.testBit 7 = true ∧ sel ≠ -1 then sel else (v.pic c).lowprio) ∧
    (∀ p : Nat, vpic_get_highest_isrpin (v.pic c) = (p : Int) ↔ is_highest_isr (v.pic c) p) ∧
    (vpic_get_highest_isrpin (v.pic c) = -1 ↔ ¬ ∃ p, is_highest_isr (v.pic c) p) := by
  intro s sel
  have e5 : (u8 x &&& OCW2_EOI) ≠ 0 := (u8_and_bit_ne_zero x 5 (by decide)).mpr h5
  have e6 : (u8 x &&& OCW2_SL) ≠ 0 ↔ x.testBit 6 = true := u8_and_bit_ne_zero x 6 (by decide)
  have e7 : (u8 x &&& OCW2_R) ≠ 0 ↔ x.testBit 7 = true := u8_and_bit_ne_zero x 7 (by decide)
  have hsel : sel = if (u8 x &&& OCW2_SL) ≠ 0 then ((u8 x &&& 0x7 : Nat) : Int)
      else vpic_get_highest_isrpin (v.pic c) := by
    show (if x.testBit 6 = true then _ else _) = _
    simp only [e6, u8_and_7]
  have hpic := vpic_ocw2_eoi_pic v c (u8 x) e5 sel hsel
  have hd := vpic_write_ocw2 v c x hr h3 h4
  have hs : s = vpic_notify_intr (vpic_ocw2 v c (u8 x)).1 := by
    show (vpic_write v c (cmd_port c) x).1 = _
    unfold vpic_write
    simp only [hd]
    have hready : ((vpic_ocw2 v c (u8 x)).1.pic c).ready = true := by rw [hpic]; exact hr
    simp only [hready, if_true]
  obtain ⟨r, ir, hn⟩ := vpic_notify_intr_pic (vpic_ocw2 v c (u8 x)).1 c
  rw [hpic] at hn
  have hrange : sel = -1 ∨ ∃ p : Nat, p < 8 ∧ sel = (p : Int) := by
    show (if x.testBit 6 = true then _ else _) = -1 ∨
      ∃ p : Nat, p < 8 ∧ (if x.testBit 6 = true then _ else _) = (p : Int)
    split
    · right; exact ⟨x &&& 0x7, and_7_lt x, rfl⟩
    · exact vpic_get_highest_isrpin_range _
  refine ⟨?_, ?_, highest_isrpin_iff _, highest_isrpin_none_iff _⟩
  · intro i hi
    rw [hs, hn]
    simp only
    rcases hrange with h | ⟨p, hp, h⟩
    · have : ¬ ((i : Int) = sel) := by omega
      simp [h, this]
    · have hne : sel ≠ -1 := by omega
      simp only [hne, ne_eq, not_false_eq_true, if_true]
      rw [h, Int.toNat_ofNat, testBit_u8_and_not_bit _ _ _ hi]
      simp
  · rw [hs, hn]
    simp only [e7]
    by_cases h7 : x.testBit 7 = true <;> by_cases h1 : sel = -1 <;> simp [h7, h1]

/-- Claim C9 for a non-specific EOI (`0x20`) with IRQ0 in service. -/
theorem c9_ocw2_eoi_witness :
    ((ex_in_service.pic .master).ready = true ∧ Nat.testBit 0x20 3 = false ∧
      Nat.testBit 0x20 4 = false ∧ Nat.testBit 0x20 5 = true) ∧
    (let s := (vpic_write ex_in_service .master (cmd_port .master) 0x20).1
     let sel : Int :=
       if Nat.testBit 0x20 6 = true then ((0x20 &&& 0x7 : Nat) : Int)
       else vpic_get_highest_isrpin (ex_in_service.pic .master)
     (∀ i, i < 8 →
       (s.pic .master).service.testBit i =
         ((ex_in_service.pic .master).service.testBit i && !decide ((i : Int) = sel))) ∧
     (s.pic .master).lowprio =
       (if Nat.testBit 0x20 7 = true ∧ sel ≠ -1 then sel
        else (ex_in_service.pic .master).lowprio) ∧
     (∀ p : Nat, vpic_get_highest_isrpin (ex_in_service.pic .master) = (p : Int) ↔
       is_highest_isr (ex_in_service.pic .master) p) ∧
     (vpic_get_highest_isrpin (ex_in_service.pic .master) = -1 ↔
       ¬ ∃ p, is_highest_isr (ex_in_service.pic .master) p)) :=
  ⟨by decide, c9_ocw2_eoi ex_in_service .master 0x20 (by decide) (by decide) (by decide)
    (by decide)⟩

/-- Claim C10 (counterexample): in a reachable state the pending query returns
`-1` although the master's highest-IRR query returns pin 2. -/
theorem c10_counterexample :
    Reachable ex_masked_cascade ∧
      (vpic_pending_intr ex_masked_cascade).2 = -1 ∧
      vpic_get_highest_irrpin ex_masked_cascade.pic0 = 2 ∧
      ¬ ((vpic_pending_intr ex_masked_cascade).2 = -1 ↔
          vpic_get_highest_irrpin ex_masked_cascade.pic0 = -1) :=
  ⟨reachable_run _ _, by decide, by decide, by decide⟩

/-- Claim C10 (as amended): in every reachable controller state
`vpic_pending_intr` returns `-1` exactly when the master's highest-IRR query
returns none, or returns the cascade pin 2 while the slave's highest-IRR query
returns none. -/
theorem c10_pending_none_iff (v : Vpic) (hv : Reachable v) :
    (vpic_pending_intr v).2 = -1 ↔
      (vpic_get_highest_irrpin v.pic0 = -1 ∨
        (vpic_get_highest_irrpin v.pic0 = 2 ∧ vpic_get_highest_irrpin v.pic1 = -1)) := by
  obtain ⟨-, hb0, hb1⟩ := reachable_sfn_base v hv
  unfold vpic_pending_intr
  simp only
  by_cases h2 : vpic_get_highest_irrpin v.pic0 = 2
  · rw [if_pos h2]
    simp only [h2]
    rcases vpic_get_highest_irrpin_range v.pic1 with h | ⟨q, _, h⟩
    · simp [h]
    · have hq : (q : Int) ≠ -1 := by omega
      rw [h]
      simp only [if_neg hq]
      constructor
      · intro hc; omega
      · rintro (hc | ⟨-, hc⟩) <;> omega
  · rw [if_neg h2]
    rcases vpic_get_highest_irrpin_range v.pic0 with h | ⟨p, _, h⟩
    · simp [h]
    · have hp : (p : Int) ≠ -1 := by omega
      rw [h] at h2 ⊢
      simp only [if_neg hp]
      constructor
      · intro hc; omega
      · rintro (hc | ⟨hc, -⟩)
        · omega
        · exact absurd hc h2

/-- Claim C10 (as amended) at the state of its counterexample. -/
theorem c10_pending_none_iff_witness :
    Reachable ex_masked_cascade ∧
      ((vpic_pending_intr ex_masked_cascade).2 = -1 ↔
        (vpic_get_highest_irrpin ex_masked_cascade.pic0 = -1 ∨
          (vpic_get_highest_irrpin ex_masked_cascade.pic0 = 2 ∧
            vpic_get_highest_irrpin ex_masked_cascade.pic1 = -1))) :=
  ⟨reachable_run _ _, c10_pending_none_iff ex_masked_cascade (reachable_run _ _)⟩

/-- Claim C11: for every chip state and every byte `x` with bit 4 set and either
SNGL (bit 1) set or IC4 (bit 0) clear, a command-port write of `x` returns an
error and leaves the chip not ready; afterwards no sequence of data-port writes
makes the chip ready, and neither does any sequence of public operations that
writes no valid ICW1 to the chip's command port. -/
theorem c11_invalid_icw1 (v : Vpic) (c : Chip) (x : Nat) (h4 : x.testBit 4 = true)
    (hbad : x.testBit 1 = true ∨ x.testBit 0 = false) :
    let w := vpic_write v c (cmd_port c) x
    w.2 ≠ 0 ∧ (w.1.pic c).ready = false ∧
    (∀ ds : List Nat,
      ((ds.foldl (fun s d => (vpic_write s c (data_port c) d).1) w.1).pic c).ready = false) ∧
    (∀ ops : List Op, (∀ op ∈ ops, ∀ y, icw1_byte c op y → ¬ icw1_valid y) →
      ((run w.1 ops).pic c).ready = false) := by
  intro w
  have e4 : (u8 x &&& bit 4) ≠ 0 := (u8_and_bit_ne_zero x 4 (by decide)).mpr h4
  have hinv : ¬ ((u8 x).testBit 0 = true ∧ (u8 x).testBit 1 = false) := by
    rw [testBit_u8, testBit_u8]
    simp only [show (0 : Nat) < 8 by decide, show (1 : Nat) < 8 by decide, decide_True,
      Bool.true_and]
    rintro ⟨a, b⟩
    rcases hbad with hb | hb
    · rw [hb] at b; cases b
    · rw [hb] at a; cases a
  have hw : w = (v.setPic c { v.pic c with
      ready := false, icw_num := 1, request := 0, mask := 0, lowprio := 7,
      rd_cmd_reg := 0, poll := false, smm := 0 }, -1) := by
    show vpic_write v c (cmd_port c) x = _
    simp [vpic_write, vpic_write_dispatch, cmd_port_even, e4, vpic_icw1_invalid _ _ hinv]
  have hJ : (w.1.pic c).ready = false ∧ (w.1.pic c).icw_num = 1 := by
    rw [hw]; simp
  refine ⟨by rw [hw]; exact (by decide : (-1 : Int) ≠ 0), hJ.1, fun ds => ?_,
    fun ops hops => ?_⟩
  · rw [run_data_writes]
    refine (run_not_ready c _ w.1 ?_ hJ).1
    intro op hop y hy
    obtain ⟨d, -, rfl⟩ := List.mem_map.mp hop
    exact absurd hy (icw1_byte_data_write c d y)
  · exact (run_not_ready c ops w.1 hops hJ).1

/-- Claim C11 for the byte `0x12` of scenario 6 on the master of a fresh
controller. -/
theorem c11_invalid_icw1_witness :
    (Nat.testBit 0x12 4 = true ∧ (Nat.testBit 0x12 1 = true ∨ Nat.testBit 0x12 0 = false)) ∧
    (let w := vpic_write (vpic_init .VPIC_WIRE_INTR) .master (cmd_port .master) 0x12
     w.2 ≠ 0 ∧ (w.1.pic .master).ready = false ∧
     (∀ ds : List Nat,
       ((ds.foldl (fun s d => (vpic_write s .master (data_port .master) d).1) w.1).pic
         .master).ready = false) ∧
     (∀ ops : List Op, (∀ op ∈ ops, ∀ y, icw1_byte .master op y → ¬ icw1_valid y) →
       ((run w.1 ops).pic .master).ready = false)) :=
  ⟨by decide, c11_invalid_icw1 (vpic_init .VPIC_WIRE_INTR) .master 0x12 (by decide)
    (by decide)⟩

/-- Claim C12: each of `vpic_assert_irq`, `vpic_deassert_irq` and
`vpic_pulse_irq` returns the error `-EINVAL` and leaves the controller
unchanged when `irq` is outside 0..15, and returns 0 and leaves the whole
controller unchanged (assertion counts and IRR included) when `irq` is in 0..15
and the addressed chip `irq >> 3` is not ready. -/
theorem c12_irq_range_and_not_ready (v : Vpic) (irq : Int) :
    ((irq < 0 ∨ 15 < irq) →
      vpic_assert_irq v irq = (v, -EINVAL) ∧ vpic_deassert_irq v irq = (v, -EINVAL) ∧
      vpic_pulse_irq v irq = (v, -EINVAL) ∧ -EINVAL ≠ 0) ∧
    ((0 ≤ irq ∧ irq ≤ 15) → (v.pic (pic_index (irq.toNat >>> 3))).ready = false →
      vpic_assert_irq v irq = (v, 0) ∧ vpic_deassert_irq v irq = (v, 0) ∧
      vpic_pulse_irq v irq = (v, 0)) := by
  constructor
  · intro h
    have h' : irq < 0 ∨ irq > 15 := h
    simp only [vpic_assert_irq, vpic_deassert_irq, vpic_pulse_irq, vpic_set_irqstate, h',
      if_true, true_and]
    decide
  · intro h hr
    have h' : ¬ (irq < 0 ∨ irq > 15) := by omega
    simp only [vpic_assert_irq, vpic_deassert_irq, vpic_pulse_irq, vpic_set_irqstate, h',
      if_false, hr, if_true, and_self]

/-- Claim C12 for IRQ 16 and for IRQ 3 on a fresh controller, whose chips are
not ready. -/
theorem c12_irq_range_and_not_ready_witness :
    (vpic_assert_irq (vpic_init .VPIC_WIRE_INTR) 16 = (vpic_init .VPIC_WIRE_INTR, -EINVAL) ∧
      vpic_deassert_irq (vpic_init .VPIC_WIRE_INTR) 16 = (vpic_init .VPIC_WIRE_INTR, -EINVAL) ∧
      vpic_pulse_irq (vpic_init .VPIC_WIRE_INTR) 16 = (vpic_init .VPIC_WIRE_INTR, -EINVAL) ∧
      -EINVAL ≠ 0) ∧
    (vpic_assert_irq (vpic_init .VPIC_WIRE_INTR) 3 = (vpic_init .VPIC_WIRE_INTR, 0) ∧
      vpic_deassert_irq (vpic_init .VPIC_WIRE_INTR) 3 = (vpic_init .VPIC_WIRE_INTR, 0) ∧
      vpic_pulse_irq (vpic_init .VPIC_WIRE_INTR) 3 = (vpic_init .VPIC_WIRE_INTR, 0)) :=
  ⟨(c12_irq_range_and_not_ready (vpic_init .VPIC_WIRE_INTR) 16).1 (by decide),
   (c12_irq_range_and_not_ready (vpic_init .VPIC_WIRE_INTR) 3).2 (by decide) (by decide)⟩

/-- Claim C13: `vpic_set_irq_trigger(irq, mode)` returns an error exactly when
`irq` is outside 0..15 or `mode` is level and `irq` is one of 0, 1, 2, 8, 13;
on error the controller is unchanged; on success only the `elc` of the
addressed chip changes, its bit `irq & 7` is set for level and cleared for
edge and its other bits are unchanged. -/
theorem c13_set_irq_trigger (v : Vpic) (irq : Int) (t : vpic_trigger) :
    let r := vpic_set_irq_trigger v irq t
    let c := pic_index (irq.toNat >>> 3)
    let bad := irq < 0 ∨ 15 < irq ∨
      (t = .LEVEL_TRIGGER ∧ (irq = 0 ∨ irq = 1 ∨ irq = 2 ∨ irq = 8 ∨ irq = 13))
    (r.2 ≠ 0 ↔ bad) ∧
    (bad → r.1 = v) ∧
    (¬ bad → r.2 = 0 ∧ ∃ e, r.1 = v.setPic c { v.pic c with elc := e } ∧
      ∀ j, j < 8 →
        e.testBit j =
          if j = and7 irq then decide (t = .LEVEL_TRIGGER) else (v.pic c).elc.testBit j) := by
  intro r c bad
  by_cases h1 : irq < 0 ∨ irq > 15
  · have hb : bad := by
      rcases h1 with h | h
      · exact Or.inl h
      · exact Or.inr (Or.inl h)
    have hr : r = (v, -EINVAL) := by
      show vpic_set_irq_trigger v irq t = _
      simp only [vpic_set_irq_trigger, h1, if_true]
    rw [hr]
    refine ⟨⟨fun _ => hb, fun _ => (by decide : -EINVAL ≠ 0)⟩, fun _ => rfl,
        fun hn => absurd hb hn⟩
  · by_cases h2 : t = .LEVEL_TRIGGER ∧ (irq = 0 ∨ irq = 1 ∨ irq = 2 ∨ irq = 8 ∨ irq = 13)
    · have hb : bad := Or.inr (Or.inr h2)
      have hr : r = (v, -EINVAL) := by
        show vpic_set_irq_trigger v irq t = _
        simp only [vpic_set_irq_trigger, h1, if_false, h2, and_self, if_true]
      rw [hr]
      refine ⟨⟨fun _ => hb, fun _ => (by decide : -EINVAL ≠ 0)⟩, fun _ => rfl,
        fun hn => absurd hb hn⟩
    · have hb : ¬ bad := by
        rintro (h | h | h)
        · exact h1 (Or.inl h)
        · exact h1 (Or.inr h)
        · exact h2 h
      have hr : r = if t = .LEVEL_TRIGGER then
            (v.setPic c { v.pic c with elc := u8 ((v.pic c).elc ||| bit (and7 irq)) }, 0)
          else
            (v.setPic c { v.pic c with elc := u8 ((v.pic c).elc &&& not32 (bit (and7 irq))) }, 0)
          := by
        show vpic_set_irq_trigger v irq t = _
        simp only [vpic_set_irq_trigger, h1, if_false, h2]
      refine ⟨⟨fun h => ?_, fun h => absurd h hb⟩, fun h => absurd h hb, fun _ => ?_⟩
      · exfalso
        apply h
        rw [hr]; split <;> rfl
      · by_cases ht : t = .LEVEL_TRIGGER
        · rw [hr, if_pos ht]
          refine ⟨rfl, _, rfl, fun j hj => ?_⟩
          rw [testBit_u8_or_bit_set _ _ _ hj]
          simp [ht]
        · rw [hr, if_neg ht]
          refine ⟨rfl, _, rfl, fun j hj => ?_⟩
          rw [testBit_u8_and_not_bit_clear _ _ _ hj]
          simp [ht]

/-- Claim C13 on the programmed master of scenario 1: level mode is refused for
IRQ 8 and accepted for IRQ 4. -/
theorem c13_set_irq_trigger_witness :
    (vpic_set_irq_trigger ex_basic_irq 8 .LEVEL_TRIGGER).2 ≠ 0 ∧
    (vpic_set_irq_trigger ex_basic_irq 8 .LEVEL_TRIGGER).1 = ex_basic_irq ∧
    (vpic_set_irq_trigger ex_basic_irq 4 .LEVEL_TRIGGER).2 = 0 :=
  ⟨(c13_set_irq_trigger ex_basic_irq 8 .LEVEL_TRIGGER).1.mpr (by decide),
   (c13_set_irq_trigger ex_basic_irq 8 .LEVEL_TRIGGER).2.1 (by decide),
   ((c13_set_irq_trigger ex_basic_irq 4 .LEVEL_TRIGGER).2.2 (by decide)).1⟩

/-- Claim C14: for a chip outside the ICW sequence (`icw_num` not 2, 3 or 4)
with poll mode not armed and every byte `x`, a 1-byte write of `x` to the
chip's data port followed by a 1-byte read of the same port returns exactly
`x`, and the chip's IMR equals `x`. -/
theorem c14_imr_roundtrip (v : Vpic) (c : Chip) (x e : Nat) (hx : x < 256)
    (h2 : (v.pic c).icw_num ≠ 2) (h3 : (v.pic c).icw_num ≠ 3) (h4 : (v.pic c).icw_num ≠ 4)
    (hp : (v.pic c).poll = false) :
    let w := vpic_handler c v false (data_port c) 1 x
    let r := vpic_handler c w.1 true (data_port c) 1 e
    w.2.1 = 0 ∧ r.2.1 = 0 ∧ r.2.2 = x ∧ (w.1.pic c).mask = x ∧ (r.1.pic c).mask = x := by
  intro w r
  have hw : w = ((vpic_write v c (data_port c) x).1, (vpic_write v c (data_port c) x).2, x) := by
    show vpic_handler c v false (data_port c) 1 x = _
    simp [vpic_handler]
  have hwr := vpic_write_ocw1 v c x h2 h3 h4
  have hpic : ∃ r ir, (vpic_write v c (data_port c) x).1.pic c =
      { v.pic c with mask := x, request := r, intr_raised := ir } ∧
      (vpic_write v c (data_port c) x).2 = 0 := by
    rw [hwr]
    split
    · obtain ⟨r, ir, hn⟩ := vpic_notify_intr_pic (vpic_ocw1 v c (u8 x)).1 c
      refine ⟨r, ir, ?_, rfl⟩
      simp only [hn, vpic_ocw1_pic, and_ff_of_lt x hx]
    · refine ⟨(v.pic c).request, (v.pic c).intr_raised, ?_, rfl⟩
      simp only [vpic_ocw1_pic, and_ff_of_lt x hx]
  obtain ⟨rq, ir, hpic, herr⟩ := hpic
  have hr : r = (w.1, 0, x) := by
    show vpic_handler c w.1 true (data_port c) 1 e = _
    rw [hw]
    simp [vpic_handler, vpic_read, hpic, hp, data_port_odd]
  rw [hr, hw]
  simp [hpic, herr]

/-- Claim C14 for the byte `0xFE` on the programmed master of scenario 1. -/
theorem c14_imr_roundtrip_witness :
    (0xfe < 256 ∧ (ex_basic_irq.pic .master).icw_num ≠ 2 ∧
      (ex_basic_irq.pic .master).icw_num ≠ 3 ∧ (ex_basic_irq.pic .master).icw_num ≠ 4 ∧
      (ex_basic_irq.pic .master).poll = false) ∧
    (let w := vpic_handler .master ex_basic_irq false (data_port .master) 1 0xfe
     let r := vpic_handler .master w.1 true (data_port .master) 1 0
     w.2.1 = 0 ∧ r.2.1 = 0 ∧ r.2.2 = 0xfe ∧ (w.1.pic .master).mask = 0xfe ∧
       (r.1.pic .master).mask = 0xfe) :=
  ⟨by decide, c14_imr_roundtrip ex_basic_irq .master 0xfe 0 (by decide) (by decide) (by decide)
    (by decide) (by decide)⟩

/-- Claim C15: a 1-byte write of `x` to the master ELCR port `0x4D0` followed
by a 1-byte read of `0x4D0` returns `x & 0xF8`, a 1-byte write of `x` to the
slave ELCR port `0x4D1` followed by a 1-byte read of `0x4D1` returns
`x & 0xDE`, and a write to one ELCR port leaves the other chip's ELCR
unchanged. -/
theorem c15_elcr_roundtrip (v : Vpic) (x e : Nat) :
    let wm := vpic_elc_handler v false 0x4d0 1 x
    let rm := vpic_elc_handler wm.1 true 0x4d0 1 e
    let ws := vpic_elc_handler v false 0x4d1 1 x
    let rs := vpic_elc_handler ws.1 true 0x4d1 1 e
    (wm.2.1 = 0 ∧ rm.2.1 = 0 ∧ rm.2.2 = x &&& 0xF8 ∧ wm.1.pic1.elc = v.pic1.elc) ∧
    (ws.2.1 = 0 ∧ rs.2.1 = 0 ∧ rs.2.2 = x &&& 0xDE ∧ ws.1.pic0.elc = v.pic0.elc) := by
  simp [vpic_elc_handler, IO_ELCR1, u8_and_lt]

/-- Claim C15 for the value `0xFF` on a fresh controller. -/
theorem c15_elcr_roundtrip_witness :
    let wm := vpic_elc_handler (vpic_init .VPIC_WIRE_INTR) false 0x4d0 1 0xff
    let rm := vpic_elc_handler wm.1 true 0x4d0 1 0
    let ws := vpic_elc_handler (vpic_init .VPIC_WIRE_INTR) false 0x4d1 1 0xff
    let rs := vpic_elc_handler ws.1 true 0x4d1 1 0
    (wm.2.1 = 0 ∧ rm.2.1 = 0 ∧ rm.2.2 = 0xff &&& 0xF8 ∧
      wm.1.pic1.elc = (vpic_init .VPIC_WIRE_INTR).pic1.elc) ∧
    (ws.2.1 = 0 ∧ rs.2.1 = 0 ∧ rs.2.2 = 0xff &&& 0xDE ∧
      ws.1.pic0.elc = (vpic_init .VPIC_WIRE_INTR).pic0.elc) :=
  c15_elcr_roundtrip (vpic_init .VPIC_WIRE_INTR) 0xff 0

/-- Claim C16: in every controller state reachable from `vpic_init` through the
public operations the master's ELCR has bits 0, 1 and 2 clear and the slave's
ELCR has bits 0 and 5 clear: IRQs 0, 1, 2, 8 and 13 are never
level-triggered. -/
theorem c16_elcr_edge_only (v : Vpic) (hv : Reachable v) :
    (v.pic0.elc.testBit 0 = false ∧ v.pic0.elc.testBit 1 = false ∧
      v.pic0.elc.testBit 2 = false) ∧
    (v.pic1.elc.testBit 0 = false ∧ v.pic1.elc.testBit 5 = false) := by
  have h : elc_edge_only .master v.pic0.elc ∧ elc_edge_only .slave v.pic1.elc := by
    induction hv with
    | init wm =>
      exact ⟨⟨Nat.zero_testBit 0, Nat.zero_testBit 1, Nat.zero_testBit 2⟩,
        ⟨Nat.zero_testBit 0, Nat.zero_testBit 5⟩⟩
    | @step v op _ ih =>
      exact ⟨picstep_elc .master _ _ (step_picstep v op .master) ih.1,
        picstep_elc .slave _ _ (step_picstep v op .slave) ih.2⟩
  exact h

/-- Claim C16 after a write of `0xFF` to both ELCR ports and a refused
`set_trigger(13, level)`. -/
theorem c16_elcr_edge_only_witness :
    Reachable (run (vpic_init .VPIC_WIRE_INTR)
      [.elc_io false 0x4d0 1 0xff, .elc_io false 0x4d1 1 0xff,
       .set_irq_trigger 13 .LEVEL_TRIGGER]) ∧
    (let v := run (vpic_init .VPIC_WIRE_INTR)
      [.elc_io false 0x4d0 1 0xff, .elc_io false 0x4d1 1 0xff,
       .set_irq_trigger 13 .LEVEL_TRIGGER]
     (v.pic0.elc.testBit 0 = false ∧ v.pic0.elc.testBit 1 = false ∧
       v.pic0.elc.testBit 2 = false) ∧
     (v.pic1.elc.testBit 0 = false ∧ v.pic1.elc.testBit 5 = false)) :=
  ⟨reachable_run _ _, c16_elcr_edge_only _ (reachable_run _ _)⟩

/-- Claim C17: in every controller state reachable from `vpic_init` through the
public operations both chips have `icw_num` in 0..4, `lowprio` in 0..7 and
`ready` only with `icw_num = 0`; and in every state reached after an
initialisation of a chip has completed (ICW4 accepted) that chip is ready
exactly when its `icw_num` is 0. -/
theorem c17_init_invariants :
    (∀ v : Vpic, Reachable v → ∀ c : Chip,
      (0 ≤ (v.pic c).icw_num ∧ (v.pic c).icw_num ≤ 4) ∧
      (0 ≤ (v.pic c).lowprio ∧ (v.pic c).lowprio ≤ 7) ∧
      ((v.pic c).ready = true → (v.pic c).icw_num = 0)) ∧
    (∀ (c : Chip) (v : Vpic), InitDone c v →
      ((v.pic c).ready = true ↔ (v.pic c).icw_num = 0)) :=
  ⟨fun v hv c => reachable_chip_wf v hv c, fun c v h => initdone_ready_iff c v h⟩

/-- Claim C17 at scenario 1, where the initialisation of the master has
completed. -/
theorem c17_init_invariants_witness :
    Reachable ex_basic_irq ∧ InitDone .master ex_basic_irq ∧
    ((0 ≤ (ex_basic_irq.pic .master).icw_num ∧ (ex_basic_irq.pic .master).icw_num ≤ 4) ∧
      (0 ≤ (ex_basic_irq.pic .master).lowprio ∧ (ex_basic_irq.pic .master).lowprio ≤ 7) ∧
      ((ex_basic_irq.pic .master).ready = true → (ex_basic_irq.pic .master).icw_num = 0)) ∧
    ((ex_basic_irq.pic .master).ready = true ↔ (ex_basic_irq.pic .master).icw_num = 0) :=
  have hd : InitDone .master ex_basic_irq :=
    InitDone.step (.assert_irq 0) (InitDone.step (.master_io false 0x21 1 0xfe)
      (InitDone.done (c := .master)
        (v := run (vpic_init .VPIC_WIRE_INTR)
          [.master_io false 0x20 1 0x11, .master_io false 0x21 1 0x20,
           .master_io false 0x21 1 0x04])
        0x01 (reachable_run _ _) (by decide) (by decide)))
  ⟨reachable_run _ _, hd, c17_init_invariants.1 ex_basic_irq (reachable_run _ _) .master,
    c17_init_invariants.2 .master ex_basic_irq hd⟩

/-- Claim C18: for every chip whose `aeoi` flag is set, no public operation
sets an ISR bit of that chip (its ISR after the operation is a subset of its
ISR before), and `vpic_pin_accepted` on such a chip leaves the ISR unchanged
and sets `lowprio` to the accepted pin exactly when `rotate` is set. -/
theorem c18_aeoi_no_isr (v : Vpic) (c : Chip) (h : (v.pic c).aeoi = true) :
    (∀ op : Op, ∀ i,
      ((step v op).pic c).service.testBit i = true → (v.pic c).service.testBit i = true) ∧
    (∀ pin : Nat,
      (vpic_pin_accepted (v.pic c) pin).service = (v.pic c).service ∧
      (vpic_pin_accepted (v.pic c) pin).lowprio =
        if (v.pic c).rotate = true then (pin : Int) else (v.pic c).lowprio) := by
  refine ⟨fun op i hi => ?_, fun pin => ?_⟩
  · exact (picstep_aeoi_service c _ _ (step_picstep v op c) h).2 i hi
  · obtain ⟨e1, -, e3⟩ := vpic_pin_accepted_aeoi (v.pic c) pin h
    exact ⟨e1, e3⟩

/-- Claim C18 on the slave in AEOI mode with IRQ10 pending. -/
theorem c18_aeoi_no_isr_witness :
    (ex_slave_polled.pic .slave).aeoi = true ∧
    (∀ op : Op, ∀ i,
      ((step ex_slave_polled op).pic .slave).service.testBit i = true →
        (ex_slave_polled.pic .slave).service.testBit i = true) ∧
    (∀ pin : Nat,
      (vpic_pin_accepted (ex_slave_polled.pic .slave) pin).service =
        (ex_slave_polled.pic .slave).service ∧
      (vpic_pin_accepted (ex_slave_polled.pic .slave) pin).lowprio =
        if (ex_slave_polled.pic .slave).rotate = true then (pin : Int)
        else (ex_slave_polled.pic .slave).lowprio) :=
  ⟨by decide, c18_aeoi_no_isr ex_slave_polled .slave (by decide)⟩

/-- Claim C19 (the code at the failing input): on a master that was programmed
in AEOI mode and re-initialised up to ICW3, the ICW4 byte `0x01` (bit 0 set,
bit 1 clear) is accepted and leaves `aeoi` set. -/
theorem c19_aeoi_not_cleared :
    Reachable ex_aeoi_reinit ∧
    (ex_aeoi_reinit.pic .master).icw_num = 4 ∧
    Nat.testBit 0x01 0 = true ∧ Nat.testBit 0x01 1 = false ∧
    (vpic_write ex_aeoi_reinit .master (data_port .master) 0x01).2 = 0 ∧
    ((vpic_write ex_aeoi_reinit .master (data_port .master) 0x01).1.pic .master).aeoi = true :=
  ⟨reachable_run _ _, by decide, by decide, by decide, by decide, by decide⟩

/-- Claim C20 (the code at the failing input): a non-specific EOI (`0x20`) to a
ready chip with nothing in service and pin 7 level-triggered issues
`ptdev_intx_ack`, with pin `-1` on the master and pin `7` on the slave. -/
theorem c20_ack_without_pin :
    (Reachable ex_level7_idle ∧ (ex_level7_idle.pic .master).ready = true ∧
      vpic_get_highest_isrpin (ex_level7_idle.pic .master) = -1 ∧
      (vpic_write ex_level7_idle .master (cmd_port .master) 0x20).1.trace =
        ex_level7_idle.trace ++ [.ptdev_ack (-1)]) ∧
    (Reachable ex_level15_idle ∧ (ex_level15_idle.pic .slave).ready = true ∧
      vpic_get_highest_isrpin (ex_level15_idle.pic .slave) = -1 ∧
      (vpic_write ex_level15_idle .slave (cmd_port .slave) 0x20).1.trace =
        ex_level15_idle.trace ++ [.ptdev_ack 7]) :=
  ⟨⟨reachable_run _ _, by decide, by decide, by decide⟩,
   ⟨reachable_run _ _, by decide, by decide, by decide⟩⟩

/-- Claim C21: `vpic_notify_intr` is idempotent: a second run right after the
first returns the controller of the first run, trace included (no ExtINT
injection, no LINT0, no I/O-APIC pulse), and makes no cascade pulse, that is
no call of `vpic_set_pinstate` (call depth 1 suffices). -/
theorem c21_notify_idempotent (v : Vpic) :
    vpic_notify_intr (vpic_notify_intr v) = vpic_notify_intr v ∧
    (vpic_notify_intr (vpic_notify_intr v)).trace = (vpic_notify_intr v).trace ∧
    ¬ ((vpic_notify_intr v).pic1.intr_raised = false ∧
      vpic_get_highest_irrpin (vpic_notify_intr v).pic1 ≠ -1) ∧
    vpic_notify_intr_fuel 1 (vpic_notify_intr v) = some (vpic_notify_intr v) := by
  have hq := vpic_notify_intr_slave_quiet v
  have h1 : vpic_notify_intr (vpic_notify_intr v) = vpic_notify_intr v := by
    conv_lhs => rw [vpic_notify_intr_eq]
    rw [if_neg hq]
    obtain ⟨u, hu⟩ := vpic_notify_intr_is_notify_master v
    rw [hu]
    exact notify_master_idem u
  refine ⟨h1, by rw [h1], hq, ?_⟩
  rw [vpic_notify_intr_fuel_quiet 0 _ hq]
  obtain ⟨u, hu⟩ := vpic_notify_intr_is_notify_master v
  rw [hu, notify_master_idem]

/-- Claim C21 at a state where the first run changes the controller: the slave
has IRQ10 pending with `intr_raised` clear, so the first run latches the
slave's `intr_raised` and makes the cascade pulse. -/
theorem c21_notify_idempotent_witness :
    (vpic_notify_intr ex_slave_polled ≠ ex_slave_polled) ∧
    vpic_notify_intr (vpic_notify_intr ex_slave_polled) = vpic_notify_intr ex_slave_polled ∧
    (vpic_notify_intr (vpic_notify_intr ex_slave_polled)).trace =
      (vpic_notify_intr ex_slave_polled).trace :=
  ⟨fun h => absurd (congrArg (fun s => s.pic1.intr_raised) h) (by decide),
    (c21_notify_idempotent ex_slave_polled).1, (c21_notify_idempotent ex_slave_polled).2.1⟩

/-- Claim C22: the mutual recursion of `vpic_notify_intr` and
`vpic_set_pinstate` terminates on every controller: call depth 3 (and any
larger one) gives the result of `vpic_notify_intr`, depth 4 that of
`vpic_set_pinstate`; a pin-2 update made with the slave's `intr_raised`
latched runs a notification of the master half only, which keeps the latch; a
top-level notification makes at most two nested notification calls (three
calls with itself), and so does the notification ending a top-level
`vpic_set_pinstate`. -/
theorem c22_recursion_terminates :
    (∀ n v, vpic_notify_intr_fuel (n + 3) v = some (vpic_notify_intr v)) ∧
    (∀ n v pin b, vpic_set_pinstate_fuel (n + 4) v pin b = some (vpic_set_pinstate v pin b)) ∧
    (∀ n u b, u.pic1.intr_raised = true →
      vpic_set_pinstate_fuel (n + 2) u 2 b = some (notify_master (pinstate_update u 2 b)) ∧
      (notify_master (pinstate_update u 2 b)).pic1.intr_raised = true) ∧
    (∀ n v, ∃ k, vpic_notify_intr_calls (n + 3) v = some (vpic_notify_intr v, k) ∧ k ≤ 1 + 2) ∧
    (∀ n v pin b, ∃ k,
      vpic_set_pinstate_calls (n + 4) v pin b = some (vpic_set_pinstate v pin b, k) ∧
      k ≤ 1 + 2) := by
  have hk : ∀ n v, ∃ k, vpic_notify_intr_calls (n + 3) v = some (vpic_notify_intr v, k) ∧
      k ≤ 1 + 2 := by
    intro n v
    refine ⟨_, vpic_notify_intr_calls_eq n v, ?_⟩
    split <;> omega
  refine ⟨?_, ?_, ?_, hk, ?_⟩
  · intro n v
    rw [vpic_notify_intr_fuel_eq, vpic_notify_intr_eq]
  · intro n v pin b
    rw [vpic_set_pinstate_fuel_eq, vpic_set_pinstate_eq]
  · intro n u b hu
    exact vpic_set_pinstate_fuel_latched n u b hu
  · intro n v pin b
    obtain ⟨k, h1, h2⟩ := hk n (pinstate_update v pin b)
    refine ⟨k, ?_, h2⟩
    simp only [vpic_set_pinstate_calls]
    rw [h1, vpic_set_pinstate_eq]

/-- Claim C22 at a state where the cascade pulse is made: the slave has IRQ10
pending with `intr_raised` clear, the notification makes exactly two nested
calls, and depth 2 is not enough. -/
theorem c22_recursion_terminates_witness :
    vpic_notify_intr_fuel 3 ex_slave_polled = some (vpic_notify_intr ex_slave_polled) ∧
    (vpic_notify_intr_calls 3 ex_slave_polled).map Prod.snd = some 3 ∧
    (vpic_notify_intr_fuel 2 ex_slave_polled).isNone = true :=
  ⟨c22_recursion_terminates.1 0 ex_slave_polled, by decide, by decide⟩

end Acrn
